import Mathlib

/-!
# Verification of the node-config merge / clone / diff / immutability engine

Shallow embedding of `src/lib/config.js` (the only source file of the
repository).  JavaScript values are modelled as the inductive tree type
`JsVal`; in-place mutation of objects becomes explicit rebuilding of the
tree.  The classes `DeferredConfig` (from `../defer`) and `RawConfig`
(from `../raw`) are not part of `src/`, so their instances are modelled
from the spec as tagged leaves (`vDeferred`, `vRaw`): a deferred value
wraps a resolver (represented by an index into a resolver environment,
since functions cannot be stored in the inductive) together with an
`_original` payload; a raw value wraps its payload.

Numbers are modelled as `Int` (no claim involves fractional or NaN
arithmetic).  Accessor properties (getters/setters) are not modelled:
every property is a data property, for which the
`Object.defineProperty`-based copies in the source coincide with plain
assignment.

Recursive functions over `JsVal` are written structurally on an
explicit `fuel : Nat` (the per-property loops take the recursive call
as a parameter), so that every definition is a plain structural
recursion that the kernel can evaluate.  The fuel of each entry point
is chosen so that the out-of-fuel branch is unreachable: either
`jsSize` of the value the JS recursion structurally descends into, or,
for `extendDeep` — whose recursion is bounded by its `depth` counter,
not by its arguments — `(depth + 1).toNat`, with the out-of-fuel result
equal to the `depth < 0` result.
-/

namespace NodeConfig

/-- A JavaScript value, as a tree.  `vObj` carries the own enumerable
properties in insertion order; `vArr` the elements.  `vDeferred id orig`
models a `DeferredConfig` instance (`id` indexes the resolver function,
`orig` is the `_original` own property, `none` when never assigned).
`vRaw` models a `RawConfig` instance wrapping its payload. -/
inductive JsVal where
  | vNull : JsVal
  | vUndef : JsVal
  | vBool (b : Bool) : JsVal
  | vNum (n : Int) : JsVal
  | vStr (s : String) : JsVal
  | vDate (t : Int) : JsVal
  | vRegex (src : String) (g i m : Bool) : JsVal
  | vDeferred (id : Nat) (orig : Option JsVal) : JsVal
  | vRaw (payload : JsVal) : JsVal
  | vArr (elems : List JsVal) : JsVal
  | vObj (props : List (String × JsVal)) : JsVal
  deriving Repr

namespace JsVal

/-- JavaScript truthiness: `false`, `0`, `""`, `null`, `undefined` are
falsy (NaN is not modelled); every object is truthy. -/
def truthy : JsVal → Bool
  | vNull => false
  | vUndef => false
  | vBool b => b
  | vNum n => n != 0
  | vStr s => s ≠ ""
  | _ => true

/-- `typeof v === 'object'` — true for `null`, objects, arrays, dates,
regexes, deferred and raw instances; false for the other primitives. -/
def typeofObject : JsVal → Bool
  | vNull => true
  | vUndef => false
  | vBool _ => false
  | vNum _ => false
  | vStr _ => false
  | _ => true

/-- `util.isObject` from the source: a JS object that is not an array
(`obj !== null && typeof obj === 'object' && !Array.isArray(obj)`). -/
def isObject : JsVal → Bool
  | vNull => false
  | vArr _ => false
  | v => typeofObject v

def isArray : JsVal → Bool
  | vArr _ => true
  | _ => false

def isDeferred : JsVal → Bool
  | vDeferred _ _ => true
  | _ => false

def isRaw : JsVal → Bool
  | vRaw _ => true
  | _ => false

def isDate : JsVal → Bool
  | vDate _ => true
  | _ => false

def isRegex : JsVal → Bool
  | vRegex _ _ _ _ => true
  | _ => false

def isNum : JsVal → Bool
  | vNum _ => true
  | _ => false

/-- JavaScript strict equality `===` restricted to the tree model.
Primitives compare by value.  For values with object identity (objects,
arrays, dates, regexes, deferred/raw instances) the result is `false`:
two separately built trees are distinct references in JS.  Where the two
JS references actually coincide, every use of `===` in the source is a
fast path whose skipped structural comparison returns the same verdict
on tree values, so this conservative choice is observation-equivalent. -/
def strictEq : JsVal → JsVal → Bool
  | vNull, vNull => true
  | vUndef, vUndef => true
  | vBool a, vBool b => a == b
  | vNum a, vNum b => a == b
  | vStr a, vStr b => a == b
  | _, _ => false

end JsVal

open JsVal

/-!
### Size, and decidable equality

`jsSize` is a hand-written structural size (the auto-generated `sizeOf`
of a nested inductive has no executable code); it serves as recursion
fuel for the embedded functions below.  `jsBeq` with its reflexivity
and soundness gives decidable equality.
-/

mutual

def jsSize : JsVal → Nat
  | vDeferred _ o => 1 + jsSizeO o
  | vRaw x => 1 + jsSize x
  | vArr es => 1 + jsSizeL es
  | vObj ps => 1 + jsSizeP ps
  | _ => 1
termination_by structural v => v

def jsSizeL : List JsVal → Nat
  | [] => 0
  | e :: r => jsSize e + jsSizeL r
termination_by structural l => l

def jsSizeP : List (String × JsVal) → Nat
  | [] => 0
  | (_, v) :: r => jsSize v + jsSizeP r
termination_by structural l => l

def jsSizeO : Option JsVal → Nat
  | none => 0
  | some v => jsSize v
termination_by structural o => o

end

mutual

def jsBeq : JsVal → JsVal → Bool
  | vNull, vNull => true
  | vUndef, vUndef => true
  | vBool a, vBool b => a == b
  | vNum a, vNum b => a == b
  | vStr a, vStr b => a == b
  | vDate a, vDate b => a == b
  | vRegex s g i m, vRegex s' g' i' m' => s == s' && g == g' && i == i' && m == m'
  | vDeferred id o, vDeferred id' o' => id == id' && jsBeqO o o'
  | vRaw a, vRaw b => jsBeq a b
  | vArr a, vArr b => jsBeqL a b
  | vObj a, vObj b => jsBeqP a b
  | _, _ => false
termination_by structural a => a

def jsBeqL : List JsVal → List JsVal → Bool
  | [], [] => true
  | a :: r, b :: s => jsBeq a b && jsBeqL r s
  | _, _ => false
termination_by structural a => a

def jsBeqP : List (String × JsVal) → List (String × JsVal) → Bool
  | [], [] => true
  | (k, a) :: r, (k', b) :: s => k == k' && jsBeq a b && jsBeqP r s
  | _, _ => false
termination_by structural a => a

def jsBeqO : Option JsVal → Option JsVal → Bool
  | none, none => true
  | some a, some b => jsBeq a b
  | _, _ => false
termination_by structural a => a

end

mutual

theorem jsBeq_refl : ∀ a : JsVal, jsBeq a a = true
  | vNull => rfl
  | vUndef => rfl
  | vBool _ => by simp [jsBeq]
  | vNum _ => by simp [jsBeq]
  | vStr _ => by simp [jsBeq]
  | vDate _ => by simp [jsBeq]
  | vRegex _ _ _ _ => by simp [jsBeq]
  | vDeferred _ o => by simp [jsBeq, jsBeqO_refl o]
  | vRaw a => by simp [jsBeq, jsBeq_refl a]
  | vArr a => by simp [jsBeq, jsBeqL_refl a]
  | vObj a => by simp [jsBeq, jsBeqP_refl a]
termination_by structural a => a

theorem jsBeqL_refl : ∀ a : List JsVal, jsBeqL a a = true
  | [] => rfl
  | a :: r => by simp [jsBeqL, jsBeq_refl a, jsBeqL_refl r]
termination_by structural a => a

theorem jsBeqP_refl : ∀ a : List (String × JsVal), jsBeqP a a = true
  | [] => rfl
  | (_, v) :: r => by simp [jsBeqP, jsBeq_refl v, jsBeqP_refl r]
termination_by structural a => a

theorem jsBeqO_refl : ∀ a : Option JsVal, jsBeqO a a = true
  | none => rfl
  | some v => by simp [jsBeqO, jsBeq_refl v]
termination_by structural a => a

end

mutual

theorem jsBeq_sound : ∀ a b : JsVal, jsBeq a b = true → a = b
  | vNull, b => by cases b <;> simp [jsBeq]
  | vUndef, b => by cases b <;> simp [jsBeq]
  | vBool _, b => by cases b <;> simp [jsBeq]
  | vNum _, b => by cases b <;> simp [jsBeq]
  | vStr _, b => by cases b <;> simp [jsBeq]
  | vDate _, b => by cases b <;> simp [jsBeq]
  | vRegex _ _ _ _, b => by (cases b <;> simp [jsBeq]); tauto
  | vDeferred _ o, b => by
    cases b <;> simp [jsBeq]
    rename_i o'
    intro h ho
    exact ⟨h, jsBeqO_sound o o' ho⟩
  | vRaw a, b => by
    cases b <;> simp [jsBeq]
    rename_i c
    intro h
    exact jsBeq_sound a c h
  | vArr a, b => by
    cases b <;> simp [jsBeq]
    rename_i c
    intro h
    exact jsBeqL_sound a c h
  | vObj a, b => by
    cases b <;> simp [jsBeq]
    rename_i c
    intro h
    exact jsBeqP_sound a c h
termination_by structural a => a

theorem jsBeqL_sound : ∀ a b : List JsVal, jsBeqL a b = true → a = b
  | [], b => by cases b <;> simp [jsBeqL]
  | a :: r, b => by
    cases b with
    | nil => simp [jsBeqL]
    | cons b s =>
      simp only [jsBeqL, Bool.and_eq_true, List.cons.injEq]
      exact fun ⟨h1, h2⟩ => ⟨jsBeq_sound a b h1, jsBeqL_sound r s h2⟩
termination_by structural a => a

theorem jsBeqP_sound : ∀ a b : List (String × JsVal), jsBeqP a b = true → a = b
  | [], b => by cases b <;> simp [jsBeqP]
  | (k, a) :: r, b => by
    cases b with
    | nil => simp [jsBeqP]
    | cons p s =>
      obtain ⟨k', v'⟩ := p
      simp only [jsBeqP, Bool.and_eq_true, List.cons.injEq, beq_iff_eq,
        Prod.mk.injEq]
      exact fun ⟨⟨hk, h1⟩, h2⟩ =>
        ⟨⟨hk, jsBeq_sound a v' h1⟩, jsBeqP_sound r s h2⟩
termination_by structural a => a

theorem jsBeqO_sound : ∀ a b : Option JsVal, jsBeqO a b = true → a = b
  | none, b => by cases b <;> simp [jsBeqO]
  | some a, b => by
    cases b <;> simp [jsBeqO]
    rename_i c
    intro h
    exact jsBeq_sound a c h
termination_by structural a => a

end

instance : DecidableEq JsVal := fun a b =>
  if h : jsBeq a b = true then .isTrue (jsBeq_sound a b h)
  else .isFalse (fun e => h (e ▸ jsBeq_refl a))

/-!
### String helpers

Kernel-evaluable stand-ins for `String.toNat?` and `String.splitOn`
(whose library implementations do not reduce): a canonical decimal
parser for array-index keys — JS treats only the canonical decimal
form as an index, so `"01"` is not one — and a split on `'.'`.
-/

def charDigit? (c : Char) : Option Nat :=
  if '0' ≤ c ∧ c ≤ '9' then some (c.toNat - '0'.toNat) else none

def digitsToNat : List Char → Nat → Option Nat
  | [], acc => some acc
  | c :: r, acc =>
    match charDigit? c with
    | some d => digitsToNat r (acc * 10 + d)
    | none => none

/-- Parse a canonical decimal array index. -/
def strToNat? (s : String) : Option Nat :=
  match s.data with
  | [] => none
  | ['0'] => some 0
  | '0' :: _ => none
  | l => digitsToNat l 0

def splitDot : List Char → List (List Char)
  | [] => [[]]
  | c :: r =>
    match splitDot r with
    | [] => [[c]]                -- unreachable: splitDot is never empty
    | g :: gs => if c = '.' then [] :: g :: gs else (c :: g) :: gs

/-- `s.split('.')` — in particular `"".split('.')` is `[""]`. -/
def strSplitDot (s : String) : List String :=
  (splitDot s.data).map String.mk

/-- Own enumerable properties as seen by `for..in` / `Object.keys`.
Objects yield their property list, arrays and strings their indices
(as decimal strings).  A `DeferredConfig` instance exposes its
`_original` own property once it has been assigned (modelled from the
spec; `defer.js` is not in `src/`); `RawConfig`, dates and regexes have
no own enumerable properties. -/
def forInProps : JsVal → List (String × JsVal)
  | vObj props => props
  | vArr es => (es.enum.map fun (i, e) => (toString i, e))
  | vStr s => (s.data.enum.map fun (i, c) => (toString i, vStr (String.mk [c])))
  | vDeferred _ (some o) => [("_original", o)]
  | _ => []

def forInKeys (v : JsVal) : List String := (forInProps v).map Prod.fst

/-- First-match association lookup on a property list. -/
def propLookup (props : List (String × JsVal)) (k : String) : Option JsVal :=
  match props with
  | [] => none
  | (k', v) :: rest => if k' = k then some v else propLookup rest k

/-- Replace the first binding of `k`, or append a new one (JS property
write on a plain object). -/
def propWrite (props : List (String × JsVal)) (k : String) (v : JsVal) :
    List (String × JsVal) :=
  match props with
  | [] => [(k, v)]
  | (k', v') :: rest =>
    if k' = k then (k', v) :: rest else (k', v') :: propWrite rest k v

/-- Property read `receiver[k]`.  `none` models the TypeError thrown by
reading a property of `null`/`undefined`; all other receivers answer
(primitives through boxing, missing properties as `undefined`). -/
def getMember : JsVal → String → Option JsVal
  | vNull, _ => none
  | vUndef, _ => none
  | vObj props, k => some ((propLookup props k).getD vUndef)
  | vArr es, k =>
    if k = "length" then some (vNum es.length)
    else some (((strToNat? k).bind fun i => es[i]?).getD vUndef)
  | vStr s, k =>
    if k = "length" then some (vNum s.data.length)
    else some (((strToNat? k).bind fun i =>
      (s.data[i]?.map fun c => vStr (String.mk [c]))).getD vUndef)
  | vDeferred _ (some o), k => some (if k = "_original" then o else vUndef)
  | _, _ => some vUndef

/-- Property write `receiver[k] = v` (sloppy mode).  `none` models the
TypeError on `null`/`undefined`; writes to other primitives are silent
no-ops; array writes hit an existing index or append at `length`
(sparse extension is not modelled — no claim exercises it); assigning
`_original` on a deferred instance stores the payload (the only
instance write the source performs, in `extendDeep`). -/
def setMember : JsVal → String → JsVal → Option JsVal
  | vNull, _, _ => none
  | vUndef, _, _ => none
  | vObj props, k, v => some (vObj (propWrite props k v))
  | vArr es, k, v =>
    some (vArr (match strToNat? k with
      | some i => if i < es.length then es.set i v
                  else if i = es.length then es ++ [v] else es
      | none => es))
  | vDeferred id orig, k, v =>
    some (if k = "_original" then vDeferred id (some v) else vDeferred id orig)
  | v, _, _ => some v

/-- `receiver.hasOwnProperty(k)`. -/
def hasOwnProp (v : JsVal) (k : String) : Bool :=
  (forInKeys v).contains k

/-!
## The `depth` argument

Several utilities take an optional recursion depth.  The source checks
`depth === null` (strict equality), so an **undefined** depth — the
common case, when the caller omits the argument — is *not* replaced by
the default 20: `undefined < 0` is false and `undefined - 1` is `NaN`,
for which `NaN < 0` is also false, so recursion is then unbounded.
`JsD.undef` models both `undefined` and the `NaN` it decays to (they
are indistinguishable to the two operations used: `< 0` and `- 1`).
-/
inductive JsD where
  | undef : JsD
  | null : JsD
  | num (n : Int) : JsD
  deriving DecidableEq, Repr

namespace JsD

/-- `depth = (depth === null ? DEFAULT_CLONE_DEPTH : depth)` -/
def normalize : JsD → JsD
  | null => num 20
  | d => d

/-- `depth < 0` (false for `undefined`/`NaN`). -/
def ltZero : JsD → Bool
  | num n => n < 0
  | _ => false

/-- `depth - 1` (`undefined - 1` and `NaN - 1` are `NaN`). -/
def pred : JsD → JsD
  | num n => num (n - 1)
  | _ => undef

end JsD

/-!
## `util.equalsDeep` (config.js lines 790–835)

Faithful translation.  Note the depth-exhaustion branch returns an
empty **object** (`return {}`), exactly as the source does, so the
function's result type is `JsVal`, not `Bool`.  The per-property reads
`object1[prop]` / `object2[prop]` use the captured property list /
lookup — the source performs no mutation here, so live and captured
reads agree.  The JS recursion descends into a property value of
`object1`, so `jsSize object1` bounds its nesting depth, and the
out-of-fuel branch of `equalsDeepF` is unreachable from the entry
point `equalsDeep`.
-/

/-- One iteration of the `for (var prop in object1)` comparison loop,
for property `k` of `object1` whose value there is `v1`; `recur` is
the recursive `util.equalsDeep` call. -/
def equalsStepG (recur : JsVal → JsVal → JsD → JsVal)
    (v1 : JsVal) (k : String) (object2 : JsVal) (depth : JsD) : Bool :=
  let v2 := (getMember object2 k).getD vUndef    -- object2 is a truthy object here
  if v1.truthy ∧ v1.typeofObject then (recur v1 v2 depth).truthy
  else v1.strictEq v2

def equalsPropsG (recur : JsVal → JsVal → JsD → JsVal)
    (props : List (String × JsVal)) (object2 : JsVal) (depth : JsD) : Bool :=
  match props with
  | [] => true
  | (k, v1) :: rest =>
    equalsStepG recur v1 k object2 depth && equalsPropsG recur rest object2 depth

def equalsElemsG (recur : JsVal → JsVal → JsD → JsVal)
    (es : List JsVal) (i : Nat) (object2 : JsVal) (depth : JsD) : Bool :=
  match es with
  | [] => true
  | e :: rest =>
    equalsStepG recur e (toString i) object2 depth &&
      equalsElemsG recur rest (i + 1) object2 depth

def equalsDeepF : Nat → JsVal → JsVal → JsD → JsVal
  | 0 => fun _ _ _ => vBool false               -- out of fuel: unreachable
  | fuel + 1 => fun object1 object2 depth =>
    let d := depth.normalize
    if d.ltZero then vObj []                    -- `return {}` (sic)
    else if ¬object1.truthy ∨ ¬object2.truthy then vBool false
    else if object1.strictEq object2 then vBool true
    else if ¬object1.typeofObject ∨ ¬object2.typeofObject then vBool false
    else if (forInProps object1).length ≠ (forInProps object2).length then vBool false
    else
      -- the `for (var prop in object1)` loop, dispatched on object1's
      -- kind (a truthy object here: vObj, vArr, vDate, vRegex,
      -- vDeferred or vRaw; the last four have at most the `_original`
      -- own enumerable property)
      match object1 with
      | vObj props => vBool (equalsPropsG (equalsDeepF fuel) props object2 d.pred)
      | vArr es => vBool (equalsElemsG (equalsDeepF fuel) es 0 object2 d.pred)
      | vDeferred _ (some o) =>
        vBool (equalsStepG (equalsDeepF fuel) o "_original" object2 d.pred)
      | _ => vBool true

/-- `util.equalsDeep(object1, object2, depth)`. -/
def equalsDeep (object1 object2 : JsVal) (depth : JsD) : JsVal :=
  equalsDeepF (jsSize object1) object1 object2 depth

/-!
## `util.getRegExpFlags` (lines 1116–1122) and `util.cloneDeep` (683–752)

`cloneDeep(parent, depth, circular, prototype)`: `circular` defaults to
`true` and `prototype` to `undefined`; in the tree model every value is
a distinct reference, so the `allParents.indexOf(parent)` cycle check
never hits and is omitted (`indexOf` uses `===`, reference equality).
Buffers are not modelled.  `depth` is a number here: the callers
relevant to the claims pass one (`extendDeep` passes `depth - 1`) or
omit it, in which case the function itself defaults it to 20 — note
`cloneDeep`, unlike the other utilities, tests `typeof depth ===
'undefined'`, so its default really applies.  The truncation test is
`depth === 0`, an exact comparison: a negative starting depth never
truncates.  The `_clone` recursion is structural in `parent`, so
`jsSize parent` bounds it.
-/

/-- Flags string rebuilt from `global`/`ignoreCase`/`multiline` (any
other flag of the original is dropped by the source). -/
def getRegExpFlags (g i m : Bool) : String :=
  (if g then "g" else "") ++ (if i then "i" else "") ++ (if m then "m" else "")

def clonePropsG (recur : JsVal → Int → JsVal)
    (props : List (String × JsVal)) (depth : Int) : List (String × JsVal) :=
  match props with
  | [] => []
  | (k, v) :: rest => (k, recur v depth) :: clonePropsG recur rest depth

def cloneElemsG (recur : JsVal → Int → JsVal)
    (es : List JsVal) (depth : Int) : List JsVal :=
  match es with
  | [] => []
  | e :: rest => recur e depth :: cloneElemsG recur rest depth

/-- The inner `_clone(parent, depth)` of `util.cloneDeep`. -/
def cloneVF : Nat → JsVal → Int → JsVal
  | 0 => fun parent _ => parent                 -- out of fuel: unreachable
  | fuel + 1 => fun parent depth =>
    match parent with
    | vNull => vNull
    | p =>
      if depth = 0 then p
      else match p with
        | vArr es => vArr (cloneElemsG (cloneVF fuel) es (depth - 1))
        | vRegex s g i m =>
          -- new RegExp(parent.source, getRegExpFlags(parent)); the
          -- rebuilt flag string carries exactly g/i/m; `lastIndex` is
          -- not modelled
          match getRegExpFlags g i m with
          | _ => vRegex s g i m
        | vDate t => vDate t                    -- new Date(parent.getTime())
        | vObj props => vObj (clonePropsG (cloneVF fuel) props (depth - 1))
        | vDeferred id o =>
          -- generic branch: Object.create(Object.getPrototypeOf(parent))
          -- keeps the DeferredConfig prototype (hence the resolver), and
          -- the own-property loop copies `_original` (defer.js is not in
          -- src/; instance layout modelled from the spec)
          vDeferred id (match o with
            | none => none
            | some v => some (cloneVF fuel v (depth - 1)))
        | vRaw x => vRaw x
          -- generic branch for a RawConfig instance: the copied own
          -- `resolve` closure still captures the same payload (raw.js
          -- is not in src/; modelled from the spec)
        | prim => prim                          -- typeof parent != 'object'

/-- `_clone(parent, depth)` with enough fuel. -/
def cloneV (parent : JsVal) (depth : Int) : JsVal :=
  cloneVF (jsSize parent) parent depth

/-- `util.cloneDeep` with the argument defaults applied
(`depth` defaults to 20 via the `typeof depth === 'undefined'` test). -/
def cloneDeep (parent : JsVal) (depth : Int := 20) : JsVal :=
  cloneV parent depth

/-!
## `util.diffDeep` (lines 857–889)

Reading `object1[parm]` throws a TypeError when `object1` is
`null`/`undefined`, hence the `Option` result.  The inner `equalsDeep`
calls pass **no** depth argument (so `undefined`, i.e. unbounded); only
the `diffDeep` recursion carries `depth - 1`.  The recursion descends
into a property value of `object2`, so `jsSize object2` bounds it.
-/

/-- Write into the `diff` accumulator (always a plain object, so the
member write cannot fail). -/
def objWrite (o : JsVal) (k : String) (v : JsVal) : JsVal :=
  (setMember o k v).getD o

/-- One iteration of the diff loop for property `parm` of `object2`
holding `value2` there; `recur` is the recursive `util.diffDeep` call. -/
def diffStepG (recur : JsVal → JsVal → JsD → Option JsVal)
    (object1 : JsVal) (parm : String) (value2 : JsVal)
    (diff : JsVal) (d : JsD) : Option JsVal := do
  let value1 ← getMember object1 parm
  if value1.truthy ∧ value2.truthy ∧ value2.isObject then
    if ¬(equalsDeep value1 value2 JsD.undef).truthy then do
      let sub ← recur value1 value2 d.pred
      pure (objWrite diff parm sub)
    else pure diff
  else if value1.isArray ∧ value2.isArray then
    if ¬(equalsDeep value1 value2 JsD.undef).truthy then
      pure (objWrite diff parm value2)
    else pure diff
  else if ¬ value1.strictEq value2 then pure (objWrite diff parm value2)
  else pure diff

def diffPropsG (recur : JsVal → JsVal → JsD → Option JsVal)
    (object1 : JsVal) (props2 : List (String × JsVal))
    (diff : JsVal) (d : JsD) : Option JsVal :=
  match props2 with
  | [] => some diff
  | (parm, value2) :: rest => do
    diffPropsG recur object1 rest (← diffStepG recur object1 parm value2 diff d) d

def diffElemsG (recur : JsVal → JsVal → JsD → Option JsVal)
    (object1 : JsVal) (es : List JsVal) (i : Nat)
    (diff : JsVal) (d : JsD) : Option JsVal :=
  match es with
  | [] => some diff
  | e :: rest => do
    diffElemsG recur object1 rest (i + 1)
      (← diffStepG recur object1 (toString i) e diff d) d

/-- Specialisation of the loop body for the index properties of a
string `object2`: a one-character string value is never an object nor
an array, so only the final `value1 !== value2` comparison can apply —
no recursion. -/
def diffChars (object1 : JsVal) (cs : List Char) (i : Nat)
    (diff : JsVal) (d : JsD) : Option JsVal :=
  match cs with
  | [] => some diff
  | c :: rest => do
    let value1 ← getMember object1 (toString i)
    let value2 := vStr (String.mk [c])
    let diff' := if ¬ value1.strictEq value2 then objWrite diff (toString i) value2 else diff
    diffChars object1 rest (i + 1) diff' d

def diffDeepF : Nat → JsVal → JsVal → JsD → Option JsVal
  | 0 => fun _ _ _ => some (vObj [])            -- out of fuel: unreachable
  | fuel + 1 => fun object1 object2 depth =>
    let d := depth.normalize
    if d.ltZero then some (vObj [])
    else
      -- `for (var parm in object2)`, dispatched on object2's kind
      match object2 with
      | vObj props => diffPropsG (diffDeepF fuel) object1 props (vObj []) d
      | vArr es => diffElemsG (diffDeepF fuel) object1 es 0 (vObj []) d
      | vStr s => diffChars object1 s.data 0 (vObj []) d
      | vDeferred _ (some o) => diffStepG (diffDeepF fuel) object1 "_original" o (vObj []) d
      | _ => some (vObj [])

/-- `util.diffDeep(object1, object2, depth)`. -/
def diffDeep (object1 object2 : JsVal) (depth : JsD) : Option JsVal :=
  diffDeepF (jsSize object2) object1 object2 depth

/-!
## `util.extendDeep` (lines 904–959)

The JS recursion terminates because every recursive call
(`util.extendDeep(mergeInto[prop], mergeFrom[prop], depth - 1)`)
decrements `depth` and the entry guard `depth < 0` stops it; the fuel
mirrors that bound (`fuel = (depth + 1).toNat` at the entry point), and
the out-of-fuel branch returns `mergeInto` — the same result the
`depth < 0` guard produces at the moment the fuel can run out.

`Option` models the TypeError on member access when `mergeInto` is
`null`/`undefined`; no other statement of the function can throw.
-/

/-- `if (mergeFrom[prop] instanceof Date) { mergeInto[prop] = mergeFrom[prop]; }`
(no `else` follows in the source). -/
def dateAssign (into : JsVal) (k : String) (fv : JsVal) : Option JsVal :=
  if fv.isDate then setMember into k fv else pure into

/-- The `_original` propagation:
`if (fromIsDeferredFunc && mergeInto.hasOwnProperty(prop)) {
  mergeFrom[prop]._original = isDeferredFunc ? mergeInto[prop]._original : mergeInto[prop]; }`
returning the updated `mergeFrom`. -/
def deferredOriginalStep (into mergeFrom : JsVal) (k : String)
    (fv0 iv0 : JsVal) : Option JsVal :=
  if fv0.isDeferred ∧ hasOwnProp into k then do
    let orig ← if iv0.isDeferred then getMember iv0 "_original" else pure iv0
    let fv' ← setMember fv0 "_original" orig
    setMember mergeFrom k fv'
  else pure mergeFrom

/-- Continuation of the loop body after the `_original` propagation:
the `Date` assignment and the `RegExp` / recursive-merge / clone /
property-descriptor chain (`isDeferredFunc` was computed from the
original `mergeInto[prop]`).  Note the missing `else` after the `Date`
branch in the source: a `Date` is first assigned, then — being an
object on both sides by then — merged into itself, a no-op since dates
have no own enumerable properties. -/
def mergeStepRestG (recur : JsVal → List JsVal → Int → Option JsVal)
    (into from' : JsVal) (k : String) (depth : Int)
    (isDeferredFunc : Bool) : Option (JsVal × JsVal) := do
  let fv := (← getMember from' k)
  let into1 ← dateAssign into k fv
  let iv1 := (← getMember into1 k)
  -- if (mergeFrom[prop] instanceof RegExp) { mergeInto[prop] = mergeFrom[prop]; }
  if fv.isRegex then do
    pure ((← setMember into1 k fv), from')
  -- else if (isObject(mergeInto[prop]) && isObject(mergeFrom[prop]) && !isDeferredFunc)
  else if iv1.isObject ∧ fv.isObject ∧ ¬ isDeferredFunc then do
    -- util.extendDeep(mergeInto[prop], mergeFrom[prop], depth - 1): the
    -- in-place mutation of the reference becomes a write-back
    let merged ← recur iv1 [fv] (depth - 1)
    pure ((← setMember into1 k merged), from')
  -- else if (mergeFrom[prop] && typeof mergeFrom[prop] === 'object')
  else if fv.truthy ∧ fv.typeofObject then do
    pure ((← setMember into1 k (cloneV fv (depth - 1))), from')
  -- else if (Object.getOwnPropertyDescriptor(Object(mergeFrom), prop)):
  -- defineProperty with the (data) descriptor ≡ assignment in this model
  else if hasOwnProp from' k then do
    pure ((← setMember into1 k fv), from')
  else do
    pure ((← setMember into1 k fv), from')

/-- One iteration of the merge loop for key `k`, returning the updated
(`mergeInto`, `mergeFrom`) pair; `recur` is the recursive
`util.extendDeep(into, from, depth)` call.  Mirrors the source
statement by statement, split into the `_original` propagation prelude
and the assignment chain `mergeStepRestG`. -/
def mergeStepG (recur : JsVal → List JsVal → Int → Option JsVal)
    (into mergeFrom : JsVal) (k : String) (depth : Int) :
    Option (JsVal × JsVal) := do
  let fv0 ← getMember mergeFrom k
  let iv0 ← getMember into k
  -- var fromIsDeferredFunc = mergeFrom[prop] instanceof DeferredConfig   (fv0.isDeferred)
  -- var isDeferredFunc     = mergeInto[prop] instanceof DeferredConfig   (iv0.isDeferred)
  -- save original value in deferred elements
  let from' ← deferredOriginalStep into mergeFrom k fv0 iv0
  mergeStepRestG recur into from' k depth iv0.isDeferred

/-- `for (var prop in mergeFrom)` — the key list is captured up front;
the body re-reads the current values through the threaded pair, since
the loop itself mutates `mergeFrom[prop]._original`. -/
def goPropsG (recur : JsVal → List JsVal → Int → Option JsVal)
    (into mergeFrom : JsVal) (ks : List String) (depth : Int) : Option JsVal :=
  match ks with
  | [] => some into
  | k :: rest => do
    let st ← mergeStepG recur into mergeFrom k depth
    goPropsG recur st.1 st.2 rest depth

/-- `vargs.forEach(function(mergeFrom) { ... })` -/
def goSourcesG (recur : JsVal → List JsVal → Int → Option JsVal)
    (into : JsVal) (srcs : List JsVal) (depth : Int) : Option JsVal :=
  match srcs with
  | [] => some into
  | mergeFrom :: rest => do
    goSourcesG recur (← goPropsG recur into mergeFrom (forInKeys mergeFrom) depth)
      rest depth

/-- Body of `util.extendDeep` after the variadic argument handling. -/
def extendDeepFC : Nat → JsVal → List JsVal → Int → Option JsVal
  | 0 => fun mergeInto _ _ => some mergeInto    -- out of fuel ⇒ depth < 0 here
  | fuel + 1 => fun mergeInto srcs depth =>
    if depth < 0 then some mergeInto
    else goSourcesG (extendDeepFC fuel) mergeInto srcs depth

/-- `util.extendDeep(mergeInto, ...vargs)` — the variadic entry:
`vargs.pop()` takes the would-be depth; a non-number (including the
`undefined` popped from an empty list, which is pushed back) is kept as
one more source and the depth defaults to `DEFAULT_CLONE_DEPTH = 20`. -/
def extendDeep (mergeInto : JsVal) (args : List JsVal) : Option JsVal :=
  match args.getLast? with
  | some (vNum n) => extendDeepFC (n + 1).toNat mergeInto args.dropLast n
  | some _ => extendDeepFC 21 mergeInto args 20
  | none => extendDeepFC 21 mergeInto [vUndef] 20

/-!
## `util.resolveDeferredConfigs` (lines 534–570)

`_iterate` walks the tree and mutates it in place; `completeConfig`
aliases the root, so a resolver invoked later sees the replacements
made earlier.  The embedding therefore threads the whole root along
with the path of the node being iterated: a replacement is a `pathSet`
on the root, and the resolver receives the current root.

The traversal itself is driven by the *template* — the value the node
had when the walk reached it.  In the tree model this coincides with
the live reads of the source: a replacement happens only at a
(container, property) slot whose sorted iteration has already passed
it, and resolver results are never re-entered, so every value the JS
code reads equals the corresponding template subvalue.

The resolver environment `R id root original` stands for
`deferredInstance.resolve.call(root, root, original)`; `original` is
the instance's `_original` own property (`undefined` when unset).
-/

/-- Path through containers: object keys, and array indices as their
decimal strings. -/
def pathSet : JsVal → List String → JsVal → JsVal
  | _, [], newv => newv
  | vObj props, k :: rest, newv =>
    (match propLookup props k with
     | some c => vObj (propWrite props k (pathSet c rest newv))
     | none => vObj props)
  | vArr es, k :: rest, newv =>
    (match strToNat? k with
     | some i =>
       (match es[i]? with
        | some e => vArr (es.set i (pathSet e rest newv))
        | none => vArr es)
     | none => vArr es)
  | v, _ :: _, _ => v
termination_by structural _ path => path

def pathGet : JsVal → List String → Option JsVal
  | v, [] => some v
  | vObj props, k :: rest => (propLookup props k).bind (pathGet · rest)
  | vArr es, k :: rest => ((strToNat? k).bind fun i => es[i]?).bind (pathGet · rest)
  | _, _ :: _ => none
termination_by structural _ path => path

/-- `prop[property] != null` — loose inequality, excluding both `null`
and `undefined`. -/
def looseNonNull : JsVal → Bool
  | vNull => false
  | vUndef => false
  | _ => true

/-- Lexicographic-by-code-point string comparison, as JS
`Array.prototype.sort`'s default string comparison (kernel-evaluable,
unlike the library `String` order). -/
def strListLe : List Char → List Char → Bool
  | [], _ => true
  | _ :: _, [] => false
  | a :: r, b :: s =>
    if a.toNat < b.toNat then true
    else if b.toNat < a.toNat then false
    else strListLe r s

def strLe (a b : String) : Bool := strListLe a.data b.data

/-- Insertion into a key-sorted property list. -/
def insertProp (p : String × JsVal) :
    List (String × JsVal) → List (String × JsVal)
  | [] => [p]
  | q :: qs => if strLe p.1 q.1 then p :: q :: qs else q :: insertProp p qs

/-- The two steps preparing `_iterate`'s loop: collect the own
enumerable properties whose value is `!= null`, then
`propsToSort.sort()`. -/
def sortedIterProps (v : JsVal) : List (String × JsVal) :=
  ((forInProps v).filter fun p => looseNonNull p.2).foldr insertProp []

/-- A `constructor == Object` test: true exactly for plain objects
(`DeferredConfig`/`RawConfig` instances, arrays, dates and regexes
have their own constructors; boxed primitives theirs). -/
def ctorIsObject : JsVal → Bool
  | vObj _ => true
  | _ => false

/-- One entry of `propsToSort.sort().forEach(...)`: the value `c` sits
at `path` (inside the current root), `recur` is the recursive
`_iterate` applied to a sub-container. -/
def iterStepG (recur : JsVal → List String → JsVal → JsVal)
    (R : Nat → JsVal → JsVal → JsVal)
    (c : JsVal) (path : List String) (root : JsVal) : JsVal :=
  if ctorIsObject c then recur c path root
  else if c.isArray then
    iterArrG recur (match c with | vArr es => es | _ => []) path 0 root
  else match c with
    | vDeferred id o => pathSet root path (R id root (o.getD vUndef))
    | _ => root           -- nothing to do, keep the property how it is
where
  /-- `for (var i = 0; i < prop[property].length; i++) _iterate(prop[property][i])`:
  each *element* becomes the container being iterated. -/
  iterArrG (recur : JsVal → List String → JsVal → JsVal)
      (es : List JsVal) (path : List String) (i : Nat) (root : JsVal) : JsVal :=
    match es with
    | [] => root
    | e :: rest => iterArrG recur rest path (i + 1) (recur e (path ++ [toString i]) root)

def iterListG (recur : JsVal → List String → JsVal → JsVal)
    (R : Nat → JsVal → JsVal → JsVal)
    (ps : List (String × JsVal)) (path : List String) (root : JsVal) : JsVal :=
  match ps with
  | [] => root
  | (k, c) :: rest =>
    iterListG recur R rest path (iterStepG recur R c (path ++ [k]) root)

/-- `_iterate(prop)` where `tpl` is the template of the container at
`path` in `root`. -/
def iterValF (R : Nat → JsVal → JsVal → JsVal) :
    Nat → JsVal → List String → JsVal → JsVal
  | 0 => fun _ _ root => root                   -- out of fuel: unreachable
  | fuel + 1 => fun tpl path root =>
    iterListG (iterValF R fuel) R (sortedIterProps tpl) path root

/-- `util.resolveDeferredConfigs(config)` under resolver environment
`R`. -/
def resolveDeferredConfigs (R : Nat → JsVal → JsVal → JsVal)
    (config : JsVal) : JsVal :=
  iterValF R (jsSize config) config [] config

/-!
## The accessors: `getImpl` (lines 67–80), `Config.prototype.get`
(89–115), `Config.prototype.has` (131–138)

`getImpl(object, property)` takes the property as an array of path
elements or a dot-delimited string; `property.split` on a value that is
neither an array nor a string is a TypeError.  Reading `object[name]`
coerces `name` to a property key; the coercion is exact for the
primitive keys any claim exercises, and a loose placeholder for
container keys (no claim depends on those).
-/

def toKey : JsVal → String
  | vStr s => s
  | vNum n => toString n
  | vNull => "null"
  | vUndef => "undefined"
  | vBool b => if b then "true" else "false"
  | _ => "[object]"       -- loose placeholder for container-valued keys

/-- `Array.isArray(property) ? property : property.split('.')`;
`none` models the TypeError when `property` has no `split` method. -/
def propSplit : JsVal → Option (List JsVal)
  | vArr es => some es
  | vStr s => some ((strSplitDot s).map vStr)
  | _ => none

/-- `getImpl(object, elems)` — total: every call site passes a non-null
`object` (the config itself at the top, and a checked `typeof value ===
'object'`, non-null value when recursing). -/
def getImpl (object : JsVal) : List JsVal → JsVal
  | [] => (getMember object (toKey vUndef)).getD vUndef  -- elems[0] is undefined
  | [name] => (getMember object (toKey name)).getD vUndef
  | name :: rest =>
    let value := (getMember object (toKey name)).getD vUndef
    -- Note that typeof null === 'object'
    if value = vNull ∨ ¬ value.typeofObject then vUndef
    else getImpl value rest
termination_by structural elems => elems

inductive GetErr where
  | nullOrUndefinedArg : GetErr   -- "Calling config.get with null or undefined argument"
  | notDefined : GetErr           -- 'Configuration property "…" is not defined'
  | typeError : GetErr            -- property.split is not a function
  deriving DecidableEq, Repr

instance : DecidableEq (Except GetErr JsVal) := fun a b =>
  match a, b with
  | .ok a, .ok b =>
    if h : a = b then .isTrue (by rw [h]) else .isFalse (by simp [h])
  | .error a, .error b =>
    if h : a = b then .isTrue (by rw [h]) else .isFalse (by simp [h])
  | .ok _, .error _ => .isFalse (by simp)
  | .error _, .ok _ => .isFalse (by simp)

/-- `Config.prototype.get`.  The lazy `makeImmutable` side effect on
first get changes no stored value and is modelled separately (see the
descriptor-instrumented layer below); `RawConfig.resolve()` returns
the wrapped payload (raw.js is not in src/; modelled from the spec). -/
def configGet (t : JsVal) (property : JsVal) : Except GetErr JsVal :=
  if property = vNull ∨ property = vUndef then .error .nullOrUndefinedArg
  else match propSplit property with
    | none => .error .typeError
    | some elems =>
      let value := getImpl t elems
      if value = vUndef then .error .notDefined
      else .ok (match value with
        | vRaw payload => payload
        | v => v)

/-- `Config.prototype.has`; `none` models the TypeError thrown by
`getImpl` on a property argument that is neither a string nor an array
(nor null/undefined, which are answered `false` before the traversal). -/
def configHas (t : JsVal) (property : JsVal) : Option Bool :=
  if property = vNull ∨ property = vUndef then some false
  else match propSplit property with
    | none => none
    | some elems => some (getImpl t elems ≠ vUndef)

/-!
## Basic lemmas
-/

theorem jsSize_pos (v : JsVal) : 1 ≤ jsSize v := by
  cases v <;> simp [jsSize]

/-- A string without a dot splits to itself. -/
theorem splitDot_no_dot (cs : List Char) (h : cs.contains '.' = false) :
    splitDot cs = [cs] := by
  induction cs with
  | nil => rfl
  | cons c r ih =>
    simp only [List.contains_cons, Bool.or_eq_false_iff] at h
    rw [splitDot, ih h.2]
    have hc : ¬ c = '.' := by
      intro e
      subst e
      simp at h
    simp [hc]

theorem strSplitDot_no_dot (s : String) (h : s.data.contains '.' = false) :
    strSplitDot s = [s] := by
  rw [strSplitDot, splitDot_no_dot s.data h]
  simp

/-!
## C9 — `equalsDeep` is not reflexive on falsy values

The `!object1 || !object2` check (line 800) precedes the
`object1 === object2` identity check (line 803), so a falsy argument —
`0`, `""`, `false`, `null`, `undefined` — compared against itself
yields `false`.
-/

/-- C9: for every falsy value `x`, `equalsDeep(x, x)` (depth omitted,
i.e. `undefined`) returns `false`, although the two arguments are
identical: the falsiness check precedes the identity check. -/
theorem equalsDeep_falsy_not_reflexive (x : JsVal) (h : x.truthy = false) :
    equalsDeep x x JsD.undef = vBool false := by
  have h1 := jsSize_pos x
  rcases hs : jsSize x with _ | f
  · omega
  · simp [equalsDeep, hs, equalsDeepF, JsD.normalize, JsD.ltZero, h]

/-- Witness for C9 at `x = 0` (and, for good measure, the other falsy
shapes are covered by `decide` on the hypothesis). -/
theorem equalsDeep_falsy_not_reflexive_witness :
    (vNum 0).truthy = false ∧ equalsDeep (vNum 0) (vNum 0) JsD.undef = vBool false :=
  ⟨by decide, equalsDeep_falsy_not_reflexive (vNum 0) (by decide)⟩

/-!
## C2 — `equalsDeep` on depth exhaustion

The claim (and the function's own `@return {boolean}` documentation)
say exhaustion yields `false`; the code at line 796 instead executes
`return {}`.  The empty object is truthy, so a comparison whose
*inner* recursion exhausts the bound treats the two subtrees as equal
and can answer `true` for unequal inputs — the opposite of the
documented conservative bias.
-/

/-- C2: evaluation at the failing inputs.  A direct call with exhausted
depth returns the empty object (not a boolean), and a call on unequal
nested objects with depth 0 — whose inner comparison exhausts the
bound — returns `true`. -/
theorem equalsDeep_depth_exhaustion_eval :
    equalsDeep (vNum 1) (vNum 2) (JsD.num (-1)) = vObj [] ∧
    equalsDeep (vObj [("a", vObj [("b", vNum 1)])])
      (vObj [("a", vObj [("b", vNum 2)])]) (JsD.num 0) = vBool true := by
  constructor
  · decide
  · decide

/-!
## C8 — `has(path)` on arbitrary arguments

`has` answers `false` for `null`/`undefined` arguments before any
traversal, but any other non-string, non-array argument reaches
`property.split('.')` in `getImpl` and throws a TypeError
(`property.split is not a function`) — e.g. `has(42)`.
-/

/-- C8 counterexample: `has(42)` on a non-empty config throws
(`none` models the TypeError), so `has` does not return a boolean for
*every* argument. -/
theorem configHas_number_throws :
    configHas (vObj [("a", vNum 1)]) (vNum 42) = none := by decide

/-- C8 as amended: for every config and every `null`, `undefined`,
string or array argument, `has` returns a boolean and never throws;
in particular `null`/`undefined` yield `false`. -/
theorem configHas_amended (t property : JsVal)
    (h : property = vNull ∨ property = vUndef ∨
      property.isArray = true ∨ (∃ s, property = vStr s)) :
    (∃ b, configHas t property = some b) ∧
    ((property = vNull ∨ property = vUndef) → configHas t property = some false) := by
  rcases h with rfl | rfl | ha | ⟨s, rfl⟩
  · exact ⟨⟨false, rfl⟩, fun _ => rfl⟩
  · exact ⟨⟨false, rfl⟩, fun _ => rfl⟩
  · cases property with
    | vArr es =>
      refine ⟨⟨getImpl t (es.map id) ≠ vUndef, ?_⟩, ?_⟩
      · simp [configHas, propSplit]
      · rintro (h | h) <;> simp at h
    | _ => simp [JsVal.isArray] at ha
  · refine ⟨⟨getImpl t ((strSplitDot s).map vStr) ≠ vUndef, ?_⟩, ?_⟩
    · simp [configHas, propSplit]
    · rintro (h | h) <;> simp at h

/-- Witness for C8's amended theorem at a concrete config and path. -/
theorem configHas_amended_witness :
    ((vStr "db.port") = vNull ∨ (vStr "db.port") = vUndef ∨
      (vStr "db.port").isArray = true ∨ (∃ s, (vStr "db.port") = vStr s)) ∧
    (∃ b, configHas (vObj [("db", vObj [("port", vNum 5433)])]) (vStr "db.port") = some b) :=
  ⟨Or.inr (Or.inr (Or.inr ⟨"db.port", rfl⟩)),
    (configHas_amended (vObj [("db", vObj [("port", vNum 5433)])]) (vStr "db.port")
      (Or.inr (Or.inr (Or.inr ⟨"db.port", rfl⟩)))).1⟩

/-!
## C10 — a stored `undefined` is indistinguishable from an absent key

`getImpl` returns `object[name]`, which is `undefined` both when the
key is absent and when it stores `undefined`; `get` then throws the
not-defined error and `has` answers `false`, identically in both
cases.
-/

/-- C10: for a (dot-free) key whose stored value is literally
`undefined` — or which is absent altogether — `get` throws the
not-defined error and `has` returns `false`: the two situations are
indistinguishable at the public interface. -/
theorem get_has_stored_undefined_as_absent (props : List (String × JsVal))
    (k : String) (hk : k.data.contains '.' = false)
    (h : propLookup props k = some vUndef ∨ propLookup props k = none) :
    configGet (vObj props) (vStr k) = .error .notDefined ∧
    configHas (vObj props) (vStr k) = some false := by
  have hsplit : strSplitDot k = [k] := strSplitDot_no_dot k hk
  have himpl : getImpl (vObj props) [vStr k] = vUndef := by
    rcases h with h | h <;> simp [getImpl, toKey, getMember, h]
  constructor
  · simp [configGet, propSplit, hsplit, himpl]
  · simp [configHas, propSplit, hsplit, himpl]

/-- Witness for C10: a key set to `undefined` and an absent key behave
identically on a concrete config. -/
theorem get_has_stored_undefined_as_absent_witness :
    (("a" : String).data.contains '.' = false ∧
      propLookup [("a", vUndef), ("b", vNum 1)] "a" = some vUndef ∧
      configGet (vObj [("a", vUndef), ("b", vNum 1)]) (vStr "a") = .error .notDefined ∧
      configHas (vObj [("a", vUndef), ("b", vNum 1)]) (vStr "a") = some false) ∧
    (propLookup [("b", vNum 1)] "a" = none ∧
      configGet (vObj [("b", vNum 1)]) (vStr "a") = .error .notDefined ∧
      configHas (vObj [("b", vNum 1)]) (vStr "a") = some false) := by
  refine ⟨⟨by decide, by decide, ?_, ?_⟩, by decide, ?_, ?_⟩
  · exact (get_has_stored_undefined_as_absent [("a", vUndef), ("b", vNum 1)] "a"
      (by decide) (Or.inl (by decide))).1
  · exact (get_has_stored_undefined_as_absent [("a", vUndef), ("b", vNum 1)] "a"
      (by decide) (Or.inl (by decide))).2
  · exact (get_has_stored_undefined_as_absent [("b", vNum 1)] "a"
      (by decide) (Or.inr (by decide))).1
  · exact (get_has_stored_undefined_as_absent [("b", vNum 1)] "a"
      (by decide) (Or.inr (by decide))).2

/-!
## `cloneDeep` is the identity on tree values

Every branch of `_clone` rebuilds the same value in the tree model:
primitives, dates and regexes are copied by value (`getRegExpFlags`
reproduces exactly the g/i/m flags the model carries), containers are
rebuilt element-wise, and the `depth === 0` truncation returns the
(equal) subtree itself.  Reference identity — where cloning and
aliasing differ — is treated in the identity-instrumented layer
further below.
-/

theorem jsSize_le_of_mem_props {k : String} {v : JsVal} :
    ∀ {ps : List (String × JsVal)}, (k, v) ∈ ps → jsSize v ≤ jsSizeP ps := by
  intro ps
  induction ps with
  | nil => intro h; cases h
  | cons p rest ih =>
    intro h
    rcases List.mem_cons.mp h with rfl | h
    · simp [jsSizeP]
    · have := ih h
      cases p
      simp only [jsSizeP]
      omega

theorem jsSize_le_of_mem_elems {v : JsVal} :
    ∀ {es : List JsVal}, v ∈ es → jsSize v ≤ jsSizeL es := by
  intro es
  induction es with
  | nil => intro h; cases h
  | cons e rest ih =>
    intro h
    rcases List.mem_cons.mp h with rfl | h
    · simp [jsSizeL]
    · have := ih h
      simp only [jsSizeL]
      omega

theorem clonePropsG_id (g : JsVal → Int → JsVal) (ps : List (String × JsVal))
    (d : Int) (hg : ∀ p ∈ ps, g p.2 d = p.2) : clonePropsG g ps d = ps := by
  induction ps with
  | nil => rfl
  | cons p rest ih =>
    obtain ⟨k, v⟩ := p
    rw [clonePropsG, hg (k, v) (by simp), ih (fun p hp => hg p (by simp [hp]))]

theorem cloneElemsG_id (g : JsVal → Int → JsVal) (es : List JsVal)
    (d : Int) (hg : ∀ e ∈ es, g e d = e) : cloneElemsG g es d = es := by
  induction es with
  | nil => rfl
  | cons e rest ih =>
    rw [cloneElemsG, hg e (by simp), ih (fun e he => hg e (by simp [he]))]

theorem cloneVF_id (fuel : Nat) : ∀ (v : JsVal) (d : Int),
    jsSize v ≤ fuel → cloneVF fuel v d = v := by
  induction fuel with
  | zero =>
    intro v d h
    have := jsSize_pos v
    omega
  | succ f ih =>
    intro v d h
    cases v with
    | vNull => rfl
    | vUndef => simp [cloneVF]
    | vBool b => simp [cloneVF]
    | vNum n => simp [cloneVF]
    | vStr s => simp [cloneVF]
    | vDate t => simp [cloneVF]
    | vRegex s g i m => simp [cloneVF]
    | vRaw x => simp [cloneVF]
    | vDeferred id o =>
      cases o with
      | none => simp [cloneVF]
      | some ov =>
        have hs : jsSize ov ≤ f := by
          simp only [jsSize, jsSizeO] at h
          omega
        simp [cloneVF, ih ov (d - 1) hs]
    | vArr es =>
      have hsz : jsSizeL es ≤ f := by
        simp only [jsSize] at h
        omega
      have hall : ∀ e ∈ es, cloneVF f e (d - 1) = e := by
        intro e he
        exact ih e (d - 1) (le_trans (jsSize_le_of_mem_elems he) hsz)
      simp [cloneVF, cloneElemsG_id _ es (d - 1) hall]
    | vObj ps =>
      have hsz : jsSizeP ps ≤ f := by
        simp only [jsSize] at h
        omega
      have hall : ∀ p ∈ ps, cloneVF f p.2 (d - 1) = p.2 := by
        intro p hp
        obtain ⟨k, v⟩ := p
        exact ih v (d - 1) (le_trans (jsSize_le_of_mem_props hp) hsz)
      simp [cloneVF, clonePropsG_id _ ps (d - 1) hall]

/-- In the tree model `_clone` rebuilds an equal value. -/
theorem cloneV_id (v : JsVal) (d : Int) : cloneV v d = v :=
  cloneVF_id (jsSize v) v d le_rfl

theorem cloneDeep_id (v : JsVal) (d : Int := 20) : cloneDeep v d = v :=
  cloneV_id v d


/-!
## C4 — merge precedence is application order

For two sources both defining the nested key `k.m` with scalar leaf
values, merging A then B leaves B's value at `k.m`, and merging in the
reverse order leaves A's.
-/

/-- A scalar (non-object) leaf value: the claim's "value at `k.m`" with
overwrite semantics (for object values `extendDeep` merges recursively
instead of replacing). -/
def isScalar : JsVal → Bool
  | vNull => true
  | vUndef => true
  | vBool _ => true
  | vNum _ => true
  | vStr _ => true
  | _ => false


theorem isScalar_flags {v : JsVal} (h : isScalar v = true) :
    v.isDeferred = false ∧ v.isDate = false ∧ v.isRegex = false ∧
    v.isObject = false ∧ ¬(v.truthy = true ∧ v.typeofObject = true) := by
  cases v <;> simp_all [isScalar, JsVal.isDeferred, JsVal.isDate, JsVal.isRegex,
    JsVal.isObject, JsVal.typeofObject, JsVal.truthy]

theorem isDeferred_vObj (ps : List (String × JsVal)) : (vObj ps).isDeferred = false := rfl
theorem isDeferred_vUndef : (vUndef).isDeferred = false := rfl
theorem isDate_vObj (ps : List (String × JsVal)) : (vObj ps).isDate = false := rfl
theorem isRegex_vObj (ps : List (String × JsVal)) : (vObj ps).isRegex = false := rfl
theorem isObject_vObj (ps : List (String × JsVal)) : (vObj ps).isObject = true := rfl
theorem isObject_vUndef : (vUndef).isObject = false := rfl
theorem truthy_vObj (ps : List (String × JsVal)) : (vObj ps).truthy = true := rfl
theorem typeofObject_vObj (ps : List (String × JsVal)) : (vObj ps).typeofObject = true := rfl

set_option maxHeartbeats 1000000 in
theorem extendDeep_two_layers (k m : String) (x y : JsVal)
    (hx : isScalar x = true) (hy : isScalar y = true) :
    (extendDeep (vObj []) [vObj [(k, vObj [(m, x)])], vObj [(k, vObj [(m, y)])]]).bind
      (fun r => pathGet r [k, m]) = some y := by
  obtain ⟨hxdef, hxdate, hxre, hxobj, hxcl⟩ := isScalar_flags hx
  obtain ⟨hydef, hydate, hyre, hyobj, hycl⟩ := isScalar_flags hy
  simp only [extendDeep, List.getLast?, List.getLast, List.dropLast,
    extendDeepFC, goSourcesG, goPropsG, mergeStepG, mergeStepRestG, dateAssign,
    deferredOriginalStep, getMember, setMember,
    propLookup, propWrite, hasOwnProp, forInKeys, forInProps, List.map,
    List.contains, List.elem, cloneV_id,
    hxdef, hxdate, hxre, hxobj, hxcl, hydef, hydate, hyre, hyobj, hycl,
    isDeferred_vObj, isDeferred_vUndef, isDate_vObj, isRegex_vObj,
    isObject_vObj, isObject_vUndef, truthy_vObj, typeofObject_vObj,
    Option.getD, Option.bind_eq_bind, Option.some_bind, Option.none_bind,
    Option.pure_def, pathGet,
    eq_self_iff_true, if_true, ite_true, ite_false, Bool.false_eq_true,
    and_self, and_true, true_and, false_and, and_false, if_false,
    iff_false, not_true, not_false_eq_true,
    Bool.and_self, beq_self_eq_true, List.any_cons, List.any_nil, Bool.or_false,
    Int.reduceLT, Int.reduceSub]

/-- C4: for sources A, B both defining the nested key `k.m` (scalar
values), `extendDeep({}, A, B)` yields B's value at `k.m` and
`extendDeep({}, B, A)` yields A's — precedence is solely application
order, not source identity. -/
theorem extendDeep_precedence_by_order (k m : String) (va vb : JsVal)
    (ha : isScalar va = true) (hb : isScalar vb = true) :
    (extendDeep (vObj []) [vObj [(k, vObj [(m, va)])], vObj [(k, vObj [(m, vb)])]]).bind
      (fun r => pathGet r [k, m]) = some vb ∧
    (extendDeep (vObj []) [vObj [(k, vObj [(m, vb)])], vObj [(k, vObj [(m, va)])]]).bind
      (fun r => pathGet r [k, m]) = some va :=
  ⟨extendDeep_two_layers k m va vb ha hb, extendDeep_two_layers k m vb va hb ha⟩

/-- Witness for C4 at `db.port` with 5432/5433. -/
theorem extendDeep_precedence_by_order_witness :
    isScalar (vNum 5432) = true ∧ isScalar (vNum 5433) = true ∧
    (extendDeep (vObj []) [vObj [("db", vObj [("port", vNum 5432)])],
        vObj [("db", vObj [("port", vNum 5433)])]]).bind
      (fun r => pathGet r ["db", "port"]) = some (vNum 5433) :=
  ⟨by decide, by decide,
    (extendDeep_precedence_by_order "db" "port" (vNum 5432) (vNum 5433)
      (by decide) (by decide)).1⟩


/-!
## C7 — `extendDeep` totality and treatment of a non-numeric last argument
-/

theorem isObject_not_nullish {v : JsVal} (h : v.isObject = true) :
    v ≠ vNull ∧ v ≠ vUndef := by
  cases v <;> simp_all [JsVal.isObject, JsVal.typeofObject]

theorem getMember_nonnull {v : JsVal} (h1 : v ≠ vNull) (h2 : v ≠ vUndef) (k : String) :
    ∃ w, getMember v k = some w := by
  cases v with
  | vNull => exact absurd rfl h1
  | vUndef => exact absurd rfl h2
  | vArr es =>
    simp only [getMember]
    split
    · exact ⟨_, rfl⟩
    · exact ⟨_, rfl⟩
  | vStr s =>
    simp only [getMember]
    split
    · exact ⟨_, rfl⟩
    · exact ⟨_, rfl⟩
  | vDeferred id o =>
    cases o with
    | none => exact ⟨vUndef, rfl⟩
    | some ov => exact ⟨_, rfl⟩
  | vObj ps => exact ⟨_, rfl⟩
  | vBool b => exact ⟨vUndef, rfl⟩
  | vNum n => exact ⟨vUndef, rfl⟩
  | vDate t => exact ⟨vUndef, rfl⟩
  | vRegex s g i m => exact ⟨vUndef, rfl⟩
  | vRaw p => exact ⟨vUndef, rfl⟩

theorem setMember_total {v : JsVal} (h1 : v ≠ vNull) (h2 : v ≠ vUndef) (k : String) (x : JsVal) :
    ∃ w, setMember v k x = some w ∧
      (v.isObject = true → w.isObject = true) ∧ w ≠ vNull ∧ w ≠ vUndef := by
  cases v with
  | vNull => exact absurd rfl h1
  | vUndef => exact absurd rfl h2
  | vArr es =>
    refine ⟨_, rfl, ?_, by simp, by simp⟩
    intro h
    simp [JsVal.isObject] at h
  | vDeferred id o =>
    simp only [setMember]
    split <;> exact ⟨_, rfl, fun _ => rfl, by simp, by simp⟩
  | vObj ps => exact ⟨_, rfl, fun _ => rfl, by simp, by simp⟩
  | vBool b => exact ⟨_, rfl, fun h => h, by simp, by simp⟩
  | vNum n => exact ⟨_, rfl, fun h => h, by simp, by simp⟩
  | vStr s => exact ⟨_, rfl, fun h => h, by simp, by simp⟩
  | vDate t => exact ⟨_, rfl, fun h => h, by simp, by simp⟩
  | vRegex s g i m => exact ⟨_, rfl, fun h => h, by simp, by simp⟩
  | vRaw p => exact ⟨_, rfl, fun h => h, by simp, by simp⟩

theorem isDeferred_not_nullish {v : JsVal} (h : v.isDeferred = true) :
    v ≠ vNull ∧ v ≠ vUndef := by
  cases v <;> simp_all [JsVal.isDeferred]

theorem dateAssign_total {into : JsVal} (k : String) (fv : JsVal)
    (hi : into.isObject = true) :
    ∃ w, dateAssign into k fv = some w ∧ w.isObject = true := by
  obtain ⟨hin, hiu⟩ := isObject_not_nullish hi
  unfold dateAssign
  split
  · obtain ⟨w, hw, hwo, _, _⟩ := setMember_total hin hiu k fv
    exact ⟨w, hw, hwo hi⟩
  · exact ⟨into, rfl, hi⟩

theorem mergeStepRestG_total (recur : JsVal → List JsVal → Int → Option JsVal)
    (hrec : ∀ i s d, i.isObject = true → ∃ r, recur i s d = some r ∧ r.isObject = true)
    {into from' : JsVal} (k : String) (depth : Int) (isDef : Bool)
    (hi : into.isObject = true) (h1 : from' ≠ vNull) (h2 : from' ≠ vUndef) :
    ∃ p, mergeStepRestG recur into from' k depth isDef = some p ∧
      p.1.isObject = true ∧ p.2 = from' := by
  obtain ⟨fv, hfv⟩ := getMember_nonnull h1 h2 k
  obtain ⟨into1, hset1, hobj1⟩ := dateAssign_total k fv hi
  obtain ⟨hi1n, hi1u⟩ := isObject_not_nullish hobj1
  obtain ⟨iv1, hiv1⟩ := getMember_nonnull hi1n hi1u k
  simp only [mergeStepRestG, Option.bind_eq_bind, hfv, Option.some_bind, hset1, hiv1]
  split
  · obtain ⟨w, hw, hwo, _, _⟩ := setMember_total hi1n hi1u k fv
    exact ⟨(w, from'), by simp [hw], hwo hobj1, rfl⟩
  · split
    · rename_i hcond
      obtain ⟨r, hr, hro⟩ := hrec iv1 [fv] (depth - 1) hcond.1
      obtain ⟨w, hw, hwo, _, _⟩ := setMember_total hi1n hi1u k r
      exact ⟨(w, from'), by simp [hr, hw], hwo hobj1, rfl⟩
    · split
      · obtain ⟨w, hw, hwo, _, _⟩ := setMember_total hi1n hi1u k (cloneV fv (depth - 1))
        exact ⟨(w, from'), by simp [hw], hwo hobj1, rfl⟩
      · split
        · obtain ⟨w, hw, hwo, _, _⟩ := setMember_total hi1n hi1u k fv
          exact ⟨(w, from'), by simp [hw], hwo hobj1, rfl⟩
        · obtain ⟨w, hw, hwo, _, _⟩ := setMember_total hi1n hi1u k fv
          exact ⟨(w, from'), by simp [hw], hwo hobj1, rfl⟩

theorem deferredOriginalStep_total {into mergeFrom : JsVal} (k : String)
    (fv0 iv0 : JsVal) (h1 : mergeFrom ≠ vNull) (h2 : mergeFrom ≠ vUndef) :
    ∃ f', deferredOriginalStep into mergeFrom k fv0 iv0 = some f' ∧
      f' ≠ vNull ∧ f' ≠ vUndef := by
  unfold deferredOriginalStep
  split
  · rename_i hcond
    obtain ⟨hf0n, hf0u⟩ := isDeferred_not_nullish hcond.1
    split
    · rename_i hdef
      obtain ⟨hi0n, hi0u⟩ := isDeferred_not_nullish hdef
      obtain ⟨orig, horig⟩ := getMember_nonnull hi0n hi0u "_original"
      obtain ⟨fv', hfv', _, hf1, hf2⟩ := setMember_total hf0n hf0u "_original" orig
      obtain ⟨f', hf', _, hn, hu⟩ := setMember_total h1 h2 k fv'
      refine ⟨f', ?_, hn, hu⟩
      simp [Option.bind_eq_bind, horig, Option.some_bind, hfv', hf']
    · obtain ⟨fv', hfv', _, hf1, hf2⟩ := setMember_total hf0n hf0u "_original" iv0
      obtain ⟨f', hf', _, hn, hu⟩ := setMember_total h1 h2 k fv'
      refine ⟨f', ?_, hn, hu⟩
      simp [Option.bind_eq_bind, Option.some_bind, hfv', hf']
  · exact ⟨mergeFrom, rfl, h1, h2⟩

theorem mergeStepG_total (recur : JsVal → List JsVal → Int → Option JsVal)
    (hrec : ∀ i s d, i.isObject = true → ∃ r, recur i s d = some r ∧ r.isObject = true)
    {into mergeFrom : JsVal} (k : String) (depth : Int)
    (hi : into.isObject = true) (h1 : mergeFrom ≠ vNull) (h2 : mergeFrom ≠ vUndef) :
    ∃ p, mergeStepG recur into mergeFrom k depth = some p ∧
      p.1.isObject = true ∧ p.2 ≠ vNull ∧ p.2 ≠ vUndef := by
  obtain ⟨hin, hiu⟩ := isObject_not_nullish hi
  obtain ⟨fv0, hfv0⟩ := getMember_nonnull h1 h2 k
  obtain ⟨iv0, hiv0⟩ := getMember_nonnull hin hiu k
  obtain ⟨f', hstep, hn, hu⟩ := @deferredOriginalStep_total into mergeFrom k fv0 iv0 h1 h2
  obtain ⟨p, hp, hpo, hp2⟩ := mergeStepRestG_total recur hrec k depth iv0.isDeferred hi hn hu
  refine ⟨p, ?_, hpo, by rw [hp2]; exact hn, by rw [hp2]; exact hu⟩
  simp only [mergeStepG, Option.bind_eq_bind, hfv0, Option.some_bind, hiv0, hstep, hp]

theorem goPropsG_total (recur : JsVal → List JsVal → Int → Option JsVal)
    (hrec : ∀ i s d, i.isObject = true → ∃ r, recur i s d = some r ∧ r.isObject = true)
    (ks : List String) : ∀ {into mergeFrom : JsVal} (depth : Int),
    into.isObject = true → mergeFrom ≠ vNull → mergeFrom ≠ vUndef →
    ∃ r, goPropsG recur into mergeFrom ks depth = some r ∧ r.isObject = true := by
  induction ks with
  | nil => exact fun depth hi _ _ => ⟨_, rfl, hi⟩
  | cons k rest ih =>
    intro into mergeFrom depth hi h1 h2
    obtain ⟨p, hp, hpo, hn, hu⟩ := mergeStepG_total recur hrec k depth hi h1 h2
    obtain ⟨r, hr, hro⟩ := ih depth hpo hn hu
    exact ⟨r, by simp only [goPropsG, Option.bind_eq_bind, hp, Option.some_bind, hr], hro⟩

theorem goSourcesG_total (recur : JsVal → List JsVal → Int → Option JsVal)
    (hrec : ∀ i s d, i.isObject = true → ∃ r, recur i s d = some r ∧ r.isObject = true)
    (srcs : List JsVal) : ∀ {into : JsVal} (depth : Int), into.isObject = true →
    ∃ r, goSourcesG recur into srcs depth = some r ∧ r.isObject = true := by
  induction srcs with
  | nil => exact fun depth hi => ⟨_, rfl, hi⟩
  | cons mergeFrom rest ih =>
    intro into depth hi
    by_cases hf : mergeFrom = vNull ∨ mergeFrom = vUndef
    · obtain ⟨r, hr, hro⟩ := ih depth hi
      rcases hf with rfl | rfl <;>
        exact ⟨r, by simp only [goSourcesG, forInKeys, forInProps, List.map_nil,
          goPropsG, Option.bind_eq_bind, Option.some_bind, hr], hro⟩
    · push_neg at hf
      obtain ⟨m, hm, hmo⟩ := goPropsG_total recur hrec (forInKeys mergeFrom) depth hi hf.1 hf.2
      obtain ⟨r, hr, hro⟩ := ih depth hmo
      exact ⟨r, by simp only [goSourcesG, Option.bind_eq_bind, hm, Option.some_bind, hr], hro⟩

theorem extendDeepFC_total (fuel : Nat) : ∀ {into : JsVal} (srcs : List JsVal) (depth : Int),
    into.isObject = true →
    ∃ r, extendDeepFC fuel into srcs depth = some r ∧ r.isObject = true := by
  induction fuel with
  | zero => exact fun srcs depth hi => ⟨_, rfl, hi⟩
  | succ f ih =>
    intro into srcs depth hi
    by_cases hd : depth < 0
    · exact ⟨into, by simp [extendDeepFC, hd], hi⟩
    · obtain ⟨r, hr, hro⟩ := goSourcesG_total (extendDeepFC f)
        (fun i s d hio => ih s d hio) srcs depth hi
      exact ⟨r, by simp [extendDeepFC, hd, hr], hro⟩

/-- C7: `extendDeep` never throws when the destination is an object
(whatever the sources are), and a non-numeric last argument is treated
as one more source to merge while the depth defaults to
`DEFAULT_CLONE_DEPTH = 20`. -/
theorem extendDeep_total_and_nonnumeric_last (into : JsVal) (args : List JsVal)
    (hi : into.isObject = true) :
    (∃ r, extendDeep into args = some r) ∧
    (∀ x, x.isNum = false →
      extendDeep into (args ++ [x]) = extendDeepFC 21 into (args ++ [x]) 20) := by
  constructor
  · unfold extendDeep
    rcases hlast : args.getLast? with _ | v
    · obtain ⟨r, hr, _⟩ := extendDeepFC_total 21 [vUndef] 20 hi
      exact ⟨r, hr⟩
    · cases v
      case vNum n =>
        obtain ⟨r, hr, _⟩ := extendDeepFC_total (n + 1).toNat args.dropLast n hi
        exact ⟨r, hr⟩
      all_goals
        obtain ⟨r, hr, _⟩ := extendDeepFC_total 21 args 20 hi
        exact ⟨r, hr⟩
  · intro x hx
    unfold extendDeep
    rw [List.getLast?_concat]
    cases x <;> simp_all [JsVal.isNum]

/-- Witness for C7 on a concrete object destination with a non-numeric
last argument. -/
theorem extendDeep_total_and_nonnumeric_last_witness :
    (vObj []).isObject = true ∧
    (∃ r, extendDeep (vObj []) [vObj [("a", vNum 1)], vNull] = some r) ∧
    extendDeep (vObj []) ([vObj [("a", vNum 1)]] ++ [vNull]) =
      extendDeepFC 21 (vObj []) ([vObj [("a", vNum 1)]] ++ [vNull]) 20 := by
  refine ⟨by decide, ?_, ?_⟩
  · exact (extendDeep_total_and_nonnumeric_last (vObj []) [vObj [("a", vNum 1)], vNull]
      (by decide)).1
  · exact (extendDeep_total_and_nonnumeric_last (vObj []) [vObj [("a", vNum 1)]]
      (by decide)).2 vNull (by decide)

/-!
## `util.makeImmutable` (lines 351–391) — descriptor-instrumented layer

`makeImmutable` manipulates property *descriptors* (`writable`,
`configurable`), which the value layer above does not carry, so it is
embedded over `IVal`, a copy of the value tree whose object properties
are `(key, value, writable, configurable)` tuples (properties start
writable and configurable).  Only the parts `makeImmutable` can
observe are modelled: a `DeferredConfig` instance is a leaf here (the
recursion into one touches only its own enumerable properties, which no
claim observes), a `RawConfig` instance carries its payload, and array
element attributes are not modelled (`util.isObject` is false for
arrays, so the recursion never descends into one; the enforcer is
applied to object nodes).
-/

inductive IVal where
  | iNull : IVal
  | iUndef : IVal
  | iBool (b : Bool) : IVal
  | iNum (n : Int) : IVal
  | iStr (s : String) : IVal
  | iDate (t : Int) : IVal
  | iRegex (src : String) : IVal
  | iDeferred (id : Nat) : IVal
  | iRaw (payload : IVal) : IVal
  | iArr (elems : List IVal) : IVal
  | iObj (props : List (String × IVal × Bool × Bool)) : IVal
  deriving Repr

namespace IVal

def isRaw : IVal → Bool
  | iRaw _ => true
  | _ => false

/-- `util.isObject` on this layer. -/
def isObject : IVal → Bool
  | iDate _ => true
  | iRegex _ => true
  | iDeferred _ => true
  | iRaw _ => true
  | iObj _ => true
  | _ => false

end IVal

open IVal

mutual

def iSize : IVal → Nat
  | iRaw x => 1 + iSize x
  | iArr es => 1 + iSizeL es
  | iObj ps => 1 + iSizeP ps
  | _ => 1
termination_by structural v => v

def iSizeL : List IVal → Nat
  | [] => 0
  | e :: r => iSize e + iSizeL r
termination_by structural l => l

def iSizeP : List (String × IVal × Bool × Bool) → Nat
  | [] => 0
  | (_, v, _, _) :: r => iSize v + iSizeP r
termination_by structural l => l

end

theorem iSize_pos (v : IVal) : 1 ≤ iSize v := by
  cases v <;> simp [iSize]

/-- `Object.keys(object)`: own enumerable property names.  Only object
nodes are relevant (see the layer comment). -/
def iKeys : IVal → List String
  | iObj props => props.map (fun p => p.1)
  | _ => []

/-- `object[propertyName]` (first binding; absent keys and non-object
receivers give `undefined`). -/
def iGetProp : IVal → String → IVal
  | iObj props, k =>
    (match props.find? (fun p => p.1 = k) with
     | some p => p.2.1
     | none => iUndef)
  | _, _ => iUndef

/-- The property's current descriptor flags `(writable, configurable)`. -/
def iPropAttrs : IVal → String → Option (Bool × Bool)
  | iObj props, k => (props.find? (fun p => p.1 = k)).map (fun p => p.2.2)
  | _, _ => none

/-- `Object.defineProperty(object, k, {value, writable: false,
configurable: false})`: replace the first binding of `k` (or create
one). -/
def iDefineFrozenProps (k : String) (v : IVal) :
    List (String × IVal × Bool × Bool) → List (String × IVal × Bool × Bool)
  | [] => [(k, v, false, false)]
  | (k', v', w', c') :: rest =>
    if k' = k then (k', v, false, false) :: rest
    else (k', v', w', c') :: iDefineFrozenProps k v rest

def iDefineFrozen : IVal → String → IVal → IVal
  | iObj props, k, v => iObj (iDefineFrozenProps k v props)
  | o, _, _ => o

/-- One iteration of the freeze loop (config.js lines 372–388):
skip `RawConfig` values; otherwise freeze the property, the stored
value being the recursively frozen one when `util.isObject(value)` —
in the source the recursion mutates the stored reference after the
`defineProperty`, which on the tree is the same as storing the frozen
value. -/
def iFreezeStepG (recur : IVal → IVal) (object : IVal) (k : String) : IVal :=
  let value := iGetProp object k
  if value.isRaw then object
  else iDefineFrozen object k (if value.isObject then recur value else value)

def iFreezeListG (recur : IVal → IVal) (object : IVal) :
    List String → IVal
  | [] => object
  | k :: rest => iFreezeListG recur (iFreezeStepG recur object k) rest

/-- The default-mode recursion (`util.makeImmutable(value)`), fuelled
by `iSize` (the recursion descends into a property value). -/
def makeImmutableF : Nat → IVal → IVal
  | 0 => fun object => object                  -- out of fuel: unreachable
  | fuel + 1 => fun object =>
    iFreezeListG (makeImmutableF fuel) object (iKeys object)

/-- `util.makeImmutable(object, property, value)`.
`property = none` is the default mode (freeze all own keys,
recursively); `some (.inl name)` the legacy single-property
set-then-freeze (no recursion, no `RawConfig` check); `some (.inr
names)` the explicit key-list mode. -/
def makeImmutable (object : IVal)
    (property : Option (String ⊕ List String)) (value : Option IVal) : IVal :=
  match property with
  | some (.inl s) => iDefineFrozen object s (value.getD (iGetProp object s))
  | some (.inr names) =>
    iFreezeListG (makeImmutableF (iSize object)) object names
  | none => makeImmutableF (iSize object) object

/-!
### The freeze result

`frozenB` states the amended C1: every own property of every object
node reachable through non-array object values is non-writable and
non-configurable, except properties whose value is a `RawConfig`
instance, which are skipped entirely (the source tests
`value instanceof RawConfig`, not `DeferredConfig`).  Arrays are not
object nodes (`util.isObject` is false), so nothing is required of
their contents.  `iNoDupB` is the JS well-formedness of object
property lists (a JS object cannot carry a duplicated key).
-/

mutual

def frozenB : IVal → Bool
  | iObj props => frozenPropsB props
  | _ => true
termination_by structural v => v

def frozenPropsB : List (String × IVal × Bool × Bool) → Bool
  | [] => true
  | (_, v, w, c) :: rest =>
    (if v.isRaw then true else (!w && !c && frozenB v)) && frozenPropsB rest
termination_by structural l => l

end

/-- No duplicated keys (boolean, kernel-evaluable). -/
def keysNodupB : List String → Bool
  | [] => true
  | k :: r => !(r.contains k) && keysNodupB r

mutual

def iNoDupB : IVal → Bool
  | iRaw x => iNoDupB x
  | iArr es => iNoDupL es
  | iObj ps => keysNodupB (ps.map (fun p => p.1)) && iNoDupP ps
  | _ => true
termination_by structural v => v

def iNoDupL : List IVal → Bool
  | [] => true
  | e :: r => iNoDupB e && iNoDupL r
termination_by structural l => l

def iNoDupP : List (String × IVal × Bool × Bool) → Bool
  | [] => true
  | (_, v, _, _) :: r => iNoDupB v && iNoDupP r
termination_by structural l => l

end

/-- The frozen form of one property entry as rebuilt by the loop. -/
def freezeEntry (recur : IVal → IVal) (p : String × IVal × Bool × Bool) :
    String × IVal × Bool × Bool :=
  if p.2.1.isRaw then p
  else (p.1, (if p.2.1.isObject then recur p.2.1 else p.2.1), false, false)

theorem find?_keyed_append {done : List (String × IVal × Bool × Bool)}
    {k : String} (hk : ∀ q ∈ done, q.1 ≠ k) (p : String × IVal × Bool × Bool)
    (hp : p.1 = k) (rest : List (String × IVal × Bool × Bool)) :
    (done ++ p :: rest).find? (fun q => q.1 = k) = some p := by
  induction done with
  | nil => simp [List.find?_cons, hp]
  | cons q qs ih =>
    have hq : (decide (q.1 = k)) = false := decide_eq_false (hk q (by simp))
    simp only [List.cons_append, List.find?_cons, hq]
    exact ih (fun q' hq' => hk q' (by simp [hq']))

theorem iDefineFrozenProps_keyed_append {done : List (String × IVal × Bool × Bool)}
    {k : String} (hk : ∀ q ∈ done, q.1 ≠ k) (v' : IVal)
    (p : String × IVal × Bool × Bool) (hp : p.1 = k)
    (rest : List (String × IVal × Bool × Bool)) :
    iDefineFrozenProps k v' (done ++ p :: rest) =
      done ++ (k, v', false, false) :: rest := by
  induction done with
  | nil =>
    obtain ⟨k0, v0, w0, c0⟩ := p
    simp only at hp
    simp [iDefineFrozenProps, hp]
  | cons q qs ih =>
    obtain ⟨k0, v0, w0, c0⟩ := q
    have hq : ¬ k0 = k := hk (k0, v0, w0, c0) (by simp)
    simp only [List.cons_append, iDefineFrozenProps, if_neg hq, List.append_eq]
    rw [ih (fun q' hq' => hk q' (by simp [hq']))]

theorem iFreezeListG_spec (recur : IVal → IVal) :
    ∀ (todo done : List (String × IVal × Bool × Bool)),
    (∀ p ∈ todo, ∀ q ∈ done, p.1 ≠ q.1) →
    keysNodupB (todo.map (fun p => p.1)) = true →
    iFreezeListG recur (iObj (done ++ todo)) (todo.map (fun p => p.1)) =
      iObj (done ++ todo.map (freezeEntry recur)) := by
  intro todo
  induction todo with
  | nil => intro done _ _; simp [iFreezeListG]
  | cons p rest ih =>
    intro done hdisj hnd
    obtain ⟨k, v, w, c⟩ := p
    simp only [List.map_cons, iFreezeListG]
    have hdone_ne : ∀ q ∈ done, q.1 ≠ k := by
      intro q hq
      exact fun e => (hdisj (k, v, w, c) (by simp) q hq) e.symm
    have hfind : (done ++ (k, v, w, c) :: rest).find? (fun q => q.1 = k) =
        some (k, v, w, c) := find?_keyed_append hdone_ne (k, v, w, c) rfl rest
    have hget : iGetProp (iObj (done ++ (k, v, w, c) :: rest)) k = v := by
      simp [iGetProp, hfind]
    -- nodup facts for the tail
    simp only [List.map_cons, keysNodupB, Bool.and_eq_true, Bool.not_eq_true',
      List.contains_eq_any_beq] at hnd
    have hk_not_rest : ∀ q ∈ rest, q.1 ≠ k := by
      intro q hq e
      have hx : ((rest.map (fun p => p.1)).any (fun x => k == x)) = true := by
        simp only [List.any_eq_true]
        exact ⟨q.1, List.mem_map.mpr ⟨q, hq, rfl⟩, by simp [e]⟩
      rw [hnd.1] at hx
      exact Bool.noConfusion hx
    by_cases hraw : v.isRaw = true
    · -- RawConfig: skipped, object unchanged
      rw [iFreezeStepG]
      simp only [hget, hraw, if_true, ite_true]
      have := ih (done ++ [(k, v, w, c)])
        (by
          intro p' hp' q hq
          rcases List.mem_append.mp hq with hq | hq
          · exact hdisj p' (by simp [hp']) q hq
          · simp only [List.mem_singleton] at hq
            subst hq
            exact hk_not_rest p' hp')
        hnd.2
      simpa [freezeEntry, hraw, List.append_assoc] using this
    · rw [iFreezeStepG]
      simp only [hget, hraw, Bool.false_eq_true, if_false, ite_false,
        iDefineFrozen]
      rw [iDefineFrozenProps_keyed_append hdone_ne
        (if v.isObject = true then recur v else v) (k, v, w, c) rfl rest]
      have := ih (done ++ [(k, (if v.isObject = true then recur v else v), false, false)])
        (by
          intro p' hp' q hq
          rcases List.mem_append.mp hq with hq | hq
          · exact hdisj p' (by simp [hp']) q hq
          · simp only [List.mem_singleton] at hq
            subst hq
            exact hk_not_rest p' hp')
        hnd.2
      simpa [freezeEntry, hraw, List.append_assoc] using this

theorem frozenB_of_not_object {v : IVal} (h : v.isObject = false) :
    frozenB v = true := by
  cases v <;> simp_all [IVal.isObject, frozenB]

theorem iSizeP_le_of_mem :
    ∀ {ps : List (String × IVal × Bool × Bool)}
      {p : String × IVal × Bool × Bool}, p ∈ ps → iSize p.2.1 ≤ iSizeP ps := by
  intro ps
  induction ps with
  | nil => intro p h; cases h
  | cons q qs ih =>
    intro p h
    obtain ⟨k0, v0, w0, c0⟩ := q
    rcases List.mem_cons.mp h with h | h
    · subst h
      simp only [iSizeP]
      exact Nat.le_add_right _ _
    · have := ih h
      simp only [iSizeP]
      omega

theorem iNoDupP_of_mem :
    ∀ {ps : List (String × IVal × Bool × Bool)}
      {p : String × IVal × Bool × Bool}, p ∈ ps → iNoDupP ps = true →
      iNoDupB p.2.1 = true := by
  intro ps
  induction ps with
  | nil => intro p h; cases h
  | cons q qs ih =>
    intro p h hnd
    obtain ⟨k0, v0, w0, c0⟩ := q
    simp only [iNoDupP, Bool.and_eq_true] at hnd
    rcases List.mem_cons.mp h with h | h
    · subst h
      exact hnd.1
    · exact ih h hnd.2

theorem frozenPropsB_map (recur : IVal → IVal)
    (ps : List (String × IVal × Bool × Bool))
    (h : ∀ p ∈ ps, p.2.1.isObject = true → frozenB (recur p.2.1) = true) :
    frozenPropsB (ps.map (freezeEntry recur)) = true := by
  induction ps with
  | nil => rfl
  | cons p rest ih =>
    obtain ⟨k, v, w, c⟩ := p
    have hrest : frozenPropsB (rest.map (freezeEntry recur)) = true :=
      ih (fun q hq => h q (List.mem_cons_of_mem _ hq))
    by_cases hraw : v.isRaw = true
    · have he : freezeEntry recur (k, v, w, c) = (k, v, w, c) := by
        simp [freezeEntry, hraw]
      simp only [List.map_cons]
      rw [he]
      simp [frozenPropsB, hraw, hrest]
    · have hfv : frozenB (if v.isObject = true then recur v else v) = true := by
        by_cases hobj : v.isObject = true
        · simpa [hobj] using h (k, v, w, c) (by simp) hobj
        · rw [if_neg hobj]
          exact frozenB_of_not_object (by
            cases hvo : v.isObject
            · rfl
            · exact absurd hvo hobj)
      have he : freezeEntry recur (k, v, w, c)
          = (k, (if v.isObject = true then recur v else v), false, false) := by
        simp [freezeEntry, hraw]
      simp only [List.map_cons]
      rw [he]
      by_cases hraw2 : (if v.isObject = true then recur v else v).isRaw = true
      · simp [frozenPropsB, hraw2, hrest]
      · simp [frozenPropsB, hraw2, hrest, hfv]

theorem makeImmutableF_frozen :
    ∀ (fuel : Nat) (v : IVal), iSize v ≤ fuel → iNoDupB v = true →
      frozenB (makeImmutableF fuel v) = true := by
  intro fuel
  induction fuel with
  | zero =>
    intro v h _
    exact (Nat.not_succ_le_zero 0 (Nat.le_trans (iSize_pos v) h)).elim
  | succ fuel ih =>
    intro v h hnd
    cases v
    case iObj props =>
      simp only [makeImmutableF, iKeys]
      have hnd' : keysNodupB (props.map (fun p => p.1)) = true ∧
          iNoDupP props = true := by
        simpa [iNoDupB, Bool.and_eq_true] using hnd
      have hspec := iFreezeListG_spec (makeImmutableF fuel) props []
        (by intro p _ q hq; cases hq) hnd'.1
      simp only [List.nil_append] at hspec
      rw [hspec]
      simp only [frozenB]
      apply frozenPropsB_map
      intro p hp hobj
      apply ih
      · have h1 : iSize (iObj props) = 1 + iSizeP props := by simp [iSize]
        have h2 := iSizeP_le_of_mem hp
        omega
      · exact iNoDupP_of_mem hp hnd'.2
    all_goals simp [makeImmutableF, iKeys, iFreezeListG, frozenB]

/-- **C1, counterexample.** In default mode `makeImmutable` does *not*
skip a property whose value is an unconsumed `DeferredValue`: the
property becomes non-writable and non-configurable like any other
(the guard at line 376 tests `value instanceof RawConfig`, not
`DeferredConfig`).  A `RawConfig`-valued property, by contrast, *is*
skipped and stays writable and configurable. -/
theorem makeImmutable_deferred_not_skipped :
    iPropAttrs (makeImmutable (iObj [("a", iDeferred 0, true, true)]) none none)
        "a" = some (false, false)
    ∧ iPropAttrs (makeImmutable (iObj [("a", iRaw (iNum 1), true, true)]) none none)
        "a" = some (true, true) := by decide

/-- **C1 (amended).** In default mode (no property list), for every
object tree with JS-well-formed property lists (no duplicated keys),
`makeImmutable` makes every own enumerable property of every object
node reachable through object-valued properties non-writable and
non-configurable, recursing into values satisfying `util.isObject` —
except that any property whose current value is a `RawConfig` instance
(not a `DeferredValue`) is skipped entirely and left as it was. -/
theorem makeImmutable_default_frozen (object : IVal)
    (h : iNoDupB object = true) :
    frozenB (makeImmutable object none none) = true := by
  simpa [makeImmutable] using
    makeImmutableF_frozen (iSize object) object (Nat.le_refl _) h

theorem makeImmutable_default_frozen_witness :
    iNoDupB (iObj [("a", iDeferred 0, true, true),
                   ("b", iObj [("c", iNum 1, true, true)], true, true),
                   ("r", iRaw (iNum 2), true, true)]) = true ∧
    frozenB (makeImmutable
      (iObj [("a", iDeferred 0, true, true),
             ("b", iObj [("c", iNum 1, true, true)], true, true),
             ("r", iRaw (iNum 2), true, true)]) none none) = true :=
  ⟨by decide, makeImmutable_default_frozen _ (by decide)⟩

/-!
## C5 — the diff round-trip

`diffOfV`/`diffOfP` below compute, as a plain structural function, the
value `util.diffDeep(base, changed)` produces on the fragment of
interest; the theorems then (a) prove `diffDeep` equals it, (b) trace
`extendDeep` applying it back onto `base`, and (c) compare the result
with `changed` through `equalsDeep` — each stage against the source
embedding above.
-/

def scalarB : JsVal → Bool
  | vNull => true
  | vBool _ => true
  | vNum _ => true
  | vStr _ => true
  | _ => false

/-- Scalars that expose no own enumerable properties and box to
`undefined`-valued reads — safe as the base-side value when the changed
side replaces it with an object (a string base would leak its index
properties into the diff). -/
def baseScalarB : JsVal → Bool
  | vNull => true
  | vBool _ => true
  | vNum _ => true
  | _ => false

mutual

/-- The plain JSON-ish fragment: scalars and objects with distinct
keys — no arrays, dates, regexes, deferred or raw instances, and no
stored `undefined`. -/
def plainB : JsVal → Bool
  | vObj ps => keysNodupB (ps.map Prod.fst) && plainPropsB ps
  | vNull => true
  | vBool _ => true
  | vNum _ => true
  | vStr _ => true
  | _ => false
termination_by structural v => v

def plainPropsB : List (String × JsVal) → Bool
  | [] => true
  | (_, v) :: r => plainB v && plainPropsB r
termination_by structural l => l

end

mutual

/-- Base/changed compatibility: the changed object keeps every base
key, in place and in order (appending any new keys after them), and at
each kept key either recurses, replaces a scalar, or replaces a
non-string scalar by a plain object. -/
def goodPairB : JsVal → JsVal → Bool
  | vObj bs, vObj ps =>
    keysNodupB (bs.map Prod.fst) && keysNodupB (ps.map Prod.fst) && goodProps bs ps
  | b, vObj ps => baseScalarB b && plainB (vObj ps)
  | b, c => scalarB b && scalarB c
termination_by structural _ c => c

def goodProps : List (String × JsVal) → List (String × JsVal) → Bool
  | [], ps => plainPropsB ps
  | _ :: _, [] => false
  | (bk, bv) :: brest, (k, v) :: rest =>
    (bk == k) && goodPairB bv v && goodProps brest rest
termination_by structural _ l => l

end

mutual

/-- Object-nesting depth: the number of `vObj` levels. -/
def jsNest : JsVal → Nat
  | vObj ps => 1 + jsNestP ps
  | _ => 0
termination_by structural v => v

def jsNestP : List (String × JsVal) → Nat
  | [] => 0
  | (_, v) :: r => max (jsNest v) (jsNestP r)
termination_by structural l => l

end

mutual

/-- The property list `util.diffDeep(base, {…ps})` builds, branch for
branch (config.js lines 868–884). -/
def diffOfP : JsVal → List (String × JsVal) → List (String × JsVal)
  | _, [] => []
  | base, (k, v) :: rest =>
    (let value1 := (getMember base k).getD vUndef
     if value1.truthy ∧ v.truthy ∧ v.isObject then
       if ¬(equalsDeep value1 v JsD.undef).truthy then [(k, diffOfV value1 v)] else []
     else if value1.isArray ∧ v.isArray then
       if ¬(equalsDeep value1 v JsD.undef).truthy then [(k, v)] else []
     else if ¬ value1.strictEq v then [(k, v)] else [])
    ++ diffOfP base rest
termination_by structural _ l => l

def diffOfV : JsVal → JsVal → JsVal
  | base, vObj ps => vObj (diffOfP base ps)
  | _, v => v
termination_by structural _ c => c

end

theorem strictEq_sound : ∀ a b : JsVal, strictEq a b = true → a = b := by
  intro a b h
  cases a <;> cases b <;> simp_all [strictEq]

theorem strictEq_refl_scalar {v : JsVal} (h : scalarB v = true) :
    strictEq v v = true := by
  cases v <;> simp_all [scalarB, strictEq]

theorem scalarB_isObject {v : JsVal} (h : scalarB v = true) :
    v.isObject = false := by
  cases v <;> simp_all [scalarB, JsVal.isObject, JsVal.typeofObject]

theorem scalarB_flags {v : JsVal} (h : scalarB v = true) :
    v.isDeferred = false ∧ v.isDate = false ∧ v.isRegex = false ∧
      v.isArray = false ∧ v.typeofObject = (if v = vNull then true else false) := by
  cases v <;> simp_all [scalarB, JsVal.isDeferred, JsVal.isDate, JsVal.isRegex,
    JsVal.isArray, JsVal.typeofObject]

theorem plainB_cases {v : JsVal} (h : plainB v = true) :
    (∃ ps, v = vObj ps ∧ keysNodupB (ps.map Prod.fst) = true ∧
      plainPropsB ps = true) ∨ scalarB v = true := by
  cases v <;> simp_all [plainB, scalarB]

theorem plainB_ne_undef {v : JsVal} (h : plainB v = true) : v ≠ vUndef := by
  cases v <;> simp_all [plainB]

theorem strictEq_undef_plain {v : JsVal} (h : plainB v = true) :
    strictEq vUndef v = false := by
  cases v <;> simp_all [plainB, strictEq]

theorem truthy_ne_null {v : JsVal} (h : v.truthy = true) : v ≠ vNull := by
  cases v <;> simp_all [JsVal.truthy]

theorem truthy_ne_undef {v : JsVal} (h : v.truthy = true) : v ≠ vUndef := by
  cases v <;> simp_all [JsVal.truthy]

theorem plainPropsB_mem {ps : List (String × JsVal)} {k : String} {v : JsVal}
    (hm : (k, v) ∈ ps) (h : plainPropsB ps = true) : plainB v = true := by
  induction ps with
  | nil => cases hm
  | cons q rest ih =>
    obtain ⟨k0, v0⟩ := q
    simp only [plainPropsB, Bool.and_eq_true] at h
    rcases List.mem_cons.mp hm with e | hm'
    · cases e
      exact h.1
    · exact ih hm' h.2

theorem jsNestP_le_of_mem {ps : List (String × JsVal)} {k : String} {v : JsVal}
    (hm : (k, v) ∈ ps) : jsNest v ≤ jsNestP ps := by
  induction ps with
  | nil => cases hm
  | cons q rest ih =>
    obtain ⟨k0, v0⟩ := q
    simp only [jsNestP]
    rcases List.mem_cons.mp hm with e | hm'
    · cases e
      exact Nat.le_max_left _ _
    · exact Nat.le_trans (ih hm') (Nat.le_max_right _ _)

mutual

theorem goodPairB_plain : ∀ b c, goodPairB b c = true → plainB c = true
  | vObj bs, vObj ps, h => by
    simp only [goodPairB, Bool.and_eq_true] at h
    simp only [plainB, Bool.and_eq_true]
    exact ⟨h.1.2, goodProps_plain bs ps h.2⟩
  | vNull, vObj ps, h => by simp only [goodPairB, Bool.and_eq_true] at h; exact h.2
  | vUndef, vObj ps, h => by simp only [goodPairB, Bool.and_eq_true] at h; exact h.2
  | vBool b, vObj ps, h => by simp only [goodPairB, Bool.and_eq_true] at h; exact h.2
  | vNum n, vObj ps, h => by simp only [goodPairB, Bool.and_eq_true] at h; exact h.2
  | vStr s, vObj ps, h => by simp only [goodPairB, Bool.and_eq_true] at h; exact h.2
  | vDate t, vObj ps, h => by simp only [goodPairB, Bool.and_eq_true] at h; exact h.2
  | vRegex s g i m, vObj ps, h => by simp only [goodPairB, Bool.and_eq_true] at h; exact h.2
  | vDeferred id o, vObj ps, h => by simp only [goodPairB, Bool.and_eq_true] at h; exact h.2
  | vRaw x, vObj ps, h => by simp only [goodPairB, Bool.and_eq_true] at h; exact h.2
  | vArr es, vObj ps, h => by simp only [goodPairB, Bool.and_eq_true] at h; exact h.2
  | b, vNull, h => by
    cases b <;> simp_all [goodPairB, scalarB, plainB]
  | b, vUndef, h => by
    cases b <;> simp_all [goodPairB, scalarB, plainB]
  | b, vBool c, h => by
    cases b <;> simp_all [goodPairB, scalarB, plainB]
  | b, vNum n, h => by
    cases b <;> simp_all [goodPairB, scalarB, plainB]
  | b, vStr s, h => by
    cases b <;> simp_all [goodPairB, scalarB, plainB]
  | b, vDate t, h => by
    cases b <;> simp_all [goodPairB, scalarB]
  | b, vRegex s g i m, h => by
    cases b <;> simp_all [goodPairB, scalarB]
  | b, vDeferred id o, h => by
    cases b <;> simp_all [goodPairB, scalarB]
  | b, vRaw x, h => by
    cases b <;> simp_all [goodPairB, scalarB]
  | b, vArr es, h => by
    cases b <;> simp_all [goodPairB, scalarB]

theorem goodProps_plain : ∀ bs ps, goodProps bs ps = true → plainPropsB ps = true
  | [], ps, h => by simpa [goodProps] using h
  | (bk, bv) :: brest, [], h => by simp [goodProps] at h
  | (bk, bv) :: brest, (k, v) :: rest, h => by
    simp only [goodProps, Bool.and_eq_true] at h
    simp only [plainPropsB, Bool.and_eq_true]
    exact ⟨goodPairB_plain bv v h.1.2, goodProps_plain brest rest h.2⟩

end

theorem goodPairB_cases {b c : JsVal} (h : goodPairB b c = true) :
    (∃ bs ps, b = vObj bs ∧ c = vObj ps) ∨
    (baseScalarB b = true ∧ ∃ ps, c = vObj ps ∧ plainB (vObj ps) = true) ∨
    (scalarB b = true ∧ scalarB c = true) := by
  cases b <;> cases c <;> simp_all [goodPairB, scalarB, baseScalarB]

theorem propLookup_keyed_append {pre : List (String × JsVal)} {k : String}
    (hk : ∀ q ∈ pre, (q : String × JsVal).1 ≠ k) (v : JsVal)
    (suf : List (String × JsVal)) :
    propLookup (pre ++ (k, v) :: suf) k = some v := by
  induction pre with
  | nil => simp [propLookup]
  | cons q qs ih =>
    obtain ⟨k0, v0⟩ := q
    have hq : ¬ k0 = k := hk (k0, v0) (by simp)
    simp only [List.cons_append, propLookup, if_neg hq]
    exact ih (fun q' hq' => hk q' (by simp [hq']))

theorem propLookup_none {ps : List (String × JsVal)} {k : String}
    (hk : ∀ q ∈ ps, (q : String × JsVal).1 ≠ k) :
    propLookup ps k = none := by
  induction ps with
  | nil => rfl
  | cons q qs ih =>
    obtain ⟨k0, v0⟩ := q
    have hq : ¬ k0 = k := hk (k0, v0) (by simp)
    simp only [propLookup, if_neg hq]
    exact ih (fun q' hq' => hk q' (by simp [hq']))

theorem propLookup_append_absent {pre : List (String × JsVal)} {k : String}
    (hk : ∀ q ∈ pre, (q : String × JsVal).1 ≠ k) (suf : List (String × JsVal)) :
    propLookup (pre ++ suf) k = propLookup suf k := by
  induction pre with
  | nil => rfl
  | cons q qs ih =>
    obtain ⟨k0, v0⟩ := q
    have hq : ¬ k0 = k := hk (k0, v0) (by simp)
    simp only [List.cons_append, propLookup, if_neg hq]
    exact ih (fun q' hq' => hk q' (by simp [hq']))

theorem propWrite_keyed_append {pre : List (String × JsVal)} {k : String}
    (hk : ∀ q ∈ pre, (q : String × JsVal).1 ≠ k) (v x : JsVal)
    (suf : List (String × JsVal)) :
    propWrite (pre ++ (k, v) :: suf) k x = pre ++ (k, x) :: suf := by
  induction pre with
  | nil => simp [propWrite]
  | cons q qs ih =>
    obtain ⟨k0, v0⟩ := q
    have hq : ¬ k0 = k := hk (k0, v0) (by simp)
    simp only [List.cons_append, propWrite, if_neg hq, List.cons.injEq, true_and]
    exact ih (fun q' hq' => hk q' (by simp [hq']))

theorem propWrite_absent {ps : List (String × JsVal)} {k : String}
    (hk : ∀ q ∈ ps, (q : String × JsVal).1 ≠ k) (x : JsVal) :
    propWrite ps k x = ps ++ [(k, x)] := by
  induction ps with
  | nil => rfl
  | cons q qs ih =>
    obtain ⟨k0, v0⟩ := q
    have hq : ¬ k0 = k := hk (k0, v0) (by simp)
    simp only [propWrite, if_neg hq, List.cons_append, List.cons.injEq, true_and]
    exact ih (fun q' hq' => hk q' (by simp [hq']))

theorem containsK_iff (xs : List String) (k : String) :
    xs.contains k = true ↔ k ∈ xs := List.elem_iff

theorem keysNodupB_split : ∀ (xs : List String) (y : String) (zs : List String),
    keysNodupB (xs ++ y :: zs) = true →
    (∀ x ∈ xs, x ≠ y) ∧ (∀ z ∈ zs, z ≠ y) ∧ keysNodupB (xs ++ zs) = true := by
  intro xs
  induction xs with
  | nil =>
    intro y zs h
    simp only [List.nil_append, keysNodupB, Bool.and_eq_true,
      Bool.not_eq_true'] at h
    refine ⟨by simp, ?_, h.2⟩
    intro z hz e
    have hc := (containsK_iff zs y).mpr (e ▸ hz)
    rw [h.1] at hc
    exact Bool.noConfusion hc
  | cons x xs ih =>
    intro y zs h
    simp only [List.cons_append, keysNodupB, Bool.and_eq_true,
      Bool.not_eq_true'] at h
    obtain ⟨hc, hrest⟩ := h
    obtain ⟨h1, h2, h3⟩ := ih y zs hrest
    simp only [List.append_eq] at hc
    have hmem : x ∈ xs ++ y :: zs → False := by
      intro hm
      have := (containsK_iff (xs ++ y :: zs) x).mpr hm
      rw [hc] at this
      exact Bool.noConfusion this
    refine ⟨?_, h2, ?_⟩
    · intro x' hx'
      rcases List.mem_cons.mp hx' with e | hx''
      · subst e
        exact fun e2 => hmem (by simp [e2])
      · exact h1 x' hx''
    · simp only [List.cons_append, keysNodupB, Bool.and_eq_true,
        Bool.not_eq_true']
      refine ⟨?_, h3⟩
      cases hcc : (xs ++ zs).contains x with
      | false => rfl
      | true =>
        exfalso
        rcases List.mem_append.mp ((containsK_iff _ _).mp hcc) with hmm | hmm
        · exact hmem (List.mem_append.mpr (Or.inl hmm))
        · exact hmem (List.mem_append.mpr (Or.inr (List.mem_cons_of_mem _ hmm)))

theorem propLookup_self_of_nodup :
    ∀ (ps : List (String × JsVal)),
    keysNodupB (ps.map Prod.fst) = true →
    ∀ k v, (k, v) ∈ ps → propLookup ps k = some v := by
  intro ps
  induction ps with
  | nil => intro _ k v hm; cases hm
  | cons q qs ih =>
    intro h k v hm
    obtain ⟨k0, v0⟩ := q
    simp only [List.map_cons, keysNodupB, Bool.and_eq_true,
      Bool.not_eq_true'] at h
    rcases List.mem_cons.mp hm with e | hm'
    · cases e
      simp [propLookup]
    · have hne : ¬ k0 = k := by
        intro e
        have hmm : k0 ∈ qs.map Prod.fst := by
          rw [e]
          exact List.mem_map.mpr ⟨(k, v), hm', rfl⟩
        have hcc := (containsK_iff _ _).mpr hmm
        rw [h.1] at hcc
        exact Bool.noConfusion hcc
      simp only [propLookup, if_neg hne]
      exact ih h.2 k v hm'

theorem diffOfP_append (base : JsVal) :
    ∀ (l1 l2 : List (String × JsVal)),
    diffOfP base (l1 ++ l2) = diffOfP base l1 ++ diffOfP base l2 := by
  intro l1
  induction l1 with
  | nil => intro l2; rfl
  | cons q qs ih =>
    intro l2
    obtain ⟨k, v⟩ := q
    simp only [List.cons_append, diffOfP, List.append_eq, ih, List.append_assoc]

theorem diffOfP_keys_sub (base : JsVal) :
    ∀ (ps : List (String × JsVal)) (q : String × JsVal),
    q ∈ diffOfP base ps → q.1 ∈ ps.map Prod.fst := by
  intro ps
  induction ps with
  | nil => intro q hq; cases hq
  | cons p rest ih =>
    intro q hq
    obtain ⟨k, v⟩ := p
    simp only [diffOfP] at hq
    rcases List.mem_append.mp hq with hq | hq
    · -- q is in the (at most one-element) head block, whose key is k
      have : q.1 = k := by
        by_cases c1 : ((getMember base k).getD vUndef).truthy = true ∧
            v.truthy = true ∧ v.isObject = true
        · rw [if_pos c1] at hq
          by_cases c2 : ¬(equalsDeep ((getMember base k).getD vUndef) v
              JsD.undef).truthy = true
          · rw [if_pos c2] at hq
            simp only [List.mem_singleton] at hq
            simp [hq]
          · rw [if_neg c2] at hq
            cases hq
        · rw [if_neg c1] at hq
          by_cases c3 : ((getMember base k).getD vUndef).isArray = true ∧
              v.isArray = true
          · rw [if_pos c3] at hq
            by_cases c2 : ¬(equalsDeep ((getMember base k).getD vUndef) v
                JsD.undef).truthy = true
            · rw [if_pos c2] at hq
              simp only [List.mem_singleton] at hq
              simp [hq]
            · rw [if_neg c2] at hq
              cases hq
          · rw [if_neg c3] at hq
            by_cases c4 : ¬((getMember base k).getD vUndef).strictEq v = true
            · rw [if_pos c4] at hq
              simp only [List.mem_singleton] at hq
              simp [hq]
            · rw [if_neg c4] at hq
              cases hq
      simp [this]
    · simp only [List.map_cons, List.mem_cons]
      exact Or.inr (ih q hq)

theorem strictEq_vObj (a b : List (String × JsVal)) :
    strictEq (vObj a) (vObj b) = false := rfl

theorem scalarB_not_objcond {v : JsVal} (h : scalarB v = true) :
    ¬(v.truthy = true ∧ v.typeofObject = true) := by
  cases v <;> simp_all [scalarB, JsVal.truthy, JsVal.typeofObject]

theorem equalsPropsG_true (recur : JsVal → JsVal → JsD → JsVal) :
    ∀ (props : List (String × JsVal)) (o2 : JsVal) (d : JsD),
    (∀ k v, (k, v) ∈ props → equalsStepG recur v k o2 d = true) →
    equalsPropsG recur props o2 d = true := by
  intro props
  induction props with
  | nil => intro o2 d _; rfl
  | cons p rest ih =>
    intro o2 d h
    obtain ⟨k, v⟩ := p
    simp only [equalsPropsG, Bool.and_eq_true]
    exact ⟨h k v (by simp), ih o2 d (fun k' v' h' => h k' v' (by simp [h']))⟩

/-- `equalsDeep` on two plain objects with an `undefined` depth reduces
to the key-count check followed by the property loop. -/
theorem equalsDeepF_obj_obj (fuel : Nat) (bs ps : List (String × JsVal)) :
    equalsDeepF (fuel + 1) (vObj bs) (vObj ps) JsD.undef =
      if bs.length = ps.length then
        vBool (equalsPropsG (equalsDeepF fuel) bs (vObj ps) JsD.undef)
      else vBool false := by
  by_cases h : bs.length = ps.length <;>
    simp [equalsDeepF, JsD.normalize, JsD.ltZero, JsD.pred, strictEq_vObj,
      forInProps, truthy_vObj, typeofObject_vObj, h]

/-- Reflexivity of `equalsDeep` on truthy plain objects. -/
theorem equalsDeepF_refl : ∀ fuel, ∀ ps : List (String × JsVal),
    plainB (vObj ps) = true → jsSize (vObj ps) ≤ fuel →
    equalsDeepF fuel (vObj ps) (vObj ps) JsD.undef = vBool true := by
  intro fuel
  induction fuel with
  | zero =>
    intro ps _ hs
    exact absurd (Nat.le_trans (jsSize_pos _) hs) (by decide)
  | succ fuel ih =>
    intro ps hp hs
    simp only [plainB, Bool.and_eq_true] at hp
    have hloop : equalsPropsG (equalsDeepF fuel) ps (vObj ps) JsD.undef = true := by
      apply equalsPropsG_true
      intro k v hm
      have hlook : propLookup ps k = some v :=
        propLookup_self_of_nodup ps hp.1 k v hm
      have hplain : plainB v = true := plainPropsB_mem hm hp.2
      rcases plainB_cases hplain with ⟨ps', e, hnd', hpp'⟩ | hsc
      · subst e
        have hsz : jsSize (vObj ps') ≤ fuel := by
          have h1 := jsSize_le_of_mem_props hm
          have h2 : jsSize (vObj ps) = 1 + jsSizeP ps := by simp [jsSize]
          omega
        simp only [equalsStepG, getMember, hlook, Option.getD_some,
          truthy_vObj, typeofObject_vObj, and_self, if_true]
        rw [ih ps' (by simp [plainB, hnd', hpp']) hsz]
        rfl
      · simp only [equalsStepG, getMember, hlook, Option.getD_some]
        rw [if_neg (scalarB_not_objcond hsc)]
        exact strictEq_refl_scalar hsc
    rw [equalsDeepF_obj_obj, if_pos rfl, hloop]

/-- A truthy `equalsDeep` verdict starting from a scalar forces actual
equality (the strict-equality fast path is the only way through). -/
theorem equalsDeepF_scalar_sound (fuel : Nat) (b c : JsVal)
    (hsb : scalarB b = true)
    (htr : (equalsDeepF (fuel + 1) b c JsD.undef).truthy = true) : b = c := by
  by_cases hb : b.truthy = true
  · by_cases hc : c.truthy = true
    · by_cases hse : b.strictEq c = true
      · exact strictEq_sound b c hse
      · have hto : b.typeofObject = false := by
          cases b <;> simp_all [scalarB, JsVal.truthy, JsVal.typeofObject]
        have hred : equalsDeepF (fuel + 1) b c JsD.undef = vBool false := by
          simp [equalsDeepF, JsD.normalize, JsD.ltZero, hb, hc, hse, hto]
        rw [hred] at htr
        simp [JsVal.truthy] at htr
    · have hred : equalsDeepF (fuel + 1) b c JsD.undef = vBool false := by
        simp [equalsDeepF, JsD.normalize, JsD.ltZero, hb, hc]
      rw [hred] at htr
      simp [JsVal.truthy] at htr
  · have hred : equalsDeepF (fuel + 1) b c JsD.undef = vBool false := by
      simp [equalsDeepF, JsD.normalize, JsD.ltZero, hb]
    rw [hred] at htr
    simp [JsVal.truthy] at htr

theorem goodProps_eq_of_loop (fuel : Nat)
    (hIH : ∀ b c, goodPairB b c = true → jsSize b ≤ fuel →
      (equalsDeepF fuel b c JsD.undef).truthy = true → b = c)
    (psF : List (String × JsVal)) :
    ∀ bs ps : List (String × JsVal), goodProps bs ps = true →
    bs.length = ps.length →
    (∀ k v, (k, v) ∈ ps → propLookup psF k = some v) →
    (∀ k v, (k, v) ∈ bs → jsSize v ≤ fuel) →
    equalsPropsG (equalsDeepF fuel) bs (vObj psF) JsD.undef = true →
    bs = ps := by
  intro bs
  induction bs with
  | nil =>
    intro ps _ hlen _ _ _
    cases ps with
    | nil => rfl
    | cons p rest => simp at hlen
  | cons b brest ih =>
    intro ps hgp hlen hlook hsz hloop
    obtain ⟨bk, bv⟩ := b
    cases ps with
    | nil => simp at hlen
    | cons p rest =>
      obtain ⟨k, v⟩ := p
      simp only [goodProps, Bool.and_eq_true, beq_iff_eq] at hgp
      obtain ⟨⟨hbk, hgpv⟩, hgrest⟩ := hgp
      subst hbk
      simp only [equalsPropsG, Bool.and_eq_true] at hloop
      have hv2 : propLookup psF bk = some v := hlook bk v (by simp)
      have hstep := hloop.1
      have hbveq : bv = v := by
        simp only [equalsStepG, getMember, hv2, Option.getD_some] at hstep
        by_cases hcnd : bv.truthy = true ∧ bv.typeofObject = true
        · rw [if_pos hcnd] at hstep
          exact hIH bv v hgpv (hsz bk bv (by simp)) hstep
        · rw [if_neg hcnd] at hstep
          exact strictEq_sound bv v hstep
      subst hbveq
      have hrest := ih rest hgrest (by simpa using hlen)
        (fun k' v' h' => hlook k' v' (by simp [h']))
        (fun k' v' h' => hsz k' v' (by simp [h'])) hloop.2
      rw [hrest]

/-- On the compatible fragment a truthy `equalsDeep` verdict implies
the two trees are actually equal. -/
theorem equalsDeepF_sound : ∀ fuel, ∀ b c : JsVal, goodPairB b c = true →
    jsSize b ≤ fuel → (equalsDeepF fuel b c JsD.undef).truthy = true →
    b = c := by
  intro fuel
  induction fuel with
  | zero =>
    intro b c _ hs _
    exact absurd (Nat.le_trans (jsSize_pos _) hs) (by decide)
  | succ fuel ih =>
    intro b c hg hs htr
    rcases goodPairB_cases hg with ⟨bs, ps, eb, ec⟩ | ⟨hbs, ps, ec, _⟩ | ⟨hsb, _⟩
    · subst eb; subst ec
      rw [equalsDeepF_obj_obj] at htr
      by_cases hlen : bs.length = ps.length
      · rw [if_pos hlen] at htr
        have hloop : equalsPropsG (equalsDeepF fuel) bs (vObj ps) JsD.undef
            = true := by simpa [JsVal.truthy] using htr
        simp only [goodPairB, Bool.and_eq_true] at hg
        have hlook := fun k v hm => propLookup_self_of_nodup ps hg.1.2 k v hm
        have hsz : ∀ k v, (k, v) ∈ bs → jsSize v ≤ fuel := by
          intro k v hm
          have h1 := jsSize_le_of_mem_props hm
          have h2 : jsSize (vObj bs) = 1 + jsSizeP bs := by simp [jsSize]
          omega
        have := goodProps_eq_of_loop fuel
          (fun b' c' hg' hs' ht' => ih b' c' hg' hs' ht') ps bs ps
          hg.2 hlen hlook hsz hloop
        rw [this]
      · rw [if_neg hlen] at htr
        simp [JsVal.truthy] at htr
    · subst ec
      exact equalsDeepF_scalar_sound fuel b _
        (by cases b <;> simp_all [baseScalarB, scalarB]) htr
    · exact equalsDeepF_scalar_sound fuel b c hsb htr

theorem objWrite_obj (acc : List (String × JsVal)) (k : String) (x : JsVal) :
    objWrite (vObj acc) k x = vObj (propWrite acc k x) := rfl

/-- Comparing a non-string scalar with an object: the type check fails,
so `equalsDeep` answers `false`. -/
theorem equals_baseScalar_obj {bv : JsVal} (hb : baseScalarB bv = true)
    (ps : List (String × JsVal)) :
    (equalsDeep bv (vObj ps) JsD.undef).truthy = false := by
  cases bv with
  | vNull =>
    simp [equalsDeep, jsSize, equalsDeepF, JsD.normalize, JsD.ltZero,
      JsVal.truthy]
  | vBool b =>
    cases b <;>
      simp [equalsDeep, jsSize, equalsDeepF, JsD.normalize, JsD.ltZero,
        JsVal.truthy, JsVal.typeofObject, strictEq]
  | vNum n =>
    by_cases hn : n = 0 <;>
      simp [equalsDeep, jsSize, equalsDeepF, JsD.normalize, JsD.ltZero,
        JsVal.truthy, JsVal.typeofObject, strictEq, hn]
  | vObj ps2 => simp [baseScalarB] at hb
  | vUndef => simp [baseScalarB] at hb
  | vStr s => simp [baseScalarB] at hb
  | vDate t => simp [baseScalarB] at hb
  | vRegex s g i m => simp [baseScalarB] at hb
  | vDeferred id o => simp [baseScalarB] at hb
  | vRaw x => simp [baseScalarB] at hb
  | vArr es => simp [baseScalarB] at hb

/-- Diffing against a base all of whose member reads are `undefined`
copies every (plain-valued) property. -/
theorem diffOfP_undef_base {b : JsVal} (hb : ∀ k, getMember b k = some vUndef) :
    ∀ ps : List (String × JsVal), plainPropsB ps = true → diffOfP b ps = ps := by
  intro ps
  induction ps with
  | nil => intro _; rfl
  | cons p rest ih =>
    intro hp
    obtain ⟨k, v⟩ := p
    simp only [plainPropsB, Bool.and_eq_true] at hp
    have hse : strictEq vUndef v = false := strictEq_undef_plain hp.1
    simp only [diffOfP, hb k, Option.getD_some]
    rw [if_neg (by simp [JsVal.truthy]), if_neg (by simp [JsVal.isArray]),
      if_pos (by simp [hse]), ih hp.2]
    rfl

theorem diffPropsG_spec (recur : JsVal → JsVal → JsD → Option JsVal)
    (base : JsVal) (hb1 : base ≠ vNull) (hb2 : base ≠ vUndef) :
    ∀ (ps acc : List (String × JsVal)),
    keysNodupB (ps.map Prod.fst) = true →
    (∀ q ∈ ps, ∀ r ∈ acc, (q : String × JsVal).1 ≠ (r : String × JsVal).1) →
    (∀ k v, (k, v) ∈ ps →
      ((getMember base k).getD vUndef).truthy = true →
      v.truthy = true → v.isObject = true →
      (equalsDeep ((getMember base k).getD vUndef) v JsD.undef).truthy = false →
      recur ((getMember base k).getD vUndef) v JsD.undef =
        some (diffOfV ((getMember base k).getD vUndef) v)) →
    diffPropsG recur base ps (vObj acc) JsD.undef =
      some (vObj (acc ++ diffOfP base ps)) := by
  intro ps
  induction ps with
  | nil => intro acc _ _ _; simp [diffPropsG, diffOfP]
  | cons p rest ih =>
    intro acc hnd hdisj hrec
    obtain ⟨k, v⟩ := p
    obtain ⟨value1, hget⟩ := getMember_nonnull hb1 hb2 k
    have hval1 : (getMember base k).getD vUndef = value1 := by simp [hget]
    simp only [List.map_cons] at hnd
    obtain ⟨_, hk_rest, hnd'⟩ := keysNodupB_split [] k (rest.map Prod.fst)
      (by simpa using hnd)
    have hdisj' : ∀ q ∈ rest, ∀ r ∈ acc ++ [(k, v)],
        (q : String × JsVal).1 ≠ (r : String × JsVal).1 := by
      intro q hq r hr
      rcases List.mem_append.mp hr with hr | hr
      · exact hdisj q (by simp [hq]) r hr
      · simp only [List.mem_singleton] at hr
        subst hr
        exact hk_rest q.1 (List.mem_map.mpr ⟨q, hq, rfl⟩)
    have hdisjx : ∀ (x : JsVal), ∀ q ∈ rest, ∀ r ∈ acc ++ [(k, x)],
        (q : String × JsVal).1 ≠ (r : String × JsVal).1 := by
      intro x q hq r hr
      rcases List.mem_append.mp hr with hr | hr
      · exact hdisj q (by simp [hq]) r hr
      · simp only [List.mem_singleton] at hr
        subst hr
        exact hk_rest q.1 (List.mem_map.mpr ⟨q, hq, rfl⟩)
    have hrec' : ∀ k' v', (k', v') ∈ rest →
        ((getMember base k').getD vUndef).truthy = true →
        v'.truthy = true → v'.isObject = true →
        (equalsDeep ((getMember base k').getD vUndef) v' JsD.undef).truthy
          = false →
        recur ((getMember base k').getD vUndef) v' JsD.undef =
          some (diffOfV ((getMember base k').getD vUndef) v') :=
      fun k' v' h' => hrec k' v' (by simp [h'])
    have hstep : ∀ x : JsVal,
        diffPropsG recur base rest (vObj (acc ++ [(k, x)])) JsD.undef =
          some (vObj ((acc ++ [(k, x)]) ++ diffOfP base rest)) :=
      fun x => ih (acc ++ [(k, x)]) (by simpa using hnd') (hdisjx x) hrec'
    have hskip : diffPropsG recur base rest (vObj acc) JsD.undef =
        some (vObj (acc ++ diffOfP base rest)) :=
      ih acc (by simpa using hnd')
        (fun q hq r hr => hdisj q (by simp [hq]) r hr) hrec'
    have hwr : propWrite acc k = fun x => acc ++ [(k, x)] := by
      funext x
      exact propWrite_absent (fun q hq e =>
        hdisj (k, v) (by simp) q hq e.symm) x
    simp only [diffPropsG, diffStepG, hget, Option.bind_eq_bind,
      Option.some_bind, Option.getD_some, hval1, JsD.pred, diffOfP]
    by_cases c1 : value1.truthy = true ∧ v.truthy = true ∧ v.isObject = true
    · rw [if_pos c1, if_pos c1]
      by_cases c2 : (equalsDeep value1 v JsD.undef).truthy = true
      · rw [if_neg (by simp [c2]), if_neg (by simp [c2])]
        simp only [Option.pure_def, Option.some_bind, List.nil_append]
        exact hskip
      · rw [if_pos c2, if_pos c2]
        have hr2 := hrec k v (by simp) (by rw [hval1]; exact c1.1) c1.2.1
          c1.2.2 (by rw [hval1]; simpa using c2)
        rw [hval1] at hr2
        rw [hr2]
        simp only [Option.some_bind, Option.pure_def, objWrite_obj, hwr]
        rw [hstep (diffOfV value1 v)]
        simp [List.append_assoc]
    · rw [if_neg c1, if_neg c1]
      by_cases c3 : value1.isArray = true ∧ v.isArray = true
      · rw [if_pos c3, if_pos c3]
        by_cases c2 : (equalsDeep value1 v JsD.undef).truthy = true
        · rw [if_neg (by simp [c2]), if_neg (by simp [c2])]
          simp only [Option.pure_def, Option.some_bind, List.nil_append]
          exact hskip
        · rw [if_pos c2, if_pos c2]
          simp only [Option.pure_def, Option.some_bind, objWrite_obj, hwr]
          rw [hstep v]
          simp [List.append_assoc]
      · rw [if_neg c3, if_neg c3]
        by_cases c4 : value1.strictEq v = true
        · rw [if_neg (by simp [c4]), if_neg (by simp [c4])]
          simp only [Option.pure_def, Option.some_bind, List.nil_append]
          exact hskip
        · rw [if_pos (by simpa using c4), if_pos (by simpa using c4)]
          simp only [Option.pure_def, Option.some_bind, objWrite_obj, hwr]
          rw [hstep v]
          simp [List.append_assoc]

theorem diffDeepF_spec : ∀ fuel (base : JsVal) (ps : List (String × JsVal)),
    base ≠ vNull → base ≠ vUndef →
    keysNodupB (ps.map Prod.fst) = true → plainPropsB ps = true →
    jsSize (vObj ps) ≤ fuel →
    diffDeepF fuel base (vObj ps) JsD.undef = some (vObj (diffOfP base ps)) := by
  intro fuel
  induction fuel with
  | zero =>
    intro base ps _ _ _ _ hs
    exact absurd (Nat.le_trans (jsSize_pos _) hs) (by decide)
  | succ fuel ih =>
    intro base ps hb1 hb2 hnd hpl hs
    simp only [diffDeepF, JsD.normalize, JsD.ltZero, Bool.false_eq_true,
      if_false]
    have := diffPropsG_spec (diffDeepF fuel) base hb1 hb2 ps [] hnd
      (by intro q _ r hr; cases hr) ?_
    · simpa using this
    · intro k v hm htr1 _ hvo _
      have hpv : plainB v = true := plainPropsB_mem hm hpl
      rcases plainB_cases hpv with ⟨ps', e, hnd', hpp'⟩ | hsc
      · subst e
        have h1 := jsSize_le_of_mem_props hm
        have h2 : jsSize (vObj ps) = 1 + jsSizeP ps := by simp [jsSize]
        rw [ih ((getMember base k).getD vUndef) ps'
          (truthy_ne_null htr1) (truthy_ne_undef htr1) hnd' hpp' (by omega)]
        rfl
      · rw [scalarB_isObject hsc] at hvo
        exact Bool.noConfusion hvo

/-- The diff stage: on the fragment, `util.diffDeep(base, changed)`
computes exactly `diffOfP`. -/
theorem diffDeep_spec (base : JsVal) (ps : List (String × JsVal))
    (hb1 : base ≠ vNull) (hb2 : base ≠ vUndef)
    (hnd : keysNodupB (ps.map Prod.fst) = true)
    (hpl : plainPropsB ps = true) :
    diffDeep base (vObj ps) JsD.undef = some (vObj (diffOfP base ps)) :=
  diffDeepF_spec (jsSize (vObj ps)) base ps hb1 hb2 hnd hpl (Nat.le_refl _)

theorem plainB_flags {v : JsVal} (h : plainB v = true) :
    v.isDeferred = false ∧ v.isDate = false ∧ v.isRegex = false ∧
      v.isArray = false := by
  cases v <;> simp_all [plainB, JsVal.isDeferred, JsVal.isDate,
    JsVal.isRegex, JsVal.isArray]

/-- One merge-loop iteration that ends in a plain assignment (the
clone/descriptor/assignment branches all write `mergeFrom[prop]`, the
clone being the identity on trees). -/
theorem mergeStep_write (recur : JsVal → List JsVal → Int → Option JsVal)
    (cs dps : List (String × JsVal)) (k : String) (x : JsVal) (depth : Int)
    (hfv : propLookup dps k = some x)
    (hx1 : x.isDeferred = false) (hx2 : x.isDate = false)
    (hx3 : x.isRegex = false)
    (hiv : ((propLookup cs k).getD vUndef).isObject = false ∨
      x.isObject = false) :
    mergeStepG recur (vObj cs) (vObj dps) k depth =
      some (vObj (propWrite cs k x), vObj dps) := by
  have hgm : getMember (vObj dps) k = some x := by simp [getMember, hfv]
  have hgi : getMember (vObj cs) k = some ((propLookup cs k).getD vUndef) := by
    simp [getMember]
  have hdef : deferredOriginalStep (vObj cs) (vObj dps) k x
      ((propLookup cs k).getD vUndef) = some (vObj dps) := by
    simp [deferredOriginalStep, hx1]
  have hdate : dateAssign (vObj cs) k x = some (vObj cs) := by
    simp [dateAssign, hx2]
  simp only [mergeStepG, hgm, hgi, Option.bind_eq_bind, Option.some_bind, hdef]
  simp only [mergeStepRestG, hgm, Option.bind_eq_bind, Option.some_bind,
    hdate, hgi]
  rw [if_neg (by simp [hx3])]
  rw [if_neg (fun hc => by
    rcases hiv with h | h
    · rw [h] at hc
      exact Bool.noConfusion hc.1
    · rw [h] at hc
      exact Bool.noConfusion hc.2.1)]
  by_cases h3 : x.truthy = true ∧ x.typeofObject = true
  · rw [if_pos h3, cloneV_id]
    simp [setMember]
  · rw [if_neg h3]
    by_cases h5 : hasOwnProp (vObj dps) k = true <;> simp [h5, setMember]

/-- One merge-loop iteration through the recursive-merge branch. -/
theorem mergeStep_recur (recur : JsVal → List JsVal → Int → Option JsVal)
    (cs dps : List (String × JsVal)) (k : String) (x merged : JsVal)
    (depth : Int)
    (hfv : propLookup dps k = some x)
    (hx1 : x.isDeferred = false) (hx2 : x.isDate = false)
    (hx3 : x.isRegex = false)
    (hivo : ((propLookup cs k).getD vUndef).isObject = true)
    (hivd : ((propLookup cs k).getD vUndef).isDeferred = false)
    (hxo : x.isObject = true)
    (hr : recur ((propLookup cs k).getD vUndef) [x] (depth - 1) = some merged) :
    mergeStepG recur (vObj cs) (vObj dps) k depth =
      some (vObj (propWrite cs k merged), vObj dps) := by
  have hgm : getMember (vObj dps) k = some x := by simp [getMember, hfv]
  have hgi : getMember (vObj cs) k = some ((propLookup cs k).getD vUndef) := by
    simp [getMember]
  have hdef : deferredOriginalStep (vObj cs) (vObj dps) k x
      ((propLookup cs k).getD vUndef) = some (vObj dps) := by
    simp [deferredOriginalStep, hx1]
  have hdate : dateAssign (vObj cs) k x = some (vObj cs) := by
    simp [dateAssign, hx2]
  simp only [mergeStepG, hgm, hgi, Option.bind_eq_bind, Option.some_bind, hdef]
  simp only [mergeStepRestG, hgm, Option.bind_eq_bind, Option.some_bind,
    hdate, hgi]
  rw [if_neg (by simp [hx3])]
  rw [if_pos ⟨hivo, hxo, by simp [hivd]⟩, hr]
  simp [setMember]

theorem baseScalarB_scalar {v : JsVal} (h : baseScalarB v = true) :
    scalarB v = true := by
  cases v <;> simp_all [baseScalarB, scalarB]

theorem baseScalarB_isObject {v : JsVal} (h : baseScalarB v = true) :
    v.isObject = false := scalarB_isObject (baseScalarB_scalar h)

theorem baseScalar_truthy_getMember {bv : JsVal} (hb : baseScalarB bv = true)
    (ht : bv.truthy = true) : ∀ k, getMember bv k = some vUndef := by
  cases bv <;> simp_all [baseScalarB, JsVal.truthy, getMember]

theorem strictEq_scalar_obj {v : JsVal} (h : scalarB v = true)
    (ps : List (String × JsVal)) : strictEq v (vObj ps) = false := by
  cases v <;> simp_all [scalarB, strictEq]

theorem mergeLoop_spec (recur : JsVal → List JsVal → Int → Option JsVal)
    (depth : Int) (n : Nat) (bsF psF : List (String × JsVal))
    (hndF : keysNodupB (psF.map Prod.fst) = true)
    (hrec : ∀ bs' ps', goodPairB (vObj bs') (vObj ps') = true →
      jsNest (vObj ps') ≤ n → (jsNest (vObj ps') : Int) ≤ depth →
      recur (vObj bs') [vObj (diffOfP (vObj bs') ps')] (depth - 1) =
        some (vObj ps')) :
    ∀ (psuf bsuf done : List (String × JsVal)),
    psF = done ++ psuf →
    goodProps bsuf psuf = true →
    (∀ k' v', (k', v') ∈ bsuf → propLookup bsF k' = some v') →
    (∀ k', k' ∈ psuf.map Prod.fst → ¬ k' ∈ bsuf.map Prod.fst →
      propLookup bsF k' = none) →
    jsNestP psuf ≤ n →
    (jsNestP psuf : Int) ≤ depth →
    goPropsG recur (vObj (done ++ bsuf)) (vObj (diffOfP (vObj bsF) psF))
      ((diffOfP (vObj bsF) psuf).map Prod.fst) depth =
      some (vObj (done ++ psuf)) := by
  intro psuf
  induction psuf with
  | nil =>
    intro bsuf done hps hgp _ _ _ _
    cases bsuf with
    | nil => simp [diffOfP, goPropsG]
    | cons b brest => simp [goodProps] at hgp
  | cons p rest ih =>
    intro bsuf done hps hgp hlookB hlookN hn hd
    obtain ⟨k, v⟩ := p
    have hkeysF : psF.map Prod.fst =
        done.map Prod.fst ++ k :: rest.map Prod.fst := by
      rw [hps]; simp
    have hndsplit := keysNodupB_split (done.map Prod.fst) k
      (rest.map Prod.fst) (by rw [← hkeysF]; exact hndF)
    have hdone_ne : ∀ q ∈ done, (q : String × JsVal).1 ≠ k := by
      intro q hq
      exact hndsplit.1 q.1 (List.mem_map.mpr ⟨q, hq, rfl⟩)
    have hrest_ne : ∀ q ∈ rest, (q : String × JsVal).1 ≠ k := by
      intro q hq
      exact hndsplit.2.1 q.1 (List.mem_map.mpr ⟨q, hq, rfl⟩)
    have hdiffdone_ne : ∀ q ∈ diffOfP (vObj bsF) done,
        (q : String × JsVal).1 ≠ k := by
      intro q hq
      exact hndsplit.1 q.1 (diffOfP_keys_sub (vObj bsF) done q hq)
    have hnv : jsNest v ≤ n :=
      Nat.le_trans (jsNestP_le_of_mem (List.mem_cons_self (k, v) rest)) hn
    have hnrest : jsNestP rest ≤ n := by
      have h1 : jsNestP ((k, v) :: rest) = max (jsNest v) (jsNestP rest) := rfl
      have h2 := Nat.le_max_right (jsNest v) (jsNestP rest)
      omega
    have hdv' : (jsNest v : Int) ≤ depth := by
      have h1 : jsNestP ((k, v) :: rest) = max (jsNest v) (jsNestP rest) := rfl
      have h2 := Nat.le_max_left (jsNest v) (jsNestP rest)
      omega
    have hdrest : (jsNestP rest : Int) ≤ depth := by
      have h1 : jsNestP ((k, v) :: rest) = max (jsNest v) (jsNestP rest) := rfl
      have h2 := Nat.le_max_right (jsNest v) (jsNestP rest)
      omega
    have hps' : psF = (done ++ [(k, v)]) ++ rest := by rw [hps]; simp
    cases bsuf with
    | nil =>
      simp only [goodProps, plainPropsB, Bool.and_eq_true] at hgp
      obtain ⟨hplv, hplrest⟩ := hgp
      have hlknone : propLookup bsF k = none :=
        hlookN k (by simp) (by simp)
      have hval1 : (getMember (vObj bsF) k).getD vUndef = vUndef := by
        simp [getMember, hlknone]
      have hB : diffOfP (vObj bsF) ((k, v) :: rest) =
          (k, v) :: diffOfP (vObj bsF) rest := by
        simp [diffOfP, hval1, JsVal.truthy, JsVal.isArray,
          strictEq_undef_plain hplv]
      have hdvlook : propLookup (diffOfP (vObj bsF) psF) k = some v := by
        rw [hps, diffOfP_append, propLookup_append_absent hdiffdone_ne, hB]
        simp [propLookup]
      have hivnone : propLookup (done ++ ([] : List (String × JsVal))) k
          = none := by
        rw [List.append_nil]
        exact propLookup_none hdone_ne
      obtain ⟨hf1, hf2, hf3, _⟩ := plainB_flags hplv
      have hstep := mergeStep_write recur (done ++ []) (diffOfP (vObj bsF) psF)
        k v depth hdvlook hf1 hf2 hf3
        (by rw [hivnone]; exact Or.inl rfl)
      rw [hB]
      simp only [List.map_cons, goPropsG, hstep, Option.bind_eq_bind,
        Option.some_bind]
      have hwr : propWrite (done ++ ([] : List (String × JsVal))) k v =
          done ++ [(k, v)] := by
        rw [List.append_nil]
        exact propWrite_absent hdone_ne v
      rw [hwr]
      have := ih [] (done ++ [(k, v)]) hps' (by simpa [goodProps] using hplrest)
        (fun k' v' h' => absurd h' (List.not_mem_nil _))
        (fun k' h1 _ => hlookN k' (by simp [h1]) (by simp))
        hnrest hdrest
      simpa [List.append_assoc] using this
    | cons bq brest =>
      obtain ⟨bk, bv⟩ := bq
      simp only [goodProps, Bool.and_eq_true, beq_iff_eq] at hgp
      obtain ⟨⟨hbk, hgpv⟩, hgrest⟩ := hgp
      subst hbk
      have hlookk : propLookup bsF bk = some bv := hlookB bk bv (by simp)
      have hval1 : (getMember (vObj bsF) bk).getD vUndef = bv := by
        simp [getMember, hlookk]
      have hlookB' : ∀ k' v', (k', v') ∈ brest → propLookup bsF k' = some v' :=
        fun k' v' h' => hlookB k' v' (by simp [h'])
      have hlookN' : ∀ k', k' ∈ rest.map Prod.fst →
          ¬ k' ∈ brest.map Prod.fst → propLookup bsF k' = none := by
        intro k' h1 h2
        apply hlookN k' (by simp [h1])
        simp only [List.map_cons, List.mem_cons]
        rintro (e | h3)
        · exact hndsplit.2.1 k' h1 e
        · exact h2 h3
      have hivlook : propLookup (done ++ (bk, bv) :: brest) bk = some bv :=
        propLookup_keyed_append hdone_ne bv brest
      rcases goodPairB_cases hgpv with ⟨bs', ps', eb, ec⟩ |
        ⟨hbsc, ps', ec, hpl'⟩ | ⟨hscb, hscv⟩
      · subst eb; subst ec
        by_cases heq : (equalsDeep (vObj bs') (vObj ps') JsD.undef).truthy
            = true
        · have hbv : vObj bs' = vObj ps' :=
            equalsDeepF_sound (jsSize (vObj bs')) _ _ hgpv (Nat.le_refl _)
              (by simpa [equalsDeep] using heq)
          have hB : diffOfP (vObj bsF) ((bk, vObj ps') :: rest) =
              diffOfP (vObj bsF) rest := by
            simp [diffOfP, hval1, truthy_vObj, isObject_vObj, heq]
          rw [hB]
          have := ih brest (done ++ [(bk, vObj ps')]) hps' hgrest hlookB'
            hlookN' hnrest hdrest
          simpa [hbv, List.append_assoc] using this
        · have hB : diffOfP (vObj bsF) ((bk, vObj ps') :: rest) =
              (bk, vObj (diffOfP (vObj bs') ps')) ::
                diffOfP (vObj bsF) rest := by
            simp [diffOfP, hval1, truthy_vObj, isObject_vObj, heq, diffOfV]
          have hdvlook : propLookup (diffOfP (vObj bsF) psF) bk =
              some (vObj (diffOfP (vObj bs') ps')) := by
            rw [hps, diffOfP_append, propLookup_append_absent hdiffdone_ne, hB]
            simp [propLookup]
          have hrecx := hrec bs' ps' hgpv hnv hdv'
          have hstep := mergeStep_recur recur (done ++ (bk, vObj bs') :: brest)
            (diffOfP (vObj bsF) psF) bk (vObj (diffOfP (vObj bs') ps'))
            (vObj ps') depth hdvlook rfl rfl rfl
            (by rw [hivlook]; rfl) (by rw [hivlook]; rfl) rfl
            (by simp only [hivlook, Option.getD_some]; exact hrecx)
          rw [hB]
          simp only [List.map_cons, goPropsG, hstep, Option.bind_eq_bind,
            Option.some_bind]
          rw [propWrite_keyed_append hdone_ne (vObj bs') (vObj ps') brest]
          have := ih brest (done ++ [(bk, vObj ps')]) hps' hgrest hlookB'
            hlookN' hnrest hdrest
          simpa [List.append_assoc] using this
      · subst ec
        have hplp' : plainPropsB ps' = true := by
          simp only [plainB, Bool.and_eq_true] at hpl'
          exact hpl'.2
        by_cases hbt : bv.truthy = true
        · have hub := baseScalar_truthy_getMember hbsc hbt
          have heqf := equals_baseScalar_obj hbsc ps'
          have hB : diffOfP (vObj bsF) ((bk, vObj ps') :: rest) =
              (bk, vObj ps') :: diffOfP (vObj bsF) rest := by
            simp only [diffOfP, hval1]
            rw [if_pos (⟨hbt, rfl, rfl⟩ : bv.truthy = true ∧
              (vObj ps').truthy = true ∧ (vObj ps').isObject = true)]
            rw [if_pos (by simp [heqf])]
            rw [show diffOfV bv (vObj ps') = vObj (diffOfP bv ps') from rfl]
            rw [diffOfP_undef_base hub ps' hplp']
            simp
          have hdvlook : propLookup (diffOfP (vObj bsF) psF) bk =
              some (vObj ps') := by
            rw [hps, diffOfP_append, propLookup_append_absent hdiffdone_ne, hB]
            simp [propLookup]
          have hstep := mergeStep_write recur (done ++ (bk, bv) :: brest)
            (diffOfP (vObj bsF) psF) bk (vObj ps') depth hdvlook rfl rfl rfl
            (by simp only [hivlook, Option.getD_some]
                exact Or.inl (baseScalarB_isObject hbsc))
          rw [hB]
          simp only [List.map_cons, goPropsG, hstep, Option.bind_eq_bind,
            Option.some_bind]
          rw [propWrite_keyed_append hdone_ne bv (vObj ps') brest]
          have := ih brest (done ++ [(bk, vObj ps')]) hps' hgrest hlookB'
            hlookN' hnrest hdrest
          simpa [List.append_assoc] using this
        · have hbf : bv.truthy = false := by
            cases hvv : bv.truthy
            · rfl
            · exact absurd hvv hbt
          have hba : bv.isArray = false :=
            (scalarB_flags (baseScalarB_scalar hbsc)).2.2.2.1
          have hbse : strictEq bv (vObj ps') = false :=
            strictEq_scalar_obj (baseScalarB_scalar hbsc) ps'
          have hB : diffOfP (vObj bsF) ((bk, vObj ps') :: rest) =
              (bk, vObj ps') :: diffOfP (vObj bsF) rest := by
            simp only [diffOfP, hval1]
            rw [if_neg (by simp [hbf])]
            rw [if_neg (by simp [hba])]
            rw [if_pos (by simp [hbse])]
            simp
          have hdvlook : propLookup (diffOfP (vObj bsF) psF) bk =
              some (vObj ps') := by
            rw [hps, diffOfP_append, propLookup_append_absent hdiffdone_ne, hB]
            simp [propLookup]
          have hstep := mergeStep_write recur (done ++ (bk, bv) :: brest)
            (diffOfP (vObj bsF) psF) bk (vObj ps') depth hdvlook rfl rfl rfl
            (by simp only [hivlook, Option.getD_some]
                exact Or.inl (baseScalarB_isObject hbsc))
          rw [hB]
          simp only [List.map_cons, goPropsG, hstep, Option.bind_eq_bind,
            Option.some_bind]
          rw [propWrite_keyed_append hdone_ne bv (vObj ps') brest]
          have := ih brest (done ++ [(bk, vObj ps')]) hps' hgrest hlookB'
            hlookN' hnrest hdrest
          simpa [List.append_assoc] using this
      · have hvio : v.isObject = false := scalarB_isObject hscv
        have hvia : v.isArray = false :=
          (scalarB_flags hscv).2.2.2.1
        obtain ⟨hvf1, hvf2, hvf3, _, _⟩ := scalarB_flags hscv
        by_cases hse : bv.strictEq v = true
        · have hbv : bv = v := strictEq_sound bv v hse
          have hB : diffOfP (vObj bsF) ((bk, v) :: rest) =
              diffOfP (vObj bsF) rest := by
            simp only [diffOfP, hval1]
            rw [if_neg (by simp [hvio])]
            rw [if_neg (by simp [hvia])]
            rw [if_neg (by simp [hse])]
            simp
          rw [hB]
          have := ih brest (done ++ [(bk, v)]) hps' hgrest hlookB'
            hlookN' hnrest hdrest
          simpa [hbv, List.append_assoc] using this
        · have hB : diffOfP (vObj bsF) ((bk, v) :: rest) =
              (bk, v) :: diffOfP (vObj bsF) rest := by
            simp [diffOfP, hval1, hvio, hvia, hse]
          have hdvlook : propLookup (diffOfP (vObj bsF) psF) bk = some v := by
            rw [hps, diffOfP_append, propLookup_append_absent hdiffdone_ne, hB]
            simp [propLookup]
          have hstep := mergeStep_write recur (done ++ (bk, bv) :: brest)
            (diffOfP (vObj bsF) psF) bk v depth hdvlook hvf1 hvf2 hvf3
            (Or.inr hvio)
          rw [hB]
          simp only [List.map_cons, goPropsG, hstep, Option.bind_eq_bind,
            Option.some_bind]
          rw [propWrite_keyed_append hdone_ne bv v brest]
          have := ih brest (done ++ [(bk, v)]) hps' hgrest hlookB'
            hlookN' hnrest hdrest
          simpa [List.append_assoc] using this

theorem extendDeepFC_diff : ∀ fuel (depth : Int) (bs ps : List (String × JsVal)),
    goodPairB (vObj bs) (vObj ps) = true →
    jsNest (vObj ps) ≤ fuel →
    (jsNest (vObj ps) : Int) ≤ depth + 1 →
    extendDeepFC fuel (vObj bs) [vObj (diffOfP (vObj bs) ps)] depth =
      some (vObj ps) := by
  intro fuel
  induction fuel with
  | zero =>
    intro depth bs ps _ hf _
    have h1 : jsNest (vObj ps) = 1 + jsNestP ps := rfl
    exact absurd hf (by omega)
  | succ fuel ih =>
    intro depth bs ps hg hf hdep
    have h1 : jsNest (vObj ps) = 1 + jsNestP ps := rfl
    have hdge : ¬ depth < 0 := by omega
    simp only [extendDeepFC, if_neg hdge]
    simp only [goodPairB, Bool.and_eq_true] at hg
    obtain ⟨⟨hndb, hndp⟩, hgp⟩ := hg
    have hml := mergeLoop_spec (extendDeepFC fuel) depth fuel bs ps hndp
      (fun bs' ps' hg' hn' hd' => ih (depth - 1) bs' ps' hg' hn' (by omega))
      ps bs [] rfl hgp
      (fun k' v' h' => propLookup_self_of_nodup bs hndb k' v' h')
      (fun k' _ h2 => propLookup_none (fun q hq e =>
        h2 (by rw [← e]; exact List.mem_map.mpr ⟨q, hq, rfl⟩)))
      (by omega) (by omega)
    simp only [List.nil_append] at hml
    simp only [goSourcesG, forInKeys, forInProps, Option.bind_eq_bind, hml,
      Option.some_bind]

/-- **C5, counterexample.**  `base = {}` and `changed = {a: undefined}`:
`changed` removes no key of `base`, yet the diff is `{}` (reading the
absent key and the stored `undefined` both give `undefined`, which are
strictly equal), the round-trip result is `{}`, and
`equalsDeep({}, {a: undefined})` is `false` (the key counts differ), so
the round-trip is not deep-equal to `changed`. -/
theorem diff_roundtrip_cex :
    diffDeep (vObj []) (vObj [("a", vUndef)]) JsD.undef = some (vObj []) ∧
    extendDeep (cloneDeep (vObj [])) [vObj []] = some (vObj []) ∧
    equalsDeep (vObj []) (vObj [("a", vUndef)]) JsD.undef = vBool false := by
  decide

/-- **C5 (amended).**  The diff round-trip
`extendDeep(cloneDeep(base), diffDeep(base, changed))` rebuilds
`changed` exactly — and the result is therefore deep-equal to
`changed` — on the plain-object fragment where `changed` keeps every
key of `base` in place and in order (new keys appended), no stored
value is `undefined`, an object never replaces a string or is replaced
along a path it shares with an array/date/regex/deferred/raw node, and
the object nesting stays within the default depth bound. -/
theorem diffDeep_extendDeep_roundtrip (bs ps : List (String × JsVal))
    (hg : goodPairB (vObj bs) (vObj ps) = true)
    (hnest : jsNest (vObj ps) ≤ 21) :
    ∃ d merged,
      diffDeep (vObj bs) (vObj ps) JsD.undef = some d ∧
      extendDeep (cloneDeep (vObj bs)) [d] = some merged ∧
      merged = vObj ps ∧
      equalsDeep merged (vObj ps) JsD.undef = vBool true := by
  refine ⟨vObj (diffOfP (vObj bs) ps), vObj ps, ?_, ?_, rfl, ?_⟩
  · have hp : plainB (vObj ps) = true := goodPairB_plain _ _ hg
    simp only [plainB, Bool.and_eq_true] at hp
    exact diffDeep_spec (vObj bs) ps (fun h => JsVal.noConfusion h)
      (fun h => JsVal.noConfusion h) hp.1 hp.2
  · rw [cloneDeep_id]
    have he : extendDeep (vObj bs) [vObj (diffOfP (vObj bs) ps)] =
        extendDeepFC 21 (vObj bs) [vObj (diffOfP (vObj bs) ps)] 20 := rfl
    rw [he]
    exact extendDeepFC_diff 21 20 bs ps hg hnest (by omega)
  · have hp : plainB (vObj ps) = true := goodPairB_plain _ _ hg
    have he : equalsDeep (vObj ps) (vObj ps) JsD.undef =
        equalsDeepF (jsSize (vObj ps)) (vObj ps) (vObj ps) JsD.undef := rfl
    rw [he, equalsDeepF_refl (jsSize (vObj ps)) ps hp (Nat.le_refl _)]

/-- Witness for C5's amended theorem: a base with a scalar edit, a
nested addition and a fresh key. -/
theorem diffDeep_extendDeep_roundtrip_witness :
    goodPairB (vObj [("a", vNum 1), ("b", vObj [("x", vNum 1)])])
      (vObj [("a", vNum 2), ("b", vObj [("x", vNum 1), ("y", vStr "s")]),
             ("c", vBool true)]) = true ∧
    jsNest (vObj [("a", vNum 2), ("b", vObj [("x", vNum 1), ("y", vStr "s")]),
             ("c", vBool true)]) ≤ 21 ∧
    (∃ d merged,
      diffDeep (vObj [("a", vNum 1), ("b", vObj [("x", vNum 1)])])
        (vObj [("a", vNum 2), ("b", vObj [("x", vNum 1), ("y", vStr "s")]),
               ("c", vBool true)]) JsD.undef = some d ∧
      extendDeep (cloneDeep (vObj [("a", vNum 1), ("b", vObj [("x", vNum 1)])]))
        [d] = some merged ∧
      merged = vObj [("a", vNum 2), ("b", vObj [("x", vNum 1), ("y", vStr "s")]),
               ("c", vBool true)] ∧
      equalsDeep merged (vObj [("a", vNum 2),
        ("b", vObj [("x", vNum 1), ("y", vStr "s")]), ("c", vBool true)])
        JsD.undef = vBool true) :=
  ⟨by decide, by decide,
    diffDeep_extendDeep_roundtrip _ _ (by decide) (by decide)⟩

/-!
## C3 — `resolveDeferredConfigs` and deferred values in arrays

A concrete resolver environment that records everything the source
passes to `resolve.call(completeConfig, completeConfig, original)`:
the resolver id, the root it was handed, and the `_original` payload.
-/
def recordingResolver : Nat → JsVal → JsVal → JsVal :=
  fun id root orig => vObj [("id", vNum id), ("root", root), ("orig", orig)]

/-- **C3, evaluation at the failing input.**  The iteration treats an
*array element* as a container to recurse into (line 556) and never
executes the replacement assignment (line 560) for it, so a
`DeferredConfig` that sits directly in an array survives resolution
(first conjunct) — contradicting the claimed invariant and the
function's own stated purpose ("find all the deferred values and
resolve them", line 533).  The remaining conjuncts check the claim's
positive parts on the embedding: a deferred *property* is replaced by
`resolver(root, original)`; keys are visited in sorted order, `"a"`
before `"b"`, so `"a"`'s resolver still sees both deferreds while
`"b"`'s sees `"a"` already replaced; and a deferred property nested in
an object inside an array is reached and replaced. -/
theorem resolveDeferredConfigs_array_element_unresolved :
    resolveDeferredConfigs recordingResolver
      (vObj [("a", vArr [vDeferred 0 none])]) =
      vObj [("a", vArr [vDeferred 0 none])] ∧
    resolveDeferredConfigs recordingResolver
      (vObj [("a", vDeferred 5 (some (vNum 7)))]) =
      vObj [("a", vObj [("id", vNum 5),
        ("root", vObj [("a", vDeferred 5 (some (vNum 7)))]),
        ("orig", vNum 7)])] ∧
    resolveDeferredConfigs recordingResolver
      (vObj [("b", vDeferred 1 none), ("a", vDeferred 0 none)]) =
      vObj [("b", vObj [("id", vNum 1),
        ("root", vObj [("b", vDeferred 1 none),
          ("a", vObj [("id", vNum 0),
            ("root", vObj [("b", vDeferred 1 none), ("a", vDeferred 0 none)]),
            ("orig", vUndef)])]),
        ("orig", vUndef)]),
       ("a", vObj [("id", vNum 0),
        ("root", vObj [("b", vDeferred 1 none), ("a", vDeferred 0 none)]),
        ("orig", vUndef)])] ∧
    resolveDeferredConfigs recordingResolver
      (vObj [("a", vArr [vObj [("x", vDeferred 2 none)]])]) =
      vObj [("a", vArr [vObj [("x", vObj [("id", vNum 2),
        ("root", vObj [("a", vArr [vObj [("x", vDeferred 2 none)]])]),
        ("orig", vUndef)])]])] := by
  decide

/-!
## C6 — aliasing between sources and the merged destination

Tree values cannot express reference identity, so `cloneDeep` and
`extendDeep` are re-embedded over `RVal`, the same value tree with an
object identity (`oid`) on every node that is a JS object (objects,
arrays, dates, regexes, deferred and raw instances).  Allocation is a
fresh-`oid` counter threaded through the functions exactly where the
source allocates (`new Date`, `new RegExp`, `[]`,
`Object.create(...)`); an assignment copies the value — with its
`oid` — as JS copies the reference.  Mutating a live object is
`mutAt o w`: every node carrying `oid = o` (every alias of that
object) becomes `w`.  What a configuration consumer observes is
`stripR`, the value with identities erased. -/

inductive RVal where
  | rNull : RVal
  | rUndef : RVal
  | rBool (b : Bool) : RVal
  | rNum (n : Int) : RVal
  | rStr (s : String) : RVal
  | rDate (oid : Nat) (t : Int) : RVal
  | rRegex (oid : Nat) (src : String) (g i m : Bool) : RVal
  | rDeferred (oid : Nat) (id : Nat) (orig : Option RVal) : RVal
  | rRaw (oid : Nat) (payload : RVal) : RVal
  | rArr (oid : Nat) (elems : List RVal) : RVal
  | rObj (oid : Nat) (props : List (String × RVal)) : RVal
  deriving Repr

namespace RVal

def truthy : RVal → Bool
  | rNull => false
  | rUndef => false
  | rBool b => b
  | rNum n => n != 0
  | rStr s => s ≠ ""
  | _ => true

def typeofObject : RVal → Bool
  | rNull => true
  | rUndef => false
  | rBool _ => false
  | rNum _ => false
  | rStr _ => false
  | _ => true

def isObject : RVal → Bool
  | rNull => false
  | rArr _ _ => false
  | v => typeofObject v

def isArray : RVal → Bool
  | rArr _ _ => true
  | _ => false

def isDeferred : RVal → Bool
  | rDeferred _ _ _ => true
  | _ => false

def isDate : RVal → Bool
  | rDate _ _ => true
  | _ => false

def isRegex : RVal → Bool
  | rRegex _ _ _ _ _ => true
  | _ => false

def isNum : RVal → Bool
  | rNum _ => true
  | _ => false

end RVal

open RVal

mutual

def rSize : RVal → Nat
  | rRaw _ x => 1 + rSize x
  | rDeferred _ _ o => 1 + rSizeO o
  | rArr _ es => 1 + rSizeL es
  | rObj _ ps => 1 + rSizeP ps
  | _ => 1
termination_by structural v => v

def rSizeL : List RVal → Nat
  | [] => 0
  | e :: r => rSize e + rSizeL r
termination_by structural l => l

def rSizeP : List (String × RVal) → Nat
  | [] => 0
  | (_, v) :: r => rSize v + rSizeP r
termination_by structural l => l

def rSizeO : Option RVal → Nat
  | none => 0
  | some v => rSize v
termination_by structural o => o

end

mutual

/-- The observable value: identities erased. -/
def stripR : RVal → JsVal
  | rNull => vNull
  | rUndef => vUndef
  | rBool b => vBool b
  | rNum n => vNum n
  | rStr s => vStr s
  | rDate _ t => vDate t
  | rRegex _ s g i m => vRegex s g i m
  | rDeferred _ id o => vDeferred id (stripO o)
  | rRaw _ x => vRaw (stripR x)
  | rArr _ es => vArr (stripL es)
  | rObj _ ps => vObj (stripP ps)
termination_by structural v => v

def stripL : List RVal → List JsVal
  | [] => []
  | e :: r => stripR e :: stripL r
termination_by structural l => l

def stripP : List (String × RVal) → List (String × JsVal)
  | [] => []
  | (k, v) :: r => (k, stripR v) :: stripP r
termination_by structural l => l

def stripO : Option RVal → Option JsVal
  | none => none
  | some v => some (stripR v)
termination_by structural o => o

end

mutual

/-- `o` is the identity of some node of `v`. -/
def occursB (o : Nat) : RVal → Bool
  | rDate o' _ => o' == o
  | rRegex o' _ _ _ _ => o' == o
  | rDeferred o' _ og => o' == o || occursO o og
  | rRaw o' x => o' == o || occursB o x
  | rArr o' es => o' == o || occursL o es
  | rObj o' ps => o' == o || occursP o ps
  | _ => false
termination_by structural v => v

def occursL (o : Nat) : List RVal → Bool
  | [] => false
  | e :: r => occursB o e || occursL o r
termination_by structural l => l

def occursP (o : Nat) : List (String × RVal) → Bool
  | [] => false
  | (_, v) :: r => occursB o v || occursP o r
termination_by structural l => l

def occursO (o : Nat) : Option RVal → Bool
  | none => false
  | some v => occursB o v
termination_by structural og => og

end

mutual

/-- Every identity in `v` is `< c` (so `c` is a safe fresh counter). -/
def oidsBelowB (c : Nat) : RVal → Bool
  | rDate o _ => o < c
  | rRegex o _ _ _ _ => o < c
  | rDeferred o _ og => decide (o < c) && oidsBelowO c og
  | rRaw o x => decide (o < c) && oidsBelowB c x
  | rArr o es => decide (o < c) && oidsBelowL c es
  | rObj o ps => decide (o < c) && oidsBelowP c ps
  | _ => true
termination_by structural v => v

def oidsBelowL (c : Nat) : List RVal → Bool
  | [] => true
  | e :: r => oidsBelowB c e && oidsBelowL c r
termination_by structural l => l

def oidsBelowP (c : Nat) : List (String × RVal) → Bool
  | [] => true
  | (_, v) :: r => oidsBelowB c v && oidsBelowP c r
termination_by structural l => l

def oidsBelowO (c : Nat) : Option RVal → Bool
  | none => true
  | some v => oidsBelowB c v
termination_by structural og => og

end

mutual

/-- Mutate the live object with identity `o`: every alias of it
becomes `w`. -/
def mutAt (o : Nat) (w : RVal) : RVal → RVal
  | rDate o' t => if o' = o then w else rDate o' t
  | rRegex o' s g i m => if o' = o then w else rRegex o' s g i m
  | rDeferred o' id og =>
    if o' = o then w else rDeferred o' id (mutAtO o w og)
  | rRaw o' x => if o' = o then w else rRaw o' (mutAt o w x)
  | rArr o' es => if o' = o then w else rArr o' (mutAtL o w es)
  | rObj o' ps => if o' = o then w else rObj o' (mutAtP o w ps)
  | v => v
termination_by structural v => v

def mutAtL (o : Nat) (w : RVal) : List RVal → List RVal
  | [] => []
  | e :: r => mutAt o w e :: mutAtL o w r
termination_by structural l => l

def mutAtP (o : Nat) (w : RVal) : List (String × RVal) → List (String × RVal)
  | [] => []
  | (k, v) :: r => (k, mutAt o w v) :: mutAtP o w r
termination_by structural l => l

def mutAtO (o : Nat) (w : RVal) : Option RVal → Option RVal
  | none => none
  | some v => some (mutAt o w v)
termination_by structural og => og

end

mutual

/-- No dates, regexes, deferred or raw instances anywhere. -/
def cleanB : RVal → Bool
  | rNull => true
  | rUndef => true
  | rBool _ => true
  | rNum _ => true
  | rStr _ => true
  | rArr _ es => cleanL es
  | rObj _ ps => cleanP ps
  | _ => false
termination_by structural v => v

def cleanL : List RVal → Bool
  | [] => true
  | e :: r => cleanB e && cleanL r
termination_by structural l => l

def cleanP : List (String × RVal) → Bool
  | [] => true
  | (_, v) :: r => cleanB v && cleanP r
termination_by structural l => l

end

mutual

/-- Container nesting (objects and arrays). -/
def rNest : RVal → Nat
  | rArr _ es => 1 + rNestL es
  | rObj _ ps => 1 + rNestP ps
  | _ => 0
termination_by structural v => v

def rNestL : List RVal → Nat
  | [] => 0
  | e :: r => max (rNest e) (rNestL r)
termination_by structural l => l

def rNestP : List (String × RVal) → Nat
  | [] => 0
  | (_, v) :: r => max (rNest v) (rNestP r)
termination_by structural l => l

end

def propLookupR (props : List (String × RVal)) (k : String) : Option RVal :=
  match props with
  | [] => none
  | (k', v) :: rest => if k' = k then some v else propLookupR rest k

def propWriteR (props : List (String × RVal)) (k : String) (v : RVal) :
    List (String × RVal) :=
  match props with
  | [] => [(k, v)]
  | (k', v') :: rest =>
    if k' = k then (k', v) :: rest else (k', v') :: propWriteR rest k v

def forInPropsR : RVal → List (String × RVal)
  | rObj _ props => props
  | rArr _ es => (es.enum.map fun (i, e) => (toString i, e))
  | rStr s => (s.data.enum.map fun (i, c) => (toString i, rStr (String.mk [c])))
  | rDeferred _ _ (some o) => [("_original", o)]
  | _ => []

def forInKeysR (v : RVal) : List String := (forInPropsR v).map Prod.fst

def hasOwnPropR (v : RVal) (k : String) : Bool :=
  (forInKeysR v).contains k

def getMemberR : RVal → String → Option RVal
  | rNull, _ => none
  | rUndef, _ => none
  | rObj _ props, k => some ((propLookupR props k).getD rUndef)
  | rArr _ es, k =>
    if k = "length" then some (rNum es.length)
    else some (((strToNat? k).bind fun i => es[i]?).getD rUndef)
  | rStr s, k =>
    if k = "length" then some (rNum s.data.length)
    else some (((strToNat? k).bind fun i =>
      (s.data[i]?.map fun c => rStr (String.mk [c]))).getD rUndef)
  | rDeferred _ _ (some o), k => some (if k = "_original" then o else rUndef)
  | _, _ => some rUndef

def setMemberR : RVal → String → RVal → Option RVal
  | rNull, _, _ => none
  | rUndef, _, _ => none
  | rObj oid props, k, v => some (rObj oid (propWriteR props k v))
  | rArr oid es, k, v =>
    some (rArr oid (match strToNat? k with
      | some i => if i < es.length then es.set i v
                  else if i = es.length then es ++ [v] else es
      | none => es))
  | rDeferred oid id orig, k, v =>
    some (if k = "_original" then rDeferred oid id (some v)
          else rDeferred oid id orig)
  | v, _, _ => some v

/-!
`util.cloneDeep` over `RVal`: same statement-for-statement embedding
as `cloneVF` above, plus the allocations the source performs — each
`new Date`, `new RegExp`, `[]` and `Object.create(...)` takes the next
fresh identity from the counter.  The `RawConfig` branch allocates a
fresh wrapper whose copied `resolve` closure still captures the *same*
payload.  At `depth === 0` the node itself is returned — shared. -/

def cloneElemsR (recur : RVal → Int → Nat → (RVal × Nat)) :
    List RVal → Int → Nat → (List RVal × Nat)
  | [], _, c => ([], c)
  | e :: rest, d, c =>
    (let (e', c') := recur e d c
     let (rest', c'') := cloneElemsR recur rest d c'
     (e' :: rest', c''))

def clonePropsR (recur : RVal → Int → Nat → (RVal × Nat)) :
    List (String × RVal) → Int → Nat → (List (String × RVal) × Nat)
  | [], _, c => ([], c)
  | (k, v) :: rest, d, c =>
    (let (v', c') := recur v d c
     let (rest', c'') := clonePropsR recur rest d c'
     ((k, v') :: rest', c''))

def cloneRF : Nat → RVal → Int → Nat → (RVal × Nat)
  | 0 => fun p _ c => (p, c)
  | fuel + 1 => fun parent depth c =>
    match parent with
    | rNull => (rNull, c)
    | p =>
      if depth = 0 then (p, c)
      else match p with
        | rArr _ es =>
          (let (es', c') := cloneElemsR (cloneRF fuel) es (depth - 1) (c + 1)
           (rArr c es', c'))
        | rRegex _ s g i m =>
          (match getRegExpFlags g i m with
           | _ => (rRegex c s g i m, c + 1))
        | rDate _ t => (rDate c t, c + 1)
        | rObj _ props =>
          (let (ps', c') := clonePropsR (cloneRF fuel) props (depth - 1) (c + 1)
           (rObj c ps', c'))
        | rDeferred _ id o =>
          (match o with
           | none => (rDeferred c id none, c + 1)
           | some v =>
             (let (v', c') := cloneRF fuel v (depth - 1) (c + 1)
              (rDeferred c id (some v'), c')))
        | rRaw _ x => (rRaw c x, c + 1)
        | prim => (prim, c)

def cloneR (parent : RVal) (depth : Int) (c : Nat) : RVal × Nat :=
  cloneRF (rSize parent) parent depth c

/-!
`util.extendDeep` over `RVal`: the same embedding as
`extendDeepFC`/`mergeStepG` above with the allocation counter
threaded; the only allocations are in the `util.cloneDeep` call of the
copy branch. -/

def dateAssignR (into : RVal) (k : String) (fv : RVal) : Option RVal :=
  if fv.isDate then setMemberR into k fv else pure into

def deferredOriginalStepR (into mergeFrom : RVal) (k : String)
    (fv0 iv0 : RVal) : Option RVal :=
  if fv0.isDeferred ∧ hasOwnPropR into k then do
    let orig ← if iv0.isDeferred then getMemberR iv0 "_original" else pure iv0
    let fv' ← setMemberR fv0 "_original" orig
    setMemberR mergeFrom k fv'
  else pure mergeFrom

def mergeStepRestR (recur : RVal → List RVal → Int → Nat → Option (RVal × Nat))
    (into from' : RVal) (k : String) (depth : Int)
    (isDeferredFunc : Bool) (c : Nat) : Option (RVal × RVal × Nat) := do
  let fv := (← getMemberR from' k)
  let into1 ← dateAssignR into k fv
  let iv1 := (← getMemberR into1 k)
  if fv.isRegex then do
    pure ((← setMemberR into1 k fv), from', c)
  else if iv1.isObject ∧ fv.isObject ∧ ¬ isDeferredFunc then do
    let mc ← recur iv1 [fv] (depth - 1) c
    pure ((← setMemberR into1 k mc.1), from', mc.2)
  else if fv.truthy ∧ fv.typeofObject then do
    let wc := cloneR fv (depth - 1) c
    pure ((← setMemberR into1 k wc.1), from', wc.2)
  else if hasOwnPropR from' k then do
    pure ((← setMemberR into1 k fv), from', c)
  else do
    pure ((← setMemberR into1 k fv), from', c)

def mergeStepR (recur : RVal → List RVal → Int → Nat → Option (RVal × Nat))
    (into mergeFrom : RVal) (k : String) (depth : Int) (c : Nat) :
    Option (RVal × RVal × Nat) := do
  let fv0 ← getMemberR mergeFrom k
  let iv0 ← getMemberR into k
  let from' ← deferredOriginalStepR into mergeFrom k fv0 iv0
  mergeStepRestR recur into from' k depth iv0.isDeferred c

def goPropsR (recur : RVal → List RVal → Int → Nat → Option (RVal × Nat))
    (into mergeFrom : RVal) (ks : List String) (depth : Int) (c : Nat) :
    Option (RVal × Nat) :=
  match ks with
  | [] => some (into, c)
  | k :: rest => do
    let st ← mergeStepR recur into mergeFrom k depth c
    goPropsR recur st.1 st.2.1 rest depth st.2.2

def goSourcesR (recur : RVal → List RVal → Int → Nat → Option (RVal × Nat))
    (into : RVal) (srcs : List RVal) (depth : Int) (c : Nat) :
    Option (RVal × Nat) :=
  match srcs with
  | [] => some (into, c)
  | mergeFrom :: rest => do
    let rc ← goPropsR recur into mergeFrom (forInKeysR mergeFrom) depth c
    goSourcesR recur rc.1 rest depth rc.2

def extendRFC : Nat → RVal → List RVal → Int → Nat → Option (RVal × Nat)
  | 0 => fun into _ _ c => some (into, c)
  | fuel + 1 => fun into srcs depth c =>
    if depth < 0 then some (into, c)
    else goSourcesR (extendRFC fuel) into srcs depth c

def extendR (mergeInto : RVal) (args : List RVal) (c : Nat) :
    Option (RVal × Nat) :=
  match args.getLast? with
  | some (rNum n) => extendRFC (n + 1).toNat mergeInto args.dropLast n c
  | some _ => extendRFC 21 mergeInto args 20 c
  | none => extendRFC 21 mergeInto [rUndef] 20 c

/-- **C6, counterexample.**  A `Date` in a source is assigned into the
destination by reference (line 935), not cloned: after
`extendDeep({}, {d: date})` the destination holds the very node of the
source (its identity `2` occurs in the result), and mutating that
source-reachable node (`date.setTime`, modelled by `mutAt 2`) changes
the value observable in the merged destination from `{d: Date(5)}` to
`{d: Date(99)}`.  (`RegExp` values at line 937, the `_original`
back-reference at line 931 and clone truncation at the depth bound
alias the same way.) -/
theorem extendDeep_date_aliased :
    (extendR (rObj 0 []) [rObj 1 [("d", rDate 2 5)]] 10).map
        (fun rc => (stripR rc.1, occursB 2 rc.1)) =
      some (vObj [("d", vDate 5)], true) ∧
    (extendR (rObj 0 []) [rObj 1 [("d", rDate 2 5)]] 10).map
        (fun rc => stripR (mutAt 2 (rDate 2 99) rc.1)) =
      some (vObj [("d", vDate 99)]) ∧
    vObj [("d", vDate 99)] ≠ vObj [("d", vDate 5)] := by decide

theorem rSize_pos (v : RVal) : 1 ≤ rSize v := by
  cases v <;> simp [rSize]

mutual

theorem occurs_lt_of_below : ∀ (c o : Nat) (v : RVal),
    oidsBelowB c v = true → occursB o v = true → o < c
  | c, o, rNull, _, ho => by simp [occursB] at ho
  | c, o, rUndef, _, ho => by simp [occursB] at ho
  | c, o, rBool b, _, ho => by simp [occursB] at ho
  | c, o, rNum n, _, ho => by simp [occursB] at ho
  | c, o, rStr s, _, ho => by simp [occursB] at ho
  | c, o, rDate o' t, hb, ho => by
    simp only [oidsBelowB, decide_eq_true_eq] at hb
    simp only [occursB, beq_iff_eq] at ho
    omega
  | c, o, rRegex o' s g i m, hb, ho => by
    simp only [oidsBelowB, decide_eq_true_eq] at hb
    simp only [occursB, beq_iff_eq] at ho
    omega
  | c, o, rDeferred o' id og, hb, ho => by
    simp only [oidsBelowB, Bool.and_eq_true, decide_eq_true_eq] at hb
    simp only [occursB, Bool.or_eq_true, beq_iff_eq] at ho
    rcases ho with e | ho
    · omega
    · exact occursO_lt_of_belowO c o og hb.2 ho
  | c, o, rRaw o' x, hb, ho => by
    simp only [oidsBelowB, Bool.and_eq_true, decide_eq_true_eq] at hb
    simp only [occursB, Bool.or_eq_true, beq_iff_eq] at ho
    rcases ho with e | ho
    · omega
    · exact occurs_lt_of_below c o x hb.2 ho
  | c, o, rArr o' es, hb, ho => by
    simp only [oidsBelowB, Bool.and_eq_true, decide_eq_true_eq] at hb
    simp only [occursB, Bool.or_eq_true, beq_iff_eq] at ho
    rcases ho with e | ho
    · omega
    · exact occursL_lt_of_belowL c o es hb.2 ho
  | c, o, rObj o' ps, hb, ho => by
    simp only [oidsBelowB, Bool.and_eq_true, decide_eq_true_eq] at hb
    simp only [occursB, Bool.or_eq_true, beq_iff_eq] at ho
    rcases ho with e | ho
    · omega
    · exact occursP_lt_of_belowP c o ps hb.2 ho

theorem occursL_lt_of_belowL : ∀ (c o : Nat) (l : List RVal),
    oidsBelowL c l = true → occursL o l = true → o < c
  | c, o, [], _, ho => by simp [occursL] at ho
  | c, o, e :: r, hb, ho => by
    simp only [oidsBelowL, Bool.and_eq_true] at hb
    simp only [occursL, Bool.or_eq_true] at ho
    rcases ho with ho | ho
    · exact occurs_lt_of_below c o e hb.1 ho
    · exact occursL_lt_of_belowL c o r hb.2 ho

theorem occursP_lt_of_belowP : ∀ (c o : Nat) (l : List (String × RVal)),
    oidsBelowP c l = true → occursP o l = true → o < c
  | c, o, [], _, ho => by simp [occursP] at ho
  | c, o, (k, v) :: r, hb, ho => by
    simp only [oidsBelowP, Bool.and_eq_true] at hb
    simp only [occursP, Bool.or_eq_true] at ho
    rcases ho with ho | ho
    · exact occurs_lt_of_below c o v hb.1 ho
    · exact occursP_lt_of_belowP c o r hb.2 ho

theorem occursO_lt_of_belowO : ∀ (c o : Nat) (og : Option RVal),
    oidsBelowO c og = true → occursO o og = true → o < c
  | c, o, none, _, ho => by simp [occursO] at ho
  | c, o, some v, hb, ho => by
    simp only [oidsBelowO] at hb
    simp only [occursO] at ho
    exact occurs_lt_of_below c o v hb ho

end

mutual

theorem mutAt_no_occurs : ∀ (o : Nat) (w v : RVal),
    occursB o v = false → mutAt o w v = v
  | o, w, rNull, _ => rfl
  | o, w, rUndef, _ => rfl
  | o, w, rBool b, _ => rfl
  | o, w, rNum n, _ => rfl
  | o, w, rStr s, _ => rfl
  | o, w, rDate o' t, ho => by
    simp only [occursB, beq_eq_false_iff_ne, ne_eq] at ho
    simp [mutAt, ho]
  | o, w, rRegex o' s g i m, ho => by
    simp only [occursB, beq_eq_false_iff_ne, ne_eq] at ho
    simp [mutAt, ho]
  | o, w, rDeferred o' id og, ho => by
    simp only [occursB, Bool.or_eq_false_iff, beq_eq_false_iff_ne, ne_eq] at ho
    simp only [mutAt, if_neg ho.1]
    rw [mutAtO_no_occurs o w og ho.2]
  | o, w, rRaw o' x, ho => by
    simp only [occursB, Bool.or_eq_false_iff, beq_eq_false_iff_ne, ne_eq] at ho
    simp only [mutAt, if_neg ho.1]
    rw [mutAt_no_occurs o w x ho.2]
  | o, w, rArr o' es, ho => by
    simp only [occursB, Bool.or_eq_false_iff, beq_eq_false_iff_ne, ne_eq] at ho
    simp only [mutAt, if_neg ho.1]
    rw [mutAtL_no_occurs o w es ho.2]
  | o, w, rObj o' ps, ho => by
    simp only [occursB, Bool.or_eq_false_iff, beq_eq_false_iff_ne, ne_eq] at ho
    simp only [mutAt, if_neg ho.1]
    rw [mutAtP_no_occurs o w ps ho.2]

theorem mutAtL_no_occurs : ∀ (o : Nat) (w : RVal) (l : List RVal),
    occursL o l = false → mutAtL o w l = l
  | o, w, [], _ => rfl
  | o, w, e :: r, ho => by
    simp only [occursL, Bool.or_eq_false_iff] at ho
    simp only [mutAtL]
    rw [mutAt_no_occurs o w e ho.1, mutAtL_no_occurs o w r ho.2]

theorem mutAtP_no_occurs : ∀ (o : Nat) (w : RVal) (l : List (String × RVal)),
    occursP o l = false → mutAtP o w l = l
  | o, w, [], _ => rfl
  | o, w, (k, v) :: r, ho => by
    simp only [occursP, Bool.or_eq_false_iff] at ho
    simp only [mutAtP]
    rw [mutAt_no_occurs o w v ho.1, mutAtP_no_occurs o w r ho.2]

theorem mutAtO_no_occurs : ∀ (o : Nat) (w : RVal) (og : Option RVal),
    occursO o og = false → mutAtO o w og = og
  | o, w, none, _ => rfl
  | o, w, some v, ho => by
    simp only [occursO] at ho
    simp only [mutAtO]
    rw [mutAt_no_occurs o w v ho]

end

mutual

theorem oidsBelow_mono : ∀ (c c' : Nat) (v : RVal), c ≤ c' →
    oidsBelowB c v = true → oidsBelowB c' v = true
  | c, c', rNull, _, _ => rfl
  | c, c', rUndef, _, _ => rfl
  | c, c', rBool b, _, _ => rfl
  | c, c', rNum n, _, _ => rfl
  | c, c', rStr s, _, _ => rfl
  | c, c', rDate o t, hc, hb => by
    simp only [oidsBelowB, decide_eq_true_eq] at hb ⊢
    omega
  | c, c', rRegex o s g i m, hc, hb => by
    simp only [oidsBelowB, decide_eq_true_eq] at hb ⊢
    omega
  | c, c', rDeferred o id og, hc, hb => by
    simp only [oidsBelowB, Bool.and_eq_true, decide_eq_true_eq] at hb ⊢
    exact ⟨by omega, oidsBelowO_mono c c' og hc hb.2⟩
  | c, c', rRaw o x, hc, hb => by
    simp only [oidsBelowB, Bool.and_eq_true, decide_eq_true_eq] at hb ⊢
    exact ⟨by omega, oidsBelow_mono c c' x hc hb.2⟩
  | c, c', rArr o es, hc, hb => by
    simp only [oidsBelowB, Bool.and_eq_true, decide_eq_true_eq] at hb ⊢
    exact ⟨by omega, oidsBelowL_mono c c' es hc hb.2⟩
  | c, c', rObj o ps, hc, hb => by
    simp only [oidsBelowB, Bool.and_eq_true, decide_eq_true_eq] at hb ⊢
    exact ⟨by omega, oidsBelowP_mono c c' ps hc hb.2⟩

theorem oidsBelowL_mono : ∀ (c c' : Nat) (l : List RVal), c ≤ c' →
    oidsBelowL c l = true → oidsBelowL c' l = true
  | c, c', [], _, _ => rfl
  | c, c', e :: r, hc, hb => by
    simp only [oidsBelowL, Bool.and_eq_true] at hb ⊢
    exact ⟨oidsBelow_mono c c' e hc hb.1, oidsBelowL_mono c c' r hc hb.2⟩

theorem oidsBelowP_mono : ∀ (c c' : Nat) (l : List (String × RVal)), c ≤ c' →
    oidsBelowP c l = true → oidsBelowP c' l = true
  | c, c', [], _, _ => rfl
  | c, c', (k, v) :: r, hc, hb => by
    simp only [oidsBelowP, Bool.and_eq_true] at hb ⊢
    exact ⟨oidsBelow_mono c c' v hc hb.1, oidsBelowP_mono c c' r hc hb.2⟩

theorem oidsBelowO_mono : ∀ (c c' : Nat) (og : Option RVal), c ≤ c' →
    oidsBelowO c og = true → oidsBelowO c' og = true
  | c, c', none, _, _ => rfl
  | c, c', some v, hc, hb => by
    simp only [oidsBelowO] at hb ⊢
    exact oidsBelow_mono c c' v hc hb

end

theorem cleanB_flags {v : RVal} (h : cleanB v = true) :
    v.isDeferred = false ∧ v.isDate = false ∧ v.isRegex = false := by
  cases v <;> simp_all [cleanB, RVal.isDeferred, RVal.isDate, RVal.isRegex]

theorem clean_isObject_rObj {v : RVal} (hc : cleanB v = true)
    (ho : v.isObject = true) :
    ∃ oid ps, v = rObj oid ps ∧ cleanP ps = true := by
  cases v <;> simp_all [cleanB, RVal.isObject, RVal.typeofObject]
  exact ⟨_, _, ⟨rfl, rfl⟩, hc⟩

theorem clean_scalar_no_oid {v : RVal} (hc : cleanB v = true)
    (hno : ¬(v.truthy = true ∧ v.typeofObject = true)) (o : Nat) :
    occursB o v = false := by
  cases v <;>
    simp_all [cleanB, RVal.truthy, RVal.typeofObject, occursB]

theorem lookR_facts : ∀ {ps : List (String × RVal)} {k : String} {u : RVal},
    propLookupR ps k = some u →
    (cleanP ps = true → cleanB u = true) ∧
    (∀ c, oidsBelowP c ps = true → oidsBelowB c u = true) ∧
    (∀ o, occursB o u = true → occursP o ps = true) ∧
    rNest u ≤ rNestP ps := by
  intro ps
  induction ps with
  | nil => intro k u h; simp [propLookupR] at h
  | cons q rest ih =>
    intro k u h
    obtain ⟨k0, v0⟩ := q
    simp only [propLookupR] at h
    by_cases e : k0 = k
    · rw [if_pos e] at h
      cases h
      refine ⟨?_, ?_, ?_, ?_⟩
      · intro hc
        simp only [cleanP, Bool.and_eq_true] at hc
        exact hc.1
      · intro c hb
        simp only [oidsBelowP, Bool.and_eq_true] at hb
        exact hb.1
      · intro o ho
        simp only [occursP, Bool.or_eq_true]
        exact Or.inl ho
      · have : rNestP ((k0, u) :: rest) = max (rNest u) (rNestP rest) := rfl
        omega
    · rw [if_neg e] at h
      obtain ⟨h1, h2, h3, h4⟩ := ih h
      refine ⟨?_, ?_, ?_, ?_⟩
      · intro hc
        simp only [cleanP, Bool.and_eq_true] at hc
        exact h1 hc.2
      · intro c hb
        simp only [oidsBelowP, Bool.and_eq_true] at hb
        exact h2 c hb.2
      · intro o ho
        simp only [occursP, Bool.or_eq_true]
        exact Or.inr (h3 o ho)
      · have : rNestP ((k0, v0) :: rest) = max (rNest v0) (rNestP rest) := rfl
        omega

theorem elemR_facts : ∀ {es : List RVal} {u : RVal}, u ∈ es →
    (cleanL es = true → cleanB u = true) ∧
    (∀ c, oidsBelowL c es = true → oidsBelowB c u = true) ∧
    (∀ o, occursB o u = true → occursL o es = true) ∧
    rNest u ≤ rNestL es := by
  intro es
  induction es with
  | nil => intro u h; cases h
  | cons e rest ih =>
    intro u h
    rcases List.mem_cons.mp h with e2 | h2
    · subst e2
      refine ⟨?_, ?_, ?_, ?_⟩
      · intro hc
        simp only [cleanL, Bool.and_eq_true] at hc
        exact hc.1
      · intro c hb
        simp only [oidsBelowL, Bool.and_eq_true] at hb
        exact hb.1
      · intro o ho
        simp only [occursL, Bool.or_eq_true]
        exact Or.inl ho
      · have : rNestL (u :: rest) = max (rNest u) (rNestL rest) := rfl
        omega
    · obtain ⟨h1, h2, h3, h4⟩ := ih h2
      refine ⟨?_, ?_, ?_, ?_⟩
      · intro hc
        simp only [cleanL, Bool.and_eq_true] at hc
        exact h1 hc.2
      · intro c hb
        simp only [oidsBelowL, Bool.and_eq_true] at hb
        exact h2 c hb.2
      · intro o ho
        simp only [occursL, Bool.or_eq_true]
        exact Or.inr (h3 o ho)
      · have : rNestL (e :: rest) = max (rNest e) (rNestL rest) := rfl
        omega

theorem getMemberR_nonnull {v : RVal} (h1 : v ≠ rNull) (h2 : v ≠ rUndef)
    (k : String) : ∃ w, getMemberR v k = some w := by
  cases v with
  | rNull => exact absurd rfl h1
  | rUndef => exact absurd rfl h2
  | rArr oid es =>
    simp only [getMemberR]
    split
    · exact ⟨_, rfl⟩
    · exact ⟨_, rfl⟩
  | rStr s =>
    simp only [getMemberR]
    split
    · exact ⟨_, rfl⟩
    · exact ⟨_, rfl⟩
  | rDeferred oid id o =>
    cases o with
    | none => exact ⟨rUndef, rfl⟩
    | some ov => exact ⟨_, rfl⟩
  | rObj oid ps => exact ⟨_, rfl⟩
  | rBool b => exact ⟨rUndef, rfl⟩
  | rNum n => exact ⟨rUndef, rfl⟩
  | rDate oid t => exact ⟨rUndef, rfl⟩
  | rRegex oid s g i m => exact ⟨rUndef, rfl⟩
  | rRaw oid p => exact ⟨rUndef, rfl⟩

/-- What a member read of a clean receiver yields: clean, within the
same identity bound, aliasing only nodes of the receiver, and strictly
shallower (or a scalar). -/
theorem getMemberR_facts : ∀ {v : RVal} {k : String} {w : RVal},
    getMemberR v k = some w → cleanB v = true →
    (cleanB w = true ∧
     (∀ c, oidsBelowB c v = true → oidsBelowB c w = true) ∧
     (∀ o, occursB o w = true → occursB o v = true) ∧
     (rNest w = 0 ∨ rNest w < rNest v)) := by
  intro v k w hg hc
  cases v with
  | rNull => simp [getMemberR] at hg
  | rUndef => simp [getMemberR] at hg
  | rObj oid ps =>
    simp only [getMemberR, Option.some.injEq] at hg
    cases hl : propLookupR ps k with
    | none =>
      rw [hl] at hg
      simp only [Option.getD_none] at hg
      subst hg
      exact ⟨rfl, fun c _ => rfl, fun o ho => by simp [occursB] at ho,
        Or.inl rfl⟩
    | some u =>
      rw [hl] at hg
      simp only [Option.getD_some] at hg
      subst hg
      obtain ⟨h1, h2, h3, h4⟩ := lookR_facts hl
      simp only [cleanB] at hc
      refine ⟨h1 hc, ?_, ?_, ?_⟩
      · intro c hb
        simp only [oidsBelowB, Bool.and_eq_true] at hb
        exact h2 c hb.2
      · intro o ho
        simp only [occursB, Bool.or_eq_true]
        exact Or.inr (h3 o ho)
      · right
        have : rNest (rObj oid ps) = 1 + rNestP ps := rfl
        omega
  | rArr oid es =>
    simp only [getMemberR] at hg
    by_cases hlen : k = "length"
    · rw [if_pos hlen] at hg
      cases hg
      exact ⟨rfl, fun c _ => rfl, fun o ho => by simp [occursB] at ho,
        Or.inl rfl⟩
    · rw [if_neg hlen] at hg
      simp only [Option.some.injEq] at hg
      cases hi : (strToNat? k).bind (fun i => es[i]?) with
      | none =>
        rw [hi] at hg
        simp only [Option.getD_none] at hg
        subst hg
        exact ⟨rfl, fun c _ => rfl, fun o ho => by simp [occursB] at ho,
          Or.inl rfl⟩
      | some u =>
        rw [hi] at hg
        simp only [Option.getD_some] at hg
        subst hg
        have hmem : u ∈ es := by
          rcases Option.bind_eq_some.mp hi with ⟨i, _, hgi⟩
          exact List.getElem?_mem hgi
        obtain ⟨h1, h2, h3, h4⟩ := elemR_facts hmem
        simp only [cleanB] at hc
        refine ⟨h1 hc, ?_, ?_, ?_⟩
        · intro c hb
          simp only [oidsBelowB, Bool.and_eq_true] at hb
          exact h2 c hb.2
        · intro o ho
          simp only [occursB, Bool.or_eq_true]
          exact Or.inr (h3 o ho)
        · right
          have : rNest (rArr oid es) = 1 + rNestL es := rfl
          omega
  | rStr s =>
    simp only [getMemberR] at hg
    by_cases hlen : k = "length"
    · rw [if_pos hlen] at hg
      cases hg
      exact ⟨rfl, fun c _ => rfl, fun o ho => by simp [occursB] at ho,
        Or.inl rfl⟩
    · rw [if_neg hlen] at hg
      simp only [Option.some.injEq] at hg
      cases hi : (strToNat? k).bind
          (fun i => (s.data[i]?.map fun c => rStr (String.mk [c]))) with
      | none =>
        rw [hi] at hg
        simp only [Option.getD_none] at hg
        subst hg
        exact ⟨rfl, fun c _ => rfl, fun o ho => by simp [occursB] at ho,
          Or.inl rfl⟩
      | some u =>
        rw [hi] at hg
        simp only [Option.getD_some] at hg
        subst hg
        rcases Option.bind_eq_some.mp hi with ⟨i, _, hgi⟩
        rcases Option.map_eq_some'.mp hgi with ⟨ch, _, hch⟩
        subst hch
        exact ⟨rfl, fun c _ => rfl, fun o ho => by simp [occursB] at ho,
          Or.inl rfl⟩
  | rBool b =>
    cases hg
    exact ⟨rfl, fun c _ => rfl, fun o ho => by simp [occursB] at ho,
      Or.inl rfl⟩
  | rNum n =>
    cases hg
    exact ⟨rfl, fun c _ => rfl, fun o ho => by simp [occursB] at ho,
      Or.inl rfl⟩
  | rDate oid t => simp [cleanB] at hc
  | rRegex oid s g i m => simp [cleanB] at hc
  | rDeferred oid id o => simp [cleanB] at hc
  | rRaw oid p => simp [cleanB] at hc

theorem writeR_facts (ps : List (String × RVal)) (k : String) (w : RVal) :
    (cleanP ps = true → cleanB w = true → cleanP (propWriteR ps k w) = true) ∧
    (∀ c, oidsBelowP c ps = true → oidsBelowB c w = true →
      oidsBelowP c (propWriteR ps k w) = true) ∧
    (∀ o, occursP o (propWriteR ps k w) = true →
      occursP o ps = true ∨ occursB o w = true) := by
  induction ps with
  | nil =>
    refine ⟨?_, ?_, ?_⟩
    · intro _ hw
      simp [propWriteR, cleanP, hw]
    · intro c _ hw
      simp [propWriteR, oidsBelowP, hw]
    · intro o ho
      simp only [propWriteR, occursP, Bool.or_eq_true] at ho
      rcases ho with ho | ho
      · exact Or.inr ho
      · simp [occursP] at ho
  | cons q rest ih =>
    obtain ⟨k0, v0⟩ := q
    by_cases e : k0 = k
    · refine ⟨?_, ?_, ?_⟩
      · intro hc hw
        simp only [cleanP, Bool.and_eq_true] at hc
        simp [propWriteR, if_pos e, cleanP, hw, hc.2]
      · intro c hb hw
        simp only [oidsBelowP, Bool.and_eq_true] at hb
        simp [propWriteR, if_pos e, oidsBelowP, hw, hb.2]
      · intro o ho
        simp only [propWriteR, if_pos e, occursP, Bool.or_eq_true] at ho
        rcases ho with ho | ho
        · exact Or.inr ho
        · exact Or.inl (by simp [occursP, ho])
    · refine ⟨?_, ?_, ?_⟩
      · intro hc hw
        simp only [cleanP, Bool.and_eq_true] at hc
        simp only [propWriteR, if_neg e, cleanP, Bool.and_eq_true]
        exact ⟨hc.1, (ih.1) hc.2 hw⟩
      · intro c hb hw
        simp only [oidsBelowP, Bool.and_eq_true] at hb
        simp only [propWriteR, if_neg e, oidsBelowP, Bool.and_eq_true]
        exact ⟨hb.1, (ih.2.1) c hb.2 hw⟩
      · intro o ho
        simp only [propWriteR, if_neg e, occursP, Bool.or_eq_true] at ho
        rcases ho with ho | ho
        · exact Or.inl (by simp [occursP, ho])
        · rcases (ih.2.2) o ho with h | h
          · exact Or.inl (by simp [occursP, h])
          · exact Or.inr h

theorem rSizeL_le_of_mem {e : RVal} : ∀ {es : List RVal}, e ∈ es →
    rSize e ≤ rSizeL es := by
  intro es
  induction es with
  | nil => intro h; cases h
  | cons x rest ih =>
    intro h
    rcases List.mem_cons.mp h with rfl | h
    · simp [rSizeL]
    · have := ih h
      simp only [rSizeL]
      omega

theorem rSizeP_le_of_mem {k : String} {v : RVal} :
    ∀ {ps : List (String × RVal)}, (k, v) ∈ ps → rSize v ≤ rSizeP ps := by
  intro ps
  induction ps with
  | nil => intro h; cases h
  | cons q rest ih =>
    intro h
    rcases List.mem_cons.mp h with rfl | h
    · simp [rSizeP]
    · have := ih h
      cases q
      simp only [rSizeP]
      omega

theorem pairR_facts : ∀ {ps : List (String × RVal)} {k : String} {v : RVal},
    (k, v) ∈ ps →
    (cleanP ps = true → cleanB v = true) ∧ rNest v ≤ rNestP ps := by
  intro ps
  induction ps with
  | nil => intro k v h; cases h
  | cons q rest ih =>
    intro k v h
    obtain ⟨k0, v0⟩ := q
    rcases List.mem_cons.mp h with e | h2
    · cases e
      constructor
      · intro hc
        simp only [cleanP, Bool.and_eq_true] at hc
        exact hc.1
      · simp only [rNestP]
        omega
    · obtain ⟨h1, h2⟩ := ih h2
      constructor
      · intro hc
        simp only [cleanP, Bool.and_eq_true] at hc
        exact h1 hc.2
      · simp only [rNestP]
        omega

theorem cloneElemsR_fresh (recur : RVal → Int → Nat → (RVal × Nat))
    (d : Int) :
    ∀ (es : List RVal),
    (∀ e ∈ es, ∀ c : Nat,
      c ≤ (recur e d c).2 ∧ cleanB (recur e d c).1 = true ∧
      oidsBelowB (recur e d c).2 (recur e d c).1 = true ∧
      (∀ o, occursB o (recur e d c).1 = true → c ≤ o)) →
    ∀ c : Nat,
    c ≤ (cloneElemsR recur es d c).2 ∧
    cleanL (cloneElemsR recur es d c).1 = true ∧
    oidsBelowL (cloneElemsR recur es d c).2 (cloneElemsR recur es d c).1
      = true ∧
    (∀ o, occursL o (cloneElemsR recur es d c).1 = true → c ≤ o) := by
  intro es
  induction es with
  | nil =>
    intro _ c
    exact ⟨Nat.le_refl _, rfl, rfl, fun o ho => by simp [occursL] at ho⟩
  | cons e rest ih =>
    intro h c
    obtain ⟨h1, h2, h3, h4⟩ := h e (by simp) c
    obtain ⟨g1, g2, g3, g4⟩ := ih (fun e' he' => h e' (by simp [he'])) (recur e d c).2
    rcases hre : recur e d c with ⟨e', c1⟩
    rcases hrest : cloneElemsR recur rest d c1 with ⟨rest', c2⟩
    rw [hre] at h1 h2 h3 h4 g1 g2 g3 g4
    rw [hrest] at g1 g2 g3 g4
    simp only at h1 h2 h3 h4 g1 g2 g3 g4
    have hred : cloneElemsR recur (e :: rest) d c = (e' :: rest', c2) := by
      simp only [cloneElemsR, hre, hrest]
    rw [hred]
    refine ⟨by omega, ?_, ?_, ?_⟩
    · simp only [cleanL, Bool.and_eq_true]
      exact ⟨h2, g2⟩
    · simp only [oidsBelowL, Bool.and_eq_true]
      exact ⟨oidsBelow_mono c1 c2 e' g1 h3, g3⟩
    · intro o ho
      simp only [occursL, Bool.or_eq_true] at ho
      rcases ho with ho | ho
      · exact h4 o ho
      · have := g4 o ho
        omega

theorem clonePropsR_fresh (recur : RVal → Int → Nat → (RVal × Nat))
    (d : Int) :
    ∀ (ps : List (String × RVal)),
    (∀ q ∈ ps, ∀ c : Nat,
      c ≤ (recur (q : String × RVal).2 d c).2 ∧
      cleanB (recur (q : String × RVal).2 d c).1 = true ∧
      oidsBelowB (recur (q : String × RVal).2 d c).2
        (recur (q : String × RVal).2 d c).1 = true ∧
      (∀ o, occursB o (recur (q : String × RVal).2 d c).1 = true → c ≤ o)) →
    ∀ c : Nat,
    c ≤ (clonePropsR recur ps d c).2 ∧
    cleanP (clonePropsR recur ps d c).1 = true ∧
    oidsBelowP (clonePropsR recur ps d c).2 (clonePropsR recur ps d c).1
      = true ∧
    (∀ o, occursP o (clonePropsR recur ps d c).1 = true → c ≤ o) := by
  intro ps
  induction ps with
  | nil =>
    intro _ c
    exact ⟨Nat.le_refl _, rfl, rfl, fun o ho => by simp [occursP] at ho⟩
  | cons q rest ih =>
    intro h c
    obtain ⟨k, v⟩ := q
    obtain ⟨h1, h2, h3, h4⟩ := h (k, v) (by simp) c
    obtain ⟨g1, g2, g3, g4⟩ := ih (fun q' hq' => h q' (by simp [hq'])) (recur v d c).2
    rcases hre : recur v d c with ⟨v', c1⟩
    rcases hrest : clonePropsR recur rest d c1 with ⟨rest', c2⟩
    rw [hre] at h1 h2 h3 h4 g1 g2 g3 g4
    rw [hrest] at g1 g2 g3 g4
    simp only at h1 h2 h3 h4 g1 g2 g3 g4
    have hred : clonePropsR recur ((k, v) :: rest) d c = ((k, v') :: rest', c2) := by
      simp only [clonePropsR, hre, hrest]
    rw [hred]
    refine ⟨by omega, ?_, ?_, ?_⟩
    · simp only [cleanP, Bool.and_eq_true]
      exact ⟨h2, g2⟩
    · simp only [oidsBelowP, Bool.and_eq_true]
      exact ⟨oidsBelow_mono c1 c2 v' g1 h3, g3⟩
    · intro o ho
      simp only [occursP, Bool.or_eq_true] at ho
      rcases ho with ho | ho
      · exact h4 o ho
      · have := g4 o ho
        omega

/-- `util.cloneDeep` allocates everything it returns: within the depth
bound and on the date/regex/deferred/raw-free fragment, every identity
of the clone is fresh (≥ the incoming counter). -/
theorem cloneRF_fresh : ∀ fuel (p : RVal) (depth : Int) (c : Nat),
    rSize p ≤ fuel → cleanB p = true → (rNest p : Int) ≤ depth →
    c ≤ (cloneRF fuel p depth c).2 ∧
    cleanB (cloneRF fuel p depth c).1 = true ∧
    oidsBelowB (cloneRF fuel p depth c).2 (cloneRF fuel p depth c).1 = true ∧
    (∀ o, occursB o (cloneRF fuel p depth c).1 = true → c ≤ o) := by
  intro fuel
  induction fuel with
  | zero =>
    intro p depth c hs _ _
    exact absurd (Nat.le_trans (rSize_pos p) hs) (by decide)
  | succ fuel ih =>
    intro p depth c hs hc hn
    cases p with
    | rNull =>
      exact ⟨Nat.le_refl _, rfl, rfl, fun o ho => by simp [occursB] at ho⟩
    | rUndef =>
      have hred : cloneRF (fuel + 1) (rUndef) depth c = (rUndef, c) := by
        by_cases hd : depth = 0 <;> simp [cloneRF, hd]
      rw [hred]
      exact ⟨Nat.le_refl _, rfl, rfl, fun o ho => by simp [occursB] at ho⟩
    | rBool b =>
      have hred : cloneRF (fuel + 1) (rBool b) depth c = (rBool b, c) := by
        by_cases hd : depth = 0 <;> simp [cloneRF, hd]
      rw [hred]
      exact ⟨Nat.le_refl _, rfl, rfl, fun o ho => by simp [occursB] at ho⟩
    | rNum n =>
      have hred : cloneRF (fuel + 1) (rNum n) depth c = (rNum n, c) := by
        by_cases hd : depth = 0 <;> simp [cloneRF, hd]
      rw [hred]
      exact ⟨Nat.le_refl _, rfl, rfl, fun o ho => by simp [occursB] at ho⟩
    | rStr s =>
      have hred : cloneRF (fuel + 1) (rStr s) depth c = (rStr s, c) := by
        by_cases hd : depth = 0 <;> simp [cloneRF, hd]
      rw [hred]
      exact ⟨Nat.le_refl _, rfl, rfl, fun o ho => by simp [occursB] at ho⟩
    | rDate oid t => simp [cleanB] at hc
    | rRegex oid s g i m => simp [cleanB] at hc
    | rDeferred oid id og => simp [cleanB] at hc
    | rRaw oid x => simp [cleanB] at hc
    | rArr oid es =>
      have hnest : rNest (rArr oid es) = 1 + rNestL es := rfl
      have hd : ¬ depth = 0 := by omega
      have hsz : rSize (rArr oid es) = 1 + rSizeL es := rfl
      simp only [cloneRF, if_neg hd]
      have hel := cloneElemsR_fresh (cloneRF fuel) (depth - 1) es
        (by
          intro e he c0
          obtain ⟨q1, q2⟩ := elemR_facts he
          refine ih e (depth - 1) c0 ?_ (q1 (by simpa [cleanB] using hc)) ?_
          · have := rSizeL_le_of_mem he
            omega
          · have h4 := (elemR_facts he).2.2.2
            omega)
        (c + 1)
      rcases hre : cloneElemsR (cloneRF fuel) es (depth - 1) (c + 1) with ⟨es', c'⟩
      rw [hre] at hel
      obtain ⟨q1, q2, q3, q4⟩ := hel
      simp only at q1 q2 q3 q4
      refine ⟨by omega, by simpa [cleanB] using q2, ?_, ?_⟩
      · simp only [oidsBelowB, Bool.and_eq_true, decide_eq_true_eq]
        exact ⟨by omega, q3⟩
      · intro o ho
        simp only [occursB, Bool.or_eq_true, beq_iff_eq] at ho
        rcases ho with e | ho
        · omega
        · have := q4 o ho
          omega
    | rObj oid ps =>
      have hnest : rNest (rObj oid ps) = 1 + rNestP ps := rfl
      have hd : ¬ depth = 0 := by omega
      have hsz : rSize (rObj oid ps) = 1 + rSizeP ps := rfl
      simp only [cloneRF, if_neg hd]
      have hel := clonePropsR_fresh (cloneRF fuel) (depth - 1) ps
        (by
          intro q hq c0
          obtain ⟨k, v⟩ := q
          obtain ⟨q1, q2⟩ := pairR_facts hq
          refine ih v (depth - 1) c0 ?_ (q1 (by simpa [cleanB] using hc)) ?_
          · have := rSizeP_le_of_mem hq
            omega
          · omega)
        (c + 1)
      rcases hre : clonePropsR (cloneRF fuel) ps (depth - 1) (c + 1) with ⟨ps', c'⟩
      rw [hre] at hel
      obtain ⟨q1, q2, q3, q4⟩ := hel
      simp only at q1 q2 q3 q4
      refine ⟨by omega, by simpa [cleanB] using q2, ?_, ?_⟩
      · simp only [oidsBelowB, Bool.and_eq_true, decide_eq_true_eq]
        exact ⟨by omega, q3⟩
      · intro o ho
        simp only [occursB, Bool.or_eq_true, beq_iff_eq] at ho
        rcases ho with e | ho
        · omega
        · have := q4 o ho
          omega

theorem clean_container_nest {v : RVal} (hc : cleanB v = true)
    (ht : v.truthy = true) (hto : v.typeofObject = true) : 1 ≤ rNest v := by
  cases v
  case rObj oid ps =>
    have : rNest (rObj oid ps) = 1 + rNestP ps := rfl
    omega
  case rArr oid es =>
    have : rNest (rArr oid es) = 1 + rNestL es := rfl
    omega
  all_goals simp_all [cleanB, RVal.truthy, RVal.typeofObject]

/-- One merge-loop iteration on the identity layer: the destination
stays a clean object, the counter only grows, and every identity of
the updated destination was either already in it or freshly
allocated — never taken from the source. -/
theorem mergeStepR_frame (recur : RVal → List RVal → Int → Nat → Option (RVal × Nat))
    (hrec : ∀ (i f : RVal) (d : Int) (cc : Nat),
      i.isObject = true → cleanB i = true → oidsBelowB cc i = true →
      cleanB f = true → (rNest f : Int) ≤ d →
      ∃ r c', recur i [f] d cc = some (r, c') ∧ cc ≤ c' ∧ r.isObject = true ∧
        cleanB r = true ∧ oidsBelowB c' r = true ∧
        (∀ o, occursB o r = true → occursB o i = true ∨ cc ≤ o))
    (into mergeFrom : RVal) (k : String) (depth : Int) (c : Nat)
    (hio : into.isObject = true) (hic : cleanB into = true)
    (hib : oidsBelowB c into = true)
    (hm1 : mergeFrom ≠ rNull) (hm2 : mergeFrom ≠ rUndef)
    (hmc : cleanB mergeFrom = true) (hmn : (rNest mergeFrom : Int) ≤ depth) :
    ∃ into' c', mergeStepR recur into mergeFrom k depth c =
        some (into', mergeFrom, c') ∧ c ≤ c' ∧ into'.isObject = true ∧
      cleanB into' = true ∧ oidsBelowB c' into' = true ∧
      (∀ o, occursB o into' = true → occursB o into = true ∨ c ≤ o) := by
  obtain ⟨oid, cs, einto, hcs⟩ := clean_isObject_rObj hic hio
  subst einto
  obtain ⟨fv0, hfv0⟩ := getMemberR_nonnull hm1 hm2 k
  obtain ⟨hfc, hfb, hfo, hfn⟩ := getMemberR_facts hfv0 hmc
  have hgi : getMemberR (rObj oid cs) k =
      some ((propLookupR cs k).getD rUndef) := rfl
  obtain ⟨hic0, hib0, hio0, hin0⟩ := getMemberR_facts hgi hic
  have hib0c : oidsBelowB c ((propLookupR cs k).getD rUndef) = true :=
    hib0 c hib
  have hdef : deferredOriginalStepR (rObj oid cs) mergeFrom k fv0
      ((propLookupR cs k).getD rUndef) = some mergeFrom := by
    simp [deferredOriginalStepR, (cleanB_flags hfc).1]
  have hdate : dateAssignR (rObj oid cs) k fv0 = some (rObj oid cs) := by
    simp [dateAssignR, (cleanB_flags hfc).2.1]
  -- into facts unpacked
  simp only [oidsBelowB, Bool.and_eq_true, decide_eq_true_eq] at hib
  simp only [cleanB] at hic
  simp only [mergeStepR, hfv0, hgi, Option.bind_eq_bind, Option.some_bind, hdef]
  simp only [mergeStepRestR, hfv0, hdate, hgi, Option.bind_eq_bind,
    Option.some_bind]
  rw [if_neg (by simp [(cleanB_flags hfc).2.2])]
  have hivdef : ((propLookupR cs k).getD rUndef).isDeferred = false :=
    (cleanB_flags hic0).1
  by_cases hbo : ((propLookupR cs k).getD rUndef).isObject = true ∧
      fv0.isObject = true
  · rw [if_pos ⟨hbo.1, hbo.2, by simp [hivdef]⟩]
    have hge1 : 1 ≤ rNest fv0 := by
      obtain ⟨o2, ps2, e2, _⟩ := clean_isObject_rObj hfc hbo.2
      subst e2
      have : rNest (rObj o2 ps2) = 1 + rNestP ps2 := rfl
      omega
    have hnest1 : (rNest fv0 : Int) ≤ depth - 1 := by
      rcases hfn with h0 | hlt
      · omega
      · omega
    obtain ⟨m, c1, hm, hcc1, _, hmc2, hmb2, hocc2⟩ :=
      hrec ((propLookupR cs k).getD rUndef) fv0 (depth - 1) c hbo.1 hic0
        hib0c hfc hnest1
    simp only [hm, Option.some_bind, setMemberR, Option.pure_def]
    refine ⟨rObj oid (propWriteR cs k m), c1, rfl, hcc1, rfl, ?_, ?_, ?_⟩
    · simp only [cleanB]
      exact (writeR_facts cs k m).1 hic hmc2
    · simp only [oidsBelowB, Bool.and_eq_true, decide_eq_true_eq]
      refine ⟨by omega, ?_⟩
      exact (writeR_facts cs k m).2.1 c1
        (oidsBelowP_mono c c1 cs hcc1 hib.2) hmb2
    · intro o ho
      simp only [occursB, Bool.or_eq_true, beq_iff_eq] at ho ⊢
      rcases ho with e | ho
      · exact Or.inl (Or.inl e)
      · rcases (writeR_facts cs k m).2.2 o ho with h | h
        · exact Or.inl (Or.inr h)
        · rcases hocc2 o h with h2 | h2
          · have h3 := hio0 o h2
            simp only [occursB, Bool.or_eq_true, beq_iff_eq] at h3
            exact Or.inl h3
          · exact Or.inr h2
  · by_cases hcl : fv0.truthy = true ∧ fv0.typeofObject = true
    · rw [if_neg (fun hz => hbo ⟨hz.1, hz.2.1⟩), if_pos hcl]
      have hge1 : 1 ≤ rNest fv0 := clean_container_nest hfc hcl.1 hcl.2
      have hnest1 : (rNest fv0 : Int) ≤ depth - 1 := by
        rcases hfn with h0 | hlt
        · omega
        · omega
      have hclone := cloneRF_fresh (rSize fv0) fv0 (depth - 1) c
        (Nat.le_refl _) hfc hnest1
      rcases hre : cloneRF (rSize fv0) fv0 (depth - 1) c with ⟨w, c1⟩
      rw [hre] at hclone
      obtain ⟨q1, q2, q3, q4⟩ := hclone
      simp only at q1 q2 q3 q4
      simp only [cloneR, hre, setMemberR, Option.some_bind, Option.pure_def]
      refine ⟨rObj oid (propWriteR cs k w), c1, rfl, q1, rfl, ?_, ?_, ?_⟩
      · simp only [cleanB]
        exact (writeR_facts cs k w).1 hic q2
      · simp only [oidsBelowB, Bool.and_eq_true, decide_eq_true_eq]
        refine ⟨by omega, ?_⟩
        exact (writeR_facts cs k w).2.1 c1
          (oidsBelowP_mono c c1 cs q1 hib.2) q3
      · intro o ho
        simp only [occursB, Bool.or_eq_true, beq_iff_eq] at ho ⊢
        rcases ho with e | ho
        · exact Or.inl (Or.inl e)
        · rcases (writeR_facts cs k w).2.2 o ho with h | h
          · exact Or.inl (Or.inr h)
          · exact Or.inr (q4 o h)
    · rw [if_neg (fun hz => hbo ⟨hz.1, hz.2.1⟩), if_neg hcl]
      have hnooid : ∀ o, occursB o fv0 = false := clean_scalar_no_oid hfc hcl
      have hfin : ∀ o,
          occursB o (rObj oid (propWriteR cs k fv0)) = true →
          occursB o (rObj oid cs) = true ∨ c ≤ o := by
        intro o ho
        simp only [occursB, Bool.or_eq_true, beq_iff_eq] at ho ⊢
        rcases ho with e | ho
        · exact Or.inl (Or.inl e)
        · rcases (writeR_facts cs k fv0).2.2 o ho with h | h
          · exact Or.inl (Or.inr h)
          · rw [hnooid o] at h
            exact Bool.noConfusion h
      have hcln : cleanB (rObj oid (propWriteR cs k fv0)) = true := by
        simp only [cleanB]
        exact (writeR_facts cs k fv0).1 hic hfc
      have hblw : oidsBelowB c (rObj oid (propWriteR cs k fv0)) = true := by
        simp only [oidsBelowB, Bool.and_eq_true, decide_eq_true_eq]
        refine ⟨hib.1, ?_⟩
        exact (writeR_facts cs k fv0).2.1 c hib.2 (by
          cases hzz : occursB 0 fv0
          all_goals
            cases fv0 <;>
              simp_all [cleanB, RVal.truthy, RVal.typeofObject, oidsBelowB])
      by_cases h5 : hasOwnPropR mergeFrom k = true
      · rw [if_pos h5]
        simp only [setMemberR, Option.some_bind, Option.pure_def]
        exact ⟨rObj oid (propWriteR cs k fv0), c, rfl, Nat.le_refl _, rfl,
          hcln, hblw, hfin⟩
      · rw [if_neg h5]
        simp only [setMemberR, Option.some_bind, Option.pure_def]
        exact ⟨rObj oid (propWriteR cs k fv0), c, rfl, Nat.le_refl _, rfl,
          hcln, hblw, hfin⟩

theorem goPropsR_frame (recur : RVal → List RVal → Int → Nat → Option (RVal × Nat))
    (hrec : ∀ (i f : RVal) (d : Int) (cc : Nat),
      i.isObject = true → cleanB i = true → oidsBelowB cc i = true →
      cleanB f = true → (rNest f : Int) ≤ d →
      ∃ r c', recur i [f] d cc = some (r, c') ∧ cc ≤ c' ∧ r.isObject = true ∧
        cleanB r = true ∧ oidsBelowB c' r = true ∧
        (∀ o, occursB o r = true → occursB o i = true ∨ cc ≤ o))
    (mergeFrom : RVal) (depth : Int)
    (hm1 : mergeFrom ≠ rNull) (hm2 : mergeFrom ≠ rUndef)
    (hmc : cleanB mergeFrom = true) (hmn : (rNest mergeFrom : Int) ≤ depth) :
    ∀ (ks : List String) (into : RVal) (c : Nat),
    into.isObject = true → cleanB into = true → oidsBelowB c into = true →
    ∃ r c', goPropsR recur into mergeFrom ks depth c = some (r, c') ∧
      c ≤ c' ∧ r.isObject = true ∧ cleanB r = true ∧
      oidsBelowB c' r = true ∧
      (∀ o, occursB o r = true → occursB o into = true ∨ c ≤ o) := by
  intro ks
  induction ks with
  | nil =>
    intro into c hio hic hib
    exact ⟨into, c, rfl, Nat.le_refl _, hio, hic, hib, fun o ho => Or.inl ho⟩
  | cons k rest ih =>
    intro into c hio hic hib
    obtain ⟨into1, c1, hstep, hc1, ho1, hcl1, hb1, hocc1⟩ :=
      mergeStepR_frame recur hrec into mergeFrom k depth c hio hic hib
        hm1 hm2 hmc hmn
    obtain ⟨r, c', hloop, hc2, ho2, hcl2, hb2, hocc2⟩ :=
      ih into1 c1 ho1 hcl1 hb1
    refine ⟨r, c', ?_, by omega, ho2, hcl2, hb2, ?_⟩
    · simp only [goPropsR, hstep, Option.bind_eq_bind, Option.some_bind]
      exact hloop
    · intro o ho
      rcases hocc2 o ho with h | h
      · rcases hocc1 o h with h2 | h2
        · exact Or.inl h2
        · exact Or.inr h2
      · exact Or.inr (by omega)

theorem goSourcesR_frame (recur : RVal → List RVal → Int → Nat → Option (RVal × Nat))
    (hrec : ∀ (i f : RVal) (d : Int) (cc : Nat),
      i.isObject = true → cleanB i = true → oidsBelowB cc i = true →
      cleanB f = true → (rNest f : Int) ≤ d →
      ∃ r c', recur i [f] d cc = some (r, c') ∧ cc ≤ c' ∧ r.isObject = true ∧
        cleanB r = true ∧ oidsBelowB c' r = true ∧
        (∀ o, occursB o r = true → occursB o i = true ∨ cc ≤ o))
    (depth : Int) :
    ∀ (srcs : List RVal) (into : RVal) (c : Nat),
    into.isObject = true → cleanB into = true → oidsBelowB c into = true →
    (∀ s ∈ srcs, cleanB s = true ∧ (rNest s : Int) ≤ depth) →
    ∃ r c', goSourcesR recur into srcs depth c = some (r, c') ∧
      c ≤ c' ∧ r.isObject = true ∧ cleanB r = true ∧
      oidsBelowB c' r = true ∧
      (∀ o, occursB o r = true → occursB o into = true ∨ c ≤ o) := by
  intro srcs
  induction srcs with
  | nil =>
    intro into c hio hic hib _
    exact ⟨into, c, rfl, Nat.le_refl _, hio, hic, hib, fun o ho => Or.inl ho⟩
  | cons mergeFrom rest ih =>
    intro into c hio hic hib hsrc
    by_cases hnul : mergeFrom = rNull ∨ mergeFrom = rUndef
    · obtain ⟨r, c', hrest, hc2, ho2, hcl2, hb2, hocc2⟩ :=
        ih into c hio hic hib (fun s hs => hsrc s (by simp [hs]))
      refine ⟨r, c', ?_, hc2, ho2, hcl2, hb2, hocc2⟩
      rcases hnul with rfl | rfl <;>
        simp only [goSourcesR, forInKeysR, forInPropsR, List.map_nil,
          goPropsR, Option.bind_eq_bind, Option.some_bind, hrest]
    · push_neg at hnul
      obtain ⟨hsc, hsn⟩ := hsrc mergeFrom (by simp)
      obtain ⟨m, c1, hm, hc1, hmo, hmc2, hmb, hocc1⟩ :=
        goPropsR_frame recur hrec mergeFrom depth hnul.1 hnul.2 hsc hsn
          (forInKeysR mergeFrom) into c hio hic hib
      obtain ⟨r, c', hrest, hc2, ho2, hcl2, hb2, hocc2⟩ :=
        ih m c1 hmo hmc2 hmb (fun s hs => hsrc s (by simp [hs]))
      refine ⟨r, c', ?_, by omega, ho2, hcl2, hb2, ?_⟩
      · simp only [goSourcesR, hm, Option.bind_eq_bind, Option.some_bind]
        exact hrest
      · intro o ho
        rcases hocc2 o ho with h | h
        · rcases hocc1 o h with h2 | h2
          · exact Or.inl h2
          · exact Or.inr h2
        · exact Or.inr (by omega)

/-- `util.extendDeep` on the identity layer: result identities come
from the destination or the fresh allocations of the embedded clones,
never from a source. -/
theorem extendRFC_frame : ∀ fuel (into : RVal) (srcs : List RVal)
    (depth : Int) (c : Nat),
    into.isObject = true → cleanB into = true → oidsBelowB c into = true →
    (∀ s ∈ srcs, cleanB s = true ∧ (rNest s : Int) ≤ depth) →
    ∃ r c', extendRFC fuel into srcs depth c = some (r, c') ∧
      c ≤ c' ∧ r.isObject = true ∧ cleanB r = true ∧
      oidsBelowB c' r = true ∧
      (∀ o, occursB o r = true → occursB o into = true ∨ c ≤ o) := by
  intro fuel
  induction fuel with
  | zero =>
    intro into srcs depth c hio hic hib _
    exact ⟨into, c, rfl, Nat.le_refl _, hio, hic, hib, fun o ho => Or.inl ho⟩
  | succ fuel ih =>
    intro into srcs depth c hio hic hib hsrc
    by_cases hd : depth < 0
    · refine ⟨into, c, ?_, Nat.le_refl _, hio, hic, hib, fun o ho => Or.inl ho⟩
      simp [extendRFC, hd]
    · obtain ⟨r, c', hr, hc, ho2, hcl2, hb2, hocc2⟩ :=
        goSourcesR_frame (extendRFC fuel)
          (fun i f d cc hio' hic' hib' hfc' hfn' =>
            ih i [f] d cc hio' hic' hib'
              (by
                intro s hs
                simp only [List.mem_singleton] at hs
                subst hs
                exact ⟨hfc', hfn'⟩))
          depth srcs into c hio hic hib hsrc
      refine ⟨r, c', ?_, hc, ho2, hcl2, hb2, hocc2⟩
      simp only [extendRFC, if_neg hd]
      exact hr

/-- **C6 (amended).**  On the fragment without dates, regexes,
deferred or raw instances, with container nesting within the default
depth bound and sources sharing no live node with the destination,
`extendDeep` never aliases a source node into the merged destination:
every identity reachable from a source is absent from the result, so
mutating any source-reachable object afterwards (`mutAt`) leaves the
merged destination — and everything observable in it — unchanged.
Outside this fragment the property fails (see the counterexample):
`Date`/`RegExp` values are assigned by reference, the `_original`
back-reference aliases destination nodes into a source, and clone
truncation at the depth bound shares whole subtrees. -/
theorem extendDeep_source_frame (into : RVal) (srcs : List RVal) (c : Nat)
    (hio : into.isObject = true) (hic : cleanB into = true)
    (hib : oidsBelowB c into = true)
    (hsrc : ∀ s ∈ srcs, cleanB s = true ∧ oidsBelowB c s = true ∧
      (rNest s : Int) ≤ 20)
    (hdisj : ∀ o, occursB o into = true → ∀ s ∈ srcs, occursB o s = false)
    (hlast : ∀ s, srcs.getLast? = some s → s.isNum = false) :
    ∃ r c', extendR into srcs c = some (r, c') ∧
      ∀ o (s : RVal), s ∈ srcs → occursB o s = true →
        occursB o r = false ∧
        ∀ w, mutAt o w r = r ∧ stripR (mutAt o w r) = stripR r := by
  cases srcs with
  | nil =>
    obtain ⟨r, c', hr, _, _, _, _, _⟩ := extendRFC_frame 21 into [rUndef] 20 c
      hio hic hib
      (by
        intro s hs
        simp only [List.mem_singleton] at hs
        subst hs
        exact ⟨rfl, by decide⟩)
    refine ⟨r, c', hr, ?_⟩
    intro o s hs
    cases hs
  | cons s0 rest =>
    cases hl : (s0 :: rest).getLast? with
    | none => exact absurd hl (by simp)
    | some lastv =>
      have hred : extendR into (s0 :: rest) c =
          extendRFC 21 into (s0 :: rest) 20 c := by
        have hnum := hlast lastv hl
        cases lastv
        case rNum n => simp [RVal.isNum] at hnum
        all_goals simp only [extendR, hl]
      obtain ⟨r, c', hr, hcc, _, _, _, hocc⟩ :=
        extendRFC_frame 21 into (s0 :: rest) 20 c hio hic hib
          (fun s hs => ⟨(hsrc s hs).1, (hsrc s hs).2.2⟩)
      refine ⟨r, c', by rw [hred]; exact hr, ?_⟩
      intro o s hs hos
      have holt : o < c := occurs_lt_of_below c o s (hsrc s hs).2.1 hos
      have hor : occursB o r = false := by
        cases hzz : occursB o r with
        | false => rfl
        | true =>
          exfalso
          rcases hocc o hzz with h | h
          · rw [hdisj o h s hs] at hos
            exact Bool.noConfusion hos
          · omega
      refine ⟨hor, fun w => ?_⟩
      have heq := mutAt_no_occurs o w r hor
      exact ⟨heq, by rw [heq]⟩

/-- Witness for C6's amended theorem: a destination `{}` (identity 0)
and one source with a nested clean object, distinct identities. -/
theorem extendDeep_source_frame_witness :
    ∃ r c', extendR (rObj 0 [])
        [rObj 1 [("a", rNum 1), ("b", rObj 2 [("c", rStr "x")])]] 5 =
        some (r, c') ∧
      ∀ o (s : RVal),
        s ∈ [rObj 1 [("a", rNum 1), ("b", rObj 2 [("c", rStr "x")])]] →
        occursB o s = true →
        occursB o r = false ∧
        ∀ w, mutAt o w r = r ∧ stripR (mutAt o w r) = stripR r :=
  extendDeep_source_frame (rObj 0 [])
    [rObj 1 [("a", rNum 1), ("b", rObj 2 [("c", rStr "x")])]] 5
    (by decide) (by decide) (by decide)
    (by
      intro s hs
      simp only [List.mem_singleton] at hs
      subst hs
      refine ⟨by decide, by decide, by decide⟩)
    (by
      intro o ho s hs
      simp only [List.mem_singleton] at hs
      subst hs
      have : o = 0 := by
        simp only [occursB, occursP, Bool.or_eq_true, beq_iff_eq] at ho
        rcases ho with e | h
        · omega
        · exact absurd h (by decide)
      subst this
      decide)
    (by
      intro s hl
      simp only [List.getLast?] at hl
      cases hl
      decide)

end NodeConfig
